import Mathlib

/-!
# deeplayer audio preprocessor: mel spectrogram and resampler

A shallow embedding of `mel_spectrogram.cpp` and `resampler.cpp`.

* `float` values are elements of an ordered field `α`; the theorems read them over `ℝ`.
* The C math library (`std::cos`, `std::sin`, `std::log`, `std::log10`, `std::pow`, `M_PI`)
  is a parameter `MathFns α`; over `ℝ` it is instantiated with the real functions.
* `std::vector<float>` is `List α`.  An access outside the vector is undefined in the
  source; the model reads `0` there and drops the write.
* `int` is `Int`/`Nat` with the 32-bit conversions and overflows written out
  (`wrap32`, and `none` where the source overflows a signed `int`).
-/

namespace Deeplayer

/-- The C math library functions called by the sources. -/
structure MathFns (α : Type) where
  /-- `std::cos` -/
  cos : α → α
  /-- `std::sin` -/
  sin : α → α
  /-- `std::log` -/
  log : α → α
  /-- `std::log10` -/
  log10 : α → α
  /-- `std::pow` -/
  pow : α → α → α
  /-- `M_PI` -/
  pi : α

/-- `MelSpectrogram::kNumMelBands` -/
def kNumMelBands : Nat := 80
/-- `MelSpectrogram::kWindowSize` -/
def kWindowSize : Nat := 400
/-- `MelSpectrogram::kHopSize` -/
def kHopSize : Nat := 160
/-- `MelSpectrogram::kSampleRate` -/
def kSampleRate : Nat := 16000
/-- `MelSpectrogram::kFftSize` -/
def kFftSize : Nat := 512
/-- `MelSpectrogram::kNumFftBins = kFftSize / 2 + 1` -/
def kNumFftBins : Nat := kFftSize / 2 + 1

section Model

variable {α : Type} [LinearOrderedField α]

/-- `MelSpectrogram::kMinFreq = 0.0f` -/
def kMinFreq : α := 0
/-- `MelSpectrogram::kMaxFreq = 8000.0f` -/
def kMaxFreq : α := 8000

/-- `MelSpectrogram::hz_to_mel`: `2595.0f * std::log10(1.0f + hz / 700.0f)`. -/
def hz_to_mel (M : MathFns α) (hz : α) : α :=
  2595 * M.log10 (1 + hz / 700)

/-- `MelSpectrogram::mel_to_hz`: `700.0f * (std::pow(10.0f, mel / 2595.0f) - 1.0f)`. -/
def mel_to_hz (M : MathFns α) (mel : α) : α :=
  700 * (M.pow 10 (mel / 2595) - 1)

/-- First loop of `init_mel_filterbank`:
`mel_points[i] = mel_min + (mel_max - mel_min) * i / (kNumMelBands + 1)` for `i < 82`. -/
def mel_points (M : MathFns α) : List α :=
  let mel_min := hz_to_mel M kMinFreq
  let mel_max := hz_to_mel M kMaxFreq
  (List.range (kNumMelBands + 2)).map fun (i : Nat) =>
    mel_min + (mel_max - mel_min) * (i : α) / ((kNumMelBands + 1 : Nat) : α)

/-- Second loop of `init_mel_filterbank`: `hz_points[i] = mel_to_hz(mel_points[i])`. -/
def hz_points (M : MathFns α) : List α :=
  (mel_points M).map (mel_to_hz M)

/-- Third loop of `init_mel_filterbank`:
`bin_points[i] = static_cast<int>(std::floor((kFftSize + 1) * hz_points[i] / kSampleRate))`. -/
def bin_points [FloorRing α] (M : MathFns α) : List Int :=
  (hz_points M).map fun (hz : α) =>
    ⌊((kFftSize + 1 : Nat) : α) * hz / ((kSampleRate : Nat) : α)⌋

/-- The store `row[k] = v` for an `int` index `k`. -/
def setAt (row : List α) (k : Int) (v : α) : List α :=
  if 0 ≤ k then row.set k.toNat v else row

/-- The rising loop of `init_mel_filterbank`:
`for (int k = left; k < center && k < kNumFftBins; k++)
   if (center != left) row[k] = static_cast<float>(k - left) / (center - left);` -/
def risingLoop (left center : Int) (row : List α) : List α :=
  (List.range (min center (kNumFftBins : Int) - left).toNat).foldl
    (fun (row : List α) (t : Nat) =>
      let k : Int := left + (t : Int)
      if center ≠ left then
        setAt row k (((k - left : Int) : α) / ((center - left : Int) : α))
      else row)
    row

/-- The falling loop of `init_mel_filterbank`:
`for (int k = center; k < right && k < kNumFftBins; k++)
   if (right != center) row[k] = static_cast<float>(right - k) / (right - center);` -/
def fallingLoop (center right : Int) (row : List α) : List α :=
  (List.range (min right (kNumFftBins : Int) - center).toNat).foldl
    (fun (row : List α) (t : Nat) =>
      let k : Int := center + (t : Int)
      if right ≠ center then
        setAt row k (((right - k : Int) : α) / ((right - center : Int) : α))
      else row)
    row

/-- One row of the filterbank: `mel_filterbank_[m].resize(kNumFftBins, 0.0f)` followed by
the rising and the falling loop for `(left, center, right)`. -/
def filterRow (left center right : Int) : List α :=
  fallingLoop center right (risingLoop left center (List.replicate kNumFftBins (0 : α)))

/-- `MelSpectrogram::init_mel_filterbank`: the value of `mel_filterbank_` it leaves. -/
def init_mel_filterbank [FloorRing α] (M : MathFns α) : List (List α) :=
  let bins := bin_points M
  (List.range kNumMelBands).map fun (m : Nat) =>
    filterRow (bins.getD m 0) (bins.getD (m + 1) 0) (bins.getD (m + 2) 0)

/-- `MelSpectrogram::init_hann_window`:
`hann_window_[i] = 0.5f * (1.0f - std::cos(2.0f * M_PI * i / kWindowSize))`. -/
def init_hann_window (M : MathFns α) : List α :=
  (List.range kWindowSize).map fun (i : Nat) =>
    (1 / 2 : α) * (1 - M.cos (2 * M.pi * (i : α) / ((kWindowSize : Nat) : α)))

/-- The value of a 64-bit `size_t` or of an `int` expression after conversion to a 32-bit
`int`: reduced modulo `2^32` into `[-2^31, 2^31)`. -/
def wrap32 (x : Int) : Int :=
  (x + 2147483648) % 4294967296 - 2147483648

/-- The result of an `int` operation whose exact value is `x`: `none` when `x` is not
representable (signed overflow is undefined in the source). -/
def chk32 (x : Int) : Option Int :=
  if -2147483648 ≤ x ∧ x < 2147483648 then some x else none

/-- The inner loop of the bit-reversal stage, `for (; j & bit; bit >>= 1) j ^= bit;`,
returning the final `(j, bit)`.  Both are non-negative `int`s, so the bit operations are those
of `Nat`. -/
def bitLoop (j bit : Nat) : Nat × Nat :=
  if _h : j &&& bit ≠ 0 then bitLoop (j ^^^ bit) (bit >>> 1) else (j, bit)
termination_by bit
decreasing_by
  have hb : bit ≠ 0 := by
    rintro rfl
    simp at _h
  rw [Nat.shiftRight_eq_div_pow]
  omega

/-- One pass of the body of the bit-reversal loop on `j`:
`int bit = n >> 1; for (; j & bit; bit >>= 1) j ^= bit; j ^= bit;`. -/
def nextRev (n j : Nat) : Nat :=
  let r := bitLoop j (n >>> 1)
  r.1 ^^^ r.2

/-- `std::swap(v[i], v[j])`. -/
def swapAt (v : List α) (i j : Nat) : List α :=
  (v.set i (v.getD j 0)).set j (v.getD i 0)

/-- The body of the bit-reversal loop of `fft` on the state `(j, real, imag)` at index `i`:
`int bit = n >> 1; for (; j & bit; bit >>= 1) j ^= bit; j ^= bit;
if (i < j) { std::swap(real[i], real[j]); std::swap(imag[i], imag[j]); }`. -/
def bitReversalStep (n : Nat) (st : Nat × List α × List α) (i : Nat) : Nat × List α × List α :=
  let j := nextRev n st.1
  if i < j then (j, swapAt st.2.1 i j, swapAt st.2.2 i j) else (j, st.2.1, st.2.2)

/-- The bit-reversal stage of `fft`: `for (int i = 1, j = 0; i < n; i++) { ... }`.
The loop runs for `i = 1, ..., n - 1`, not at all when `n ≤ 1`. -/
def bitReversal (n : Int) (real imag : List α) : List α × List α :=
  let st := (List.range' 1 (n.toNat - 1)).foldl (bitReversalStep n.toNat) (0, real, imag)
  (st.2.1, st.2.2)

/-- Loop state of the butterfly loop. -/
structure Butterfly (α : Type) where
  /-- `cur_real` -/
  cur_real : α
  /-- `cur_imag` -/
  cur_imag : α
  /-- `real` -/
  real : List α
  /-- `imag` -/
  imag : List α

/-- One iteration of the butterfly loop of `fft` at block start `i`, offset `j`, stage `len`. -/
def butterflyStep (w_real w_imag : α) (i len : Nat) (st : Butterfly α) (j : Nat) : Butterfly α :=
  let t_real := st.cur_real * st.real.getD (i + j + len / 2) 0
    - st.cur_imag * st.imag.getD (i + j + len / 2) 0
  let t_imag := st.cur_real * st.imag.getD (i + j + len / 2) 0
    + st.cur_imag * st.real.getD (i + j + len / 2) 0
  let real1 := st.real.set (i + j + len / 2) (st.real.getD (i + j) 0 - t_real)
  let imag1 := st.imag.set (i + j + len / 2) (st.imag.getD (i + j) 0 - t_imag)
  let real2 := real1.set (i + j) (real1.getD (i + j) 0 + t_real)
  let imag2 := imag1.set (i + j) (imag1.getD (i + j) 0 + t_imag)
  let new_real := st.cur_real * w_real - st.cur_imag * w_imag
  let new_imag := st.cur_real * w_imag + st.cur_imag * w_real
  { cur_real := new_real, cur_imag := new_imag, real := real2, imag := imag2 }

/-- The butterfly loop of `fft` for one block:
`cur = 1; for (int j = 0; j < len / 2; j++) { ... }`. -/
def butterflyLoop (w_real w_imag : α) (i len : Nat) (real imag : List α) : List α × List α :=
  let st := (List.range (len / 2)).foldl (butterflyStep w_real w_imag i len)
    { cur_real := 1, cur_imag := 0, real := real, imag := imag }
  (st.real, st.imag)

/-- The block loop of `fft`, `for (int i = 0; i < n; i += len)`, from block start `i`.
The first argument is fuel; the result is `none` when the fuel runs out or `i += len`
overflows `int`. -/
def blockLoop (w_real w_imag : α) (n : Int) (len : Nat) :
    Nat → Nat → List α → List α → Option (List α × List α)
  | 0, _, _, _ => none
  | fuel + 1, i, real, imag =>
    if (i : Int) < n then
      let r := butterflyLoop w_real w_imag i len real imag
      if i + len < 2147483648 then blockLoop w_real w_imag n len fuel (i + len) r.1 r.2
      else none
    else some (real, imag)

/-- The stage loop of `fft`, `for (int len = 2; len <= n; len <<= 1)`, from stage `len`.
The first argument is fuel.  When `len <<= 1` leaves the range of `int` the source continues
with `len = INT_MIN`, for which `i += len` overflows in the block loop: the result is `none`. -/
def stageLoop (M : MathFns α) (n : Int) :
    Nat → Nat → List α → List α → Option (List α × List α)
  | 0, _, _, _ => none
  | fuel + 1, len, real, imag =>
    if (len : Int) ≤ n then
      let ang := 2 * M.pi / (len : α)
      let w_real := M.cos ang
      let w_imag := -M.sin ang
      match blockLoop w_real w_imag n len (n.toNat + 1) 0 real imag with
      | none => none
      | some r =>
        if 2 * len < 2147483648 then stageLoop M n fuel (2 * len) r.1 r.2 else none
    else some (real, imag)

/-- `MelSpectrogram::fft`: the contents of `real` and `imag` when it returns, `none` when it
does not return normally.  `n = static_cast<int>(real.size())`. -/
def fft (M : MathFns α) (real imag : List α) : Option (List α × List α) :=
  let n := wrap32 (real.length : Int)
  let r := bitReversal n real imag
  stageLoop M n 32 2 r.1 r.2

/-- The members of a `MelSpectrogram` object. -/
structure MelSpectrogram (α : Type) where
  /-- `hann_window_` -/
  hann_window_ : List α
  /-- `mel_filterbank_` -/
  mel_filterbank_ : List (List α)

/-- `MelSpectrogram::MelSpectrogram()`. -/
def MelSpectrogram.new [FloorRing α] (M : MathFns α) : MelSpectrogram α :=
  { hann_window_ := init_hann_window M, mel_filterbank_ := init_mel_filterbank M }

/-- The value of `num_frames` in `compute`:
`(static_cast<int>(pcm.size()) - kWindowSize) / kHopSize + 1`, `none` on signed overflow. -/
def numFrames (size : Nat) : Option Int :=
  (chk32 (wrap32 (size : Int) - (kWindowSize : Int))).bind fun d =>
    chk32 (Int.tdiv d (kHopSize : Int) + 1)

/-- Windowing in `compute`: `std::fill` of `fft_real` with zero, then
`fft_real[i] = pcm[start + i] * hann_window_[i]` for `i < kWindowSize`. -/
def windowFrame (hann pcm : List α) (start : Nat) (fft_real : List α) : List α :=
  (List.range kWindowSize).foldl
    (fun (buf : List α) (i : Nat) => buf.set i (pcm.getD (start + i) 0 * hann.getD i 0))
    (List.replicate fft_real.length 0)

/-- Power spectrum loop in `compute`:
`power_spectrum[k] = fft_real[k] * fft_real[k] + fft_imag[k] * fft_imag[k]`. -/
def powerSpectrum (fft_real fft_imag power_spectrum : List α) : List α :=
  (List.range kNumFftBins).foldl
    (fun (ps : List α) (k : Nat) =>
      ps.set k (fft_real.getD k 0 * fft_real.getD k 0 + fft_imag.getD k 0 * fft_imag.getD k 0))
    power_spectrum

/-- Energy loop in `compute`:
`energy = 0; for k < kNumFftBins: energy += mel_filterbank_[m][k] * power_spectrum[k]`. -/
def bandEnergy (row power_spectrum : List α) : α :=
  (List.range kNumFftBins).foldl
    (fun (energy : α) (k : Nat) => energy + row.getD k 0 * power_spectrum.getD k 0) 0

/-- Mel loop in `compute` for one frame:
`mel_output[frame * kNumMelBands + m] = std::log(std::max(energy, 1e-10f))` for `m < 80`;
`none` when the index overflows `int`. -/
def melLoop (M : MathFns α) (fb : List (List α)) (power_spectrum : List α) (frame : Nat)
    (mel_output : List α) : Option (List α) :=
  (List.range kNumMelBands).foldl
    (fun (out : Option (List α)) (m : Nat) =>
      out.bind fun o =>
        (chk32 ((frame : Int) * (kNumMelBands : Int) + (m : Int))).map fun idx =>
          setAt o idx (M.log (max (bandEnergy (fb.getD m []) power_spectrum) 1e-10)))
    (some mel_output)

/-- The buffers of `compute` that live across frames. -/
structure ComputeState (α : Type) where
  /-- `fft_real` -/
  fft_real : List α
  /-- `fft_imag` -/
  fft_imag : List α
  /-- `power_spectrum` -/
  power_spectrum : List α
  /-- `mel_output` -/
  mel_output : List α

/-- The body of the frame loop of `compute`. -/
def frameStep (M : MathFns α) (self : MelSpectrogram α) (pcm : List α)
    (st : ComputeState α) (frame : Nat) : Option (ComputeState α) :=
  (chk32 ((frame : Int) * (kHopSize : Int))).bind fun start =>
    let fft_real := windowFrame self.hann_window_ pcm start.toNat st.fft_real
    let fft_imag := List.replicate st.fft_imag.length (0 : α)
    (fft M fft_real fft_imag).bind fun r =>
      let power_spectrum := powerSpectrum r.1 r.2 st.power_spectrum
      (melLoop M self.mel_filterbank_ power_spectrum frame st.mel_output).map fun out =>
        { fft_real := r.1, fft_imag := r.2, power_spectrum := power_spectrum, mel_output := out }

/-- `MelSpectrogram::compute`: the returned vector, `none` when the call does not return
normally (signed overflow, or the `std::length_error` thrown by `std::vector` for a negative
`num_frames * kNumMelBands`). -/
def compute (M : MathFns α) (self : MelSpectrogram α) (pcm : List α) : Option (List α) :=
  if pcm.length < kWindowSize then some []
  else
    (numFrames pcm.length).bind fun num_frames =>
      (chk32 (num_frames * (kNumMelBands : Int))).bind fun out_len =>
        if out_len < 0 then none
        else
          ((List.range num_frames.toNat).foldl
            (fun (st : Option (ComputeState α)) (frame : Nat) =>
              st.bind fun s => frameStep M self pcm s frame)
            (some { fft_real := List.replicate kFftSize 0,
                    fft_imag := List.replicate kFftSize 0,
                    power_spectrum := List.replicate kNumFftBins 0,
                    mel_output := List.replicate out_len.toNat 0 })).map
            fun s => s.mel_output

end Model

section Checked

/-!
The loops of `fft` and `compute` once more, now with every vector access checked against the
size of the vector: a step whose indices are in range does what the unchecked step does, any
other step yields `none`.
-/

variable {α : Type} [LinearOrderedField α]

/-- A loop step `f` guarded by the in-range test `ok` of its accesses. -/
def guarded {σ : Type} (ok : σ → Nat → Bool) (f : σ → Nat → σ) (o : Option σ) (i : Nat) :
    Option σ :=
  o.bind fun s => if ok s i then some (f s i) else none

/-- In-range test of the body of the bit-reversal loop: when `i < j` the swaps access
`real[i]`, `real[j]`, `imag[i]`, `imag[j]`. -/
def bitReversalStepOk (n : Nat) (st : Nat × List α × List α) (i : Nat) : Bool :=
  let j := nextRev n st.1
  decide (i < j → i < st.2.1.length ∧ j < st.2.1.length ∧ i < st.2.2.length ∧ j < st.2.2.length)

/-- The bit-reversal stage of `fft` with checked accesses. -/
def bitReversalChecked (n : Int) (real imag : List α) : Option (List α × List α) :=
  ((List.range' 1 (n.toNat - 1)).foldl
    (guarded (bitReversalStepOk n.toNat) (bitReversalStep n.toNat)) (some (0, real, imag))).map
    fun st => (st.2.1, st.2.2)

/-- In-range test of one butterfly: it accesses `real` and `imag` at `i + j + len / 2` and at
`i + j`. -/
def butterflyStepOk (i len : Nat) (st : Butterfly α) (j : Nat) : Bool :=
  decide (i + j + len / 2 < st.real.length ∧ i + j + len / 2 < st.imag.length ∧
    i + j < st.real.length ∧ i + j < st.imag.length)

/-- The butterfly loop of `fft` for one block with checked accesses. -/
def butterflyLoopChecked (w_real w_imag : α) (i len : Nat) (real imag : List α) :
    Option (List α × List α) :=
  ((List.range (len / 2)).foldl
    (guarded (butterflyStepOk i len) (butterflyStep w_real w_imag i len))
    (some { cur_real := 1, cur_imag := 0, real := real, imag := imag })).map
    fun st => (st.real, st.imag)

/-- The block loop of `fft` with checked accesses. -/
def blockLoopChecked (w_real w_imag : α) (n : Int) (len : Nat) :
    Nat → Nat → List α → List α → Option (List α × List α)
  | 0, _, _, _ => none
  | fuel + 1, i, real, imag =>
    if (i : Int) < n then
      match butterflyLoopChecked w_real w_imag i len real imag with
      | none => none
      | some r =>
        if i + len < 2147483648 then blockLoopChecked w_real w_imag n len fuel (i + len) r.1 r.2
        else none
    else some (real, imag)

/-- The stage loop of `fft` with checked accesses. -/
def stageLoopChecked (M : MathFns α) (n : Int) :
    Nat → Nat → List α → List α → Option (List α × List α)
  | 0, _, _, _ => none
  | fuel + 1, len, real, imag =>
    if (len : Int) ≤ n then
      let ang := 2 * M.pi / (len : α)
      let w_real := M.cos ang
      let w_imag := -M.sin ang
      match blockLoopChecked w_real w_imag n len (n.toNat + 1) 0 real imag with
      | none => none
      | some r =>
        if 2 * len < 2147483648 then stageLoopChecked M n fuel (2 * len) r.1 r.2 else none
    else some (real, imag)

/-- `MelSpectrogram::fft` with checked accesses and checked `int` arithmetic. -/
def fftChecked (M : MathFns α) (real imag : List α) : Option (List α × List α) :=
  let n := wrap32 (real.length : Int)
  (bitReversalChecked n real imag).bind fun r => stageLoopChecked M n 32 2 r.1 r.2

/-- Windowing in `compute` with checked accesses: step `i` accesses `fft_real[i]`,
`pcm[start + i]` and `hann_window_[i]`, the sum `start + i` being an `int`. -/
def windowFrameChecked (hann pcm : List α) (start : Nat) (fft_real : List α) :
    Option (List α) :=
  (List.range kWindowSize).foldl
    (guarded
      (fun (buf : List α) (i : Nat) =>
        decide (start + i < 2147483648 ∧ i < buf.length ∧ start + i < pcm.length ∧
          i < hann.length))
      (fun (buf : List α) (i : Nat) => buf.set i (pcm.getD (start + i) 0 * hann.getD i 0)))
    (some (List.replicate fft_real.length 0))

/-- Power spectrum loop in `compute` with checked accesses: step `k` accesses
`power_spectrum[k]`, `fft_real[k]` and `fft_imag[k]`. -/
def powerSpectrumChecked (fft_real fft_imag power_spectrum : List α) : Option (List α) :=
  (List.range kNumFftBins).foldl
    (guarded
      (fun (ps : List α) (k : Nat) =>
        decide (k < ps.length ∧ k < fft_real.length ∧ k < fft_imag.length))
      (fun (ps : List α) (k : Nat) =>
        ps.set k (fft_real.getD k 0 * fft_real.getD k 0 + fft_imag.getD k 0 * fft_imag.getD k 0)))
    (some power_spectrum)

/-- Energy loop in `compute` for band `m` with checked accesses: step `k` accesses
`mel_filterbank_[m][k]` and `power_spectrum[k]`. -/
def bandEnergyChecked (fb : List (List α)) (m : Nat) (power_spectrum : List α) : Option α :=
  (List.range kNumFftBins).foldl
    (guarded
      (fun (_ : α) (k : Nat) =>
        decide (m < fb.length ∧ k < (fb.getD m []).length ∧ k < power_spectrum.length))
      (fun (energy : α) (k : Nat) =>
        energy + (fb.getD m []).getD k 0 * power_spectrum.getD k 0))
    (some 0)

/-- Mel loop in `compute` for one frame with checked accesses and checked `int` index. -/
def melLoopChecked (M : MathFns α) (fb : List (List α)) (power_spectrum : List α) (frame : Nat)
    (mel_output : List α) : Option (List α) :=
  (List.range kNumMelBands).foldl
    (fun (out : Option (List α)) (m : Nat) =>
      out.bind fun o =>
        (bandEnergyChecked fb m power_spectrum).bind fun energy =>
          (chk32 ((frame : Int) * (kNumMelBands : Int) + (m : Int))).bind fun idx =>
            if 0 ≤ idx ∧ idx.toNat < o.length then
              some (setAt o idx (M.log (max energy 1e-10)))
            else none)
    (some mel_output)

/-- The body of the frame loop of `compute` with checked accesses. -/
def frameStepChecked (M : MathFns α) (self : MelSpectrogram α) (pcm : List α)
    (st : ComputeState α) (frame : Nat) : Option (ComputeState α) :=
  (chk32 ((frame : Int) * (kHopSize : Int))).bind fun start =>
    (windowFrameChecked self.hann_window_ pcm start.toNat st.fft_real).bind fun fft_real =>
      let fft_imag := List.replicate st.fft_imag.length (0 : α)
      (fftChecked M fft_real fft_imag).bind fun r =>
        (powerSpectrumChecked r.1 r.2 st.power_spectrum).bind fun power_spectrum =>
          (melLoopChecked M self.mel_filterbank_ power_spectrum frame st.mel_output).map
            fun out =>
              { fft_real := r.1, fft_imag := r.2, power_spectrum := power_spectrum,
                mel_output := out }

/-- `MelSpectrogram::compute` with checked accesses and checked `int` arithmetic: `none` as
soon as an `int` computation overflows or an index falls outside its vector. -/
def computeChecked (M : MathFns α) (self : MelSpectrogram α) (pcm : List α) :
    Option (List α) :=
  if pcm.length < kWindowSize then some []
  else
    (numFrames pcm.length).bind fun num_frames =>
      (chk32 (num_frames * (kNumMelBands : Int))).bind fun out_len =>
        if out_len < 0 then none
        else
          ((List.range num_frames.toNat).foldl
            (fun (st : Option (ComputeState α)) (frame : Nat) =>
              st.bind fun s => frameStepChecked M self pcm s frame)
            (some { fft_real := List.replicate kFftSize 0,
                    fft_imag := List.replicate kFftSize 0,
                    power_spectrum := List.replicate kNumFftBins 0,
                    mel_output := List.replicate out_len.toNat 0 })).map
            fun s => s.mel_output

end Checked

section Specification

/-- Reversal of the `b`-bit binary representation of `i` (specification side): the lowest bit
of `i` becomes bit `b - 1`. -/
def bitRev : Nat → Nat → Nat
  | 0, _ => 0
  | b + 1, i => 2 ^ b * (i % 2) + bitRev b (i / 2)

/-- State of one buffer, compared with its initial contents `orig`, after the bit-reversal
loop has handled the indices `1, ..., c`: the pairs `(p, bitRev b p)` with smaller member at
most `c` are exchanged (specification side). -/
def SwappedUpTo {α : Type} [Zero α] (b : Nat) (orig cur : List α) (c : Nat) : Prop :=
  cur.length = orig.length ∧
  ∀ p : Nat, p < 2 ^ b →
    cur.getD p 0 = if min p (bitRev b p) ≤ c then orig.getD (bitRev b p) 0 else orig.getD p 0

/-- The complex number held at index `p` by a pair of buffers (specification side). -/
def cplx (re im : List ℝ) (p : Nat) : ℂ :=
  ⟨re.getD p 0, im.getD p 0⟩

/-- One butterfly stage with half-length `h` and twiddle `w` applied to a sequence `z`
(specification side): in every block of `2 * h` entries the entry at offset `k < h` becomes
`a + w^k * b` and the entry at offset `k + h` becomes `a - w^k * b`, where `a` and `b` are the
old entries at offsets `k` and `k + h`. -/
def stageFn (w : ℂ) (h : Nat) (z : Nat → ℂ) (p : Nat) : ℂ :=
  if p % (2 * h) < h then z p + w ^ (p % (2 * h)) * z (p + h)
  else z (p - h) - w ^ (p % (2 * h) - h) * z p

/-- The size-`2^s` discrete Fourier sum at frequency `k` of the subsequence of `x` that starts
at `r` and has stride `2^t`, for the roots of unity `W s` (specification side). -/
def dftSub {R : Type} [CommRing R] (W : Nat → R) (x : Nat → R) (s t r k : Nat) : R :=
  ∑ j in Finset.range (2 ^ s), x (r + j * 2 ^ t) * W s ^ (j * k)

/-- The buffers `A` hold, block by block, the size-`2^s` transforms of the `2^t` subsequences
of `x` of stride `2^t`, the block `m` holding the subsequence that starts at `bitRev t m`
(specification side; the invariant of the stage loop of `fft`). -/
def StageInv (W : Nat → ℂ) (x : Nat → ℂ) (s t : Nat) (A : Nat → ℂ) : Prop :=
  ∀ m : Nat, m < 2 ^ t → ∀ k : Nat, k < 2 ^ s →
    A (m * 2 ^ s + k) = dftSub W x s t (bitRev t m) k

/-- The value `v` is the log-mel value of frame `f` and band `m`: the logarithm `logf` of the
floored energy `max(E, 1e-10)`, where `E` is the sum over the 257 bins `k` of
`fb[m][k] * |X k|^2` and `X` is the 512-point transform, with twiddle factors `tw j k`, of the
frame `pcm[160 f + j] * hann[j]` (`j < 400`) padded with zeros (specification side). -/
def IsLogMel (logf : ℝ → ℝ) (tw : Nat → Nat → ℂ) (hann : List ℝ) (fb : List (List ℝ))
    (pcm : List ℝ) (f m : Nat) (v : ℝ) : Prop :=
  v = logf (max (∑ k in Finset.range 257, (fb.getD m []).getD k 0 *
      Complex.normSq (∑ j in Finset.range 512,
        (((if j < 400 then pcm.getD (f * 160 + j) 0 * hann.getD j 0 else 0 : ℝ)) : ℂ) * tw j k))
    1e-10)

end Specification

section ResamplerModel

/-- The functions of libswresample that `Resampler` calls, over an abstract `SwrContext`
state `σ`.  The library is external to the repository. -/
structure SwrLib (σ : Type) (α : Type) where
  /-- `swr_alloc_set_opts2(&ctx, out_layout(dst_channels), FLT, dst_rate,
  in_layout(src_channels), FLT, src_rate, 0, nullptr)`: return code and the context left in
  `ctx` (`none` for a null pointer). -/
  swr_alloc_set_opts2 : (dst_channels dst_rate src_channels src_rate : Int) → Int × Option σ
  /-- `swr_init(ctx)`: return code and the context afterwards. -/
  swr_init : σ → Int × σ
  /-- `swr_get_out_samples(ctx, in_samples)`: return value and the context afterwards. -/
  swr_get_out_samples : σ → Int → Int × σ
  /-- `swr_convert(ctx, &out_buf, out_count, &in_buf, in_count)` with an output buffer of
  `out_len` floats and the input floats `in_buf` (`none` for a null input): return value,
  the output buffer afterwards, the context afterwards. -/
  swr_convert : σ → (out_len : Nat) → (out_count : Int) → (in_buf : Option (List α)) →
    (in_count : Int) → Int × List α × σ

/-- The members of a `Resampler` object. -/
structure Resampler (σ : Type) where
  /-- `swr_ctx_` -/
  swr_ctx_ : σ
  /-- `src_rate_` -/
  src_rate_ : Int
  /-- `dst_rate_` -/
  dst_rate_ : Int

/-- `Resampler::Resampler`: the constructed object, or the message of the
`std::runtime_error` it throws. -/
def Resampler.new {σ α : Type} (L : SwrLib σ α)
    (src_rate dst_rate src_channels dst_channels : Int) : Except String (Resampler σ) :=
  let r := L.swr_alloc_set_opts2 dst_channels dst_rate src_channels src_rate
  match r.2 with
  | none => Except.error "Failed to allocate resampler"
  | some ctx =>
    if r.1 < 0 then Except.error "Failed to allocate resampler"
    else
      let r2 := L.swr_init ctx
      if r2.1 < 0 then Except.error "Failed to initialize resampler"
      else Except.ok { swr_ctx_ := r2.2, src_rate_ := src_rate, dst_rate_ := dst_rate }

/-- `Resampler::resample`: the returned vector and the object afterwards. -/
def Resampler.resample {σ α : Type} (L : SwrLib σ α) (self : Resampler σ) (input : List α) :
    List α × Resampler σ :=
  if input.isEmpty then ([], self)
  else
    let in_samples := wrap32 (input.length : Int)
    let r := L.swr_get_out_samples self.swr_ctx_ in_samples
    let max_out_samples := r.1
    let self1 : Resampler σ := { self with swr_ctx_ := r.2 }
    if max_out_samples ≤ 0 then ([], self1)
    else
      let c := L.swr_convert self1.swr_ctx_ max_out_samples.toNat max_out_samples (some input)
        in_samples
      let out_samples := c.1
      let self2 : Resampler σ := { self1 with swr_ctx_ := c.2.2 }
      if out_samples ≤ 0 then ([], self2)
      else (c.2.1.take out_samples.toNat, self2)

/-- `Resampler::flush`: the returned vector and the object afterwards. -/
def Resampler.flush {σ α : Type} (L : SwrLib σ α) (self : Resampler σ) :
    List α × Resampler σ :=
  let r := L.swr_get_out_samples self.swr_ctx_ 0
  let flush_samples := r.1
  let self1 : Resampler σ := { self with swr_ctx_ := r.2 }
  if flush_samples ≤ 0 then ([], self1)
  else
    let c := L.swr_convert self1.swr_ctx_ flush_samples.toNat flush_samples none 0
    let out_samples := c.1
    let self2 : Resampler σ := { self1 with swr_ctx_ := c.2.2 }
    if out_samples ≤ 0 then ([], self2)
    else (c.2.1.take out_samples.toNat, self2)

/-- A stand-in for libswresample that accepts every configuration and records what it is
given: the context starts as `[src_channels, dst_channels]` and every `swr_convert` call
appends the size of the output buffer in floats, `out_count` and `in_count`.
`swr_get_out_samples` answers `in_samples`. -/
def recordingSwr : SwrLib (List Int) ℝ where
  swr_alloc_set_opts2 := fun dst_channels _ src_channels _ =>
    (0, some [src_channels, dst_channels])
  swr_init := fun ctx => (0, ctx)
  swr_get_out_samples := fun ctx in_samples => (in_samples, ctx)
  swr_convert := fun ctx out_len out_count _ in_count =>
    (0, [], ctx ++ [(out_len : Int), out_count, in_count])

end ResamplerModel

end Deeplayer

namespace Deeplayer

section Rows
variable {α : Type} [LinearOrderedField α]

theorem getD_set_eq {β : Type} (l : List β) (i j : Nat) (a d : β) :
    (l.set i a).getD j d = if i = j ∧ i < l.length then a else l.getD j d := by
  simp only [List.getD_eq_getElem?_getD, List.getElem?_set]
  by_cases h : i = j
  · subst h
    by_cases h2 : i < l.length
    · simp [h2]
    · have h3 : l.length ≤ i := by omega
      simp [h2, List.getElem?_eq_none h3]
  · simp [h]

omit [LinearOrderedField α] in
theorem setAt_length (row : List α) (k : Int) (v : α) : (setAt row k v).length = row.length := by
  unfold setAt; split <;> simp

theorem setAt_getD (row : List α) (k : Int) (v : α) (j : Nat) :
    (setAt row k v).getD j 0 = if k = (j : Int) ∧ j < row.length then v else row.getD j 0 := by
  unfold setAt
  by_cases hk : 0 ≤ k
  · rw [if_pos hk, getD_set_eq]
    have : (k.toNat = j ∧ k.toNat < row.length) ↔ (k = (j : Int) ∧ j < row.length) := by
      constructor
      · rintro ⟨h1, h2⟩; exact ⟨by omega, by omega⟩
      · rintro ⟨h1, h2⟩; exact ⟨by omega, by omega⟩
    simp only [this]
  · rw [if_neg hk]
    have : ¬ (k = (j : Int) ∧ j < row.length) := by rintro ⟨h1, _⟩; omega
    rw [if_neg this]

/-- Reading a row after the stores `row[lo + t] = f (lo + t)` for `t < n`. -/
theorem storeLoop_spec (f : Int → α) (lo : Int) (n : Nat) (row : List α) :
    ((List.range n).foldl (fun (row : List α) (t : Nat) => setAt row (lo + (t : Int)) (f (lo + (t : Int)))) row).length
        = row.length ∧
    ∀ j : Nat,
      ((List.range n).foldl (fun (row : List α) (t : Nat) => setAt row (lo + (t : Int)) (f (lo + (t : Int)))) row).getD j 0
        = if lo ≤ (j : Int) ∧ (j : Int) < lo + n ∧ j < row.length then f j else row.getD j 0 := by
  induction n with
  | zero =>
    refine ⟨by simp, fun j => ?_⟩
    have : ¬ (lo ≤ (j : Int) ∧ (j : Int) < lo + ((0 : Nat) : Int) ∧ j < row.length) := by
      rintro ⟨h1, h2, _⟩; omega
    rw [if_neg this]; rfl
  | succ n ih =>
    obtain ⟨ihl, ihg⟩ := ih
    rw [List.range_succ, List.foldl_append]
    simp only [List.foldl_cons, List.foldl_nil]
    refine ⟨by rw [setAt_length, ihl], fun j => ?_⟩
    rw [setAt_getD, ihl, ihg]
    by_cases h1 : lo + (n : Int) = (j : Int) ∧ j < row.length
    · rw [if_pos h1, if_pos ⟨by omega, by push_cast; omega, h1.2⟩, h1.1]
    · rw [if_neg h1]
      by_cases h2 : lo ≤ (j : Int) ∧ (j : Int) < lo + n ∧ j < row.length
      · rw [if_pos h2, if_pos ⟨h2.1, by push_cast; omega, h2.2.2⟩]
      · rw [if_neg h2, if_neg]
        rintro ⟨h3, h4, h5⟩
        push_cast at h4
        by_cases h6 : (j : Int) = lo + n
        · exact h1 ⟨h6.symm, h5⟩
        · exact h2 ⟨h3, by omega, h5⟩

theorem risingLoop_spec (left center : Int) (row : List α) :
    (risingLoop left center row).length = row.length ∧
    ∀ j : Nat, (risingLoop left center row).getD j 0 =
      if left ≤ (j : Int) ∧ (j : Int) < center ∧ j < kNumFftBins ∧ j < row.length then
        (((j : Int) - left : Int) : α) / ((center - left : Int) : α)
      else row.getD j 0 := by
  unfold risingLoop
  by_cases hc : center = left
  · subst hc
    have h0 : (min center (kNumFftBins : Int) - center).toNat = 0 := by
      have := min_le_left center (kNumFftBins : Int); omega
    rw [h0]
    refine ⟨by simp, fun j => ?_⟩
    have : ¬ (center ≤ (j : Int) ∧ (j : Int) < center ∧ j < kNumFftBins ∧ j < row.length) := by
      rintro ⟨h1, h2, _⟩; omega
    simp [this]
  · have hbody : (fun (row : List α) (t : Nat) =>
        let k : Int := left + (t : Int)
        if center ≠ left then
          setAt row k (((k - left : Int) : α) / ((center - left : Int) : α))
        else row) =
        (fun (row : List α) (t : Nat) => setAt row (left + (t : Int))
          ((fun k : Int => (((k - left : Int) : α) / ((center - left : Int) : α))) (left + (t : Int)))) := by
      funext row t
      simp [hc]
    rw [hbody]
    obtain ⟨hl, hg⟩ := storeLoop_spec
      (fun k : Int => (((k - left : Int) : α) / ((center - left : Int) : α))) left
      (min center (kNumFftBins : Int) - left).toNat row
    refine ⟨hl, fun j => ?_⟩
    rw [hg]
    have hiff : (left ≤ (j : Int) ∧ (j : Int) < left + ((min center (kNumFftBins : Int) - left).toNat : Int)
          ∧ j < row.length) ↔
        (left ≤ (j : Int) ∧ (j : Int) < center ∧ j < kNumFftBins ∧ j < row.length) := by
      have hmin : min center (kNumFftBins : Int) ≤ center := min_le_left _ _
      have hmin2 : min center (kNumFftBins : Int) ≤ (kNumFftBins : Int) := min_le_right _ _
      have hmin3 : min center (kNumFftBins : Int) = center ∨ min center (kNumFftBins : Int) = kNumFftBins := by
        rcases le_total center (kNumFftBins : Int) with h | h
        · left; exact min_eq_left h
        · right; exact min_eq_right h
      constructor
      · rintro ⟨h1, h2, h3⟩
        refine ⟨h1, by omega, by omega, h3⟩
      · rintro ⟨h1, h2, h3, h4⟩
        refine ⟨h1, ?_, h4⟩
        rcases hmin3 with h | h <;> omega
    simp only [hiff]


theorem fallingLoop_spec (center right : Int) (row : List α) :
    (fallingLoop center right row).length = row.length ∧
    ∀ j : Nat, (fallingLoop center right row).getD j 0 =
      if center ≤ (j : Int) ∧ (j : Int) < right ∧ j < kNumFftBins ∧ j < row.length then
        ((right - (j : Int) : Int) : α) / ((right - center : Int) : α)
      else row.getD j 0 := by
  unfold fallingLoop
  by_cases hc : right = center
  · subst hc
    have h0 : (min right (kNumFftBins : Int) - right).toNat = 0 := by
      have := min_le_left right (kNumFftBins : Int); omega
    rw [h0]
    refine ⟨by simp, fun j => ?_⟩
    have : ¬ (right ≤ (j : Int) ∧ (j : Int) < right ∧ j < kNumFftBins ∧ j < row.length) := by
      rintro ⟨h1, h2, _⟩; omega
    simp [this]
  · simp only [ne_eq, hc, not_false_eq_true, if_true]
    obtain ⟨hl, hg⟩ := storeLoop_spec
      (fun k : Int => (((right - k : Int) : α) / ((right - center : Int) : α))) center
      (min right (kNumFftBins : Int) - center).toNat row
    refine ⟨hl, fun j => ?_⟩
    rw [hg]
    have hiff : (center ≤ (j : Int) ∧ (j : Int) < center + ((min right (kNumFftBins : Int) - center).toNat : Int)
          ∧ j < row.length) ↔
        (center ≤ (j : Int) ∧ (j : Int) < right ∧ j < kNumFftBins ∧ j < row.length) := by
      have hmin : min right (kNumFftBins : Int) ≤ right := min_le_left _ _
      have hmin2 : min right (kNumFftBins : Int) ≤ (kNumFftBins : Int) := min_le_right _ _
      have hmin3 : min right (kNumFftBins : Int) = right ∨ min right (kNumFftBins : Int) = kNumFftBins := by
        rcases le_total right (kNumFftBins : Int) with h | h
        · left; exact min_eq_left h
        · right; exact min_eq_right h
      constructor
      · rintro ⟨h1, h2, h3⟩
        refine ⟨h1, by omega, by omega, h3⟩
      · rintro ⟨h1, h2, h3, h4⟩
        refine ⟨h1, ?_, h4⟩
        rcases hmin3 with h | h <;> omega
    simp only [hiff]

/-- The weight a filterbank row holds at bin `j < kNumFftBins`. -/
theorem filterRow_spec (left center right : Int) (j : Nat) (hj : j < kNumFftBins) :
    (filterRow left center right : List α).getD j 0 =
      if left ≤ (j : Int) ∧ (j : Int) < center then
        (((j : Int) - left : Int) : α) / ((center - left : Int) : α)
      else if center ≤ (j : Int) ∧ (j : Int) < right then
        ((right - (j : Int) : Int) : α) / ((right - center : Int) : α)
      else 0 := by
  unfold filterRow
  obtain ⟨hl1, hg1⟩ := risingLoop_spec left center (List.replicate kNumFftBins (0 : α))
  obtain ⟨hl2, hg2⟩ := fallingLoop_spec center right
    (risingLoop left center (List.replicate kNumFftBins (0 : α)))
  rw [hg2, hg1, hl1]
  have hlen : (List.replicate kNumFftBins (0 : α)).length = kNumFftBins := List.length_replicate _ _
  have hz : (List.replicate kNumFftBins (0 : α)).getD j 0 = 0 := by
    simp [List.getD_eq_getElem?_getD, List.getElem?_replicate, hj]
  rw [hlen, hz]
  by_cases h1 : left ≤ (j : Int) ∧ (j : Int) < center
  · have h2 : ¬ (center ≤ (j : Int) ∧ (j : Int) < right ∧ j < kNumFftBins ∧ j < kNumFftBins) := by
      rintro ⟨h, _⟩; omega
    rw [if_neg h2, if_pos ⟨h1.1, h1.2, hj, hj⟩, if_pos h1]
  · rw [if_neg h1]
    by_cases h2 : center ≤ (j : Int) ∧ (j : Int) < right
    · rw [if_pos ⟨h2.1, h2.2, hj, hj⟩, if_pos h2]
    · have h3 : ¬ (center ≤ (j : Int) ∧ (j : Int) < right ∧ j < kNumFftBins ∧ j < kNumFftBins) := by
        rintro ⟨h, h', _⟩; exact h2 ⟨h, h'⟩
      have h4 : ¬ (left ≤ (j : Int) ∧ (j : Int) < center ∧ j < kNumFftBins ∧ j < kNumFftBins) := by
        rintro ⟨h, h', _⟩; exact h1 ⟨h, h'⟩
      rw [if_neg h3, if_neg h4, if_neg h2]

theorem filterRow_length (left center right : Int) :
    (filterRow left center right : List α).length = kNumFftBins := by
  unfold filterRow
  rw [(fallingLoop_spec center right _).1, (risingLoop_spec left center _).1]
  exact List.length_replicate _ _

end Rows
end Deeplayer

namespace Deeplayer

section Bins
variable {α : Type} [LinearOrderedField α] [FloorRing α]

omit [FloorRing α] in
theorem mel_points_length (M : MathFns α) : (mel_points M).length = 82 := by
  simp [mel_points, kNumMelBands]

theorem bin_points_length (M : MathFns α) : (bin_points M).length = 82 := by
  simp [bin_points, hz_points, mel_points_length]

/-- Closed form of the `i`-th boundary bin computed by `init_mel_filterbank`. -/
theorem bin_points_getD (M : MathFns α) (i : Nat) (hi : i < 82) :
    (bin_points M).getD i 0 =
      ⌊(513 : α) * (700 * (M.pow 10 ((2595 * M.log10 (1 + 0 / 700) +
        (2595 * M.log10 (1 + 8000 / 700) - 2595 * M.log10 (1 + 0 / 700)) * (i : α) / 81) / 2595) - 1))
        / 16000⌋ := by
  have hlen : i < (bin_points M).length := by rw [bin_points_length]; exact hi
  rw [List.getD_eq_getElem _ _ hlen]
  simp only [bin_points, hz_points, mel_points, List.getElem_map, List.getElem_range, hz_to_mel,
    mel_to_hz, kMinFreq, kMaxFreq, kNumMelBands, kFftSize, kSampleRate]
  norm_num

theorem init_mel_filterbank_getD (M : MathFns α) (m : Nat) (hm : m < 80) :
    (init_mel_filterbank M).getD m [] =
      filterRow ((bin_points M).getD m 0) ((bin_points M).getD (m + 1) 0)
        ((bin_points M).getD (m + 2) 0) := by
  have hlen : m < (init_mel_filterbank M).length := by
    simp [init_mel_filterbank, kNumMelBands, hm]
  rw [List.getD_eq_getElem _ _ hlen]
  simp [init_mel_filterbank]

end Bins

end Deeplayer

namespace Deeplayer

section RealBins
open Real

/-- Over the reals the `i`-th boundary bin is `⌊513 * 700 * ((87/7)^(i/81) - 1) / 16000⌋`. -/
theorem real_bin_closed (i : Nat) (hi : i < 82) :
    (bin_points (MathFns.mk Real.cos Real.sin Real.log (Real.logb 10) (fun a b => a ^ b) Real.pi)).getD i 0
      = ⌊(513 : ℝ) * (700 * ((87 / 7 : ℝ) ^ ((i : ℝ) / 81) - 1)) / 16000⌋ := by
  rw [bin_points_getD _ i hi]
  simp only []
  have h1 : Real.logb 10 (1 + 0 / 700) = 0 := by norm_num
  have h2 : (1 : ℝ) + 8000 / 700 = 87 / 7 := by norm_num
  rw [h1, h2]
  have h3 : (2595 * (0 : ℝ) + (2595 * Real.logb 10 (87 / 7) - 2595 * 0) * (i : ℝ) / 81) / 2595
      = Real.logb 10 (87 / 7) * ((i : ℝ) / 81) := by
    field_simp
    ring
  rw [h3, Real.rpow_mul (by norm_num), Real.rpow_logb (by norm_num) (by norm_num) (by norm_num)]

theorem real_bin_mono (i j : Nat) (hij : i ≤ j) (hj : j < 82) :
    (bin_points (MathFns.mk Real.cos Real.sin Real.log (Real.logb 10) (fun a b => a ^ b) Real.pi)).getD i 0
      ≤ (bin_points (MathFns.mk Real.cos Real.sin Real.log (Real.logb 10) (fun a b => a ^ b) Real.pi)).getD j 0 := by
  rw [real_bin_closed i (by omega), real_bin_closed j hj]
  apply Int.floor_mono
  have hpow : (87 / 7 : ℝ) ^ ((i : ℝ) / 81) ≤ (87 / 7 : ℝ) ^ ((j : ℝ) / 81) := by
    apply Real.rpow_le_rpow_of_exponent_le (by norm_num)
    have : (i : ℝ) ≤ (j : ℝ) := by exact_mod_cast hij
    linarith
  linarith

theorem real_bin_zero :
    (bin_points (MathFns.mk Real.cos Real.sin Real.log (Real.logb 10) (fun a b => a ^ b) Real.pi)).getD 0 0
      = 0 := by
  rw [real_bin_closed 0 (by omega)]
  norm_num

theorem real_bin_last :
    (bin_points (MathFns.mk Real.cos Real.sin Real.log (Real.logb 10) (fun a b => a ^ b) Real.pi)).getD 81 0
      = 256 := by
  rw [real_bin_closed 81 (by omega)]
  have : ((81 : Nat) : ℝ) / 81 = 1 := by norm_num
  rw [this, Real.rpow_one, Int.floor_eq_iff]
  norm_num

theorem real_bin_range (i : Nat) (hi : i < 82) :
    0 ≤ (bin_points (MathFns.mk Real.cos Real.sin Real.log (Real.logb 10) (fun a b => a ^ b) Real.pi)).getD i 0
    ∧ (bin_points (MathFns.mk Real.cos Real.sin Real.log (Real.logb 10) (fun a b => a ^ b) Real.pi)).getD i 0
      < 257 := by
  have h0 := real_bin_mono 0 i (by omega) hi
  have h1 := real_bin_mono i 81 (by omega) (by omega)
  rw [real_bin_zero] at h0
  rw [real_bin_last] at h1
  exact ⟨h0, by omega⟩

end RealBins
end Deeplayer

namespace Deeplayer
open Real

/-- `(87/7)^(p/81) < c` as soon as `(87/7)^p < c^81`. -/
theorem rpow_lt_of_pow_lt (p : Nat) (c : ℝ) (hc : 0 ≤ c) (h : (87 / 7 : ℝ) ^ p < c ^ 81) :
    (87 / 7 : ℝ) ^ ((p : ℝ) / 81) < c := by
  by_contra hcon
  push_neg at hcon
  have h1 : c ^ 81 ≤ ((87 / 7 : ℝ) ^ ((p : ℝ) / 81)) ^ 81 := pow_le_pow_left₀ hc hcon 81
  have h2 : ((87 / 7 : ℝ) ^ ((p : ℝ) / 81)) ^ 81 = (87 / 7 : ℝ) ^ p := by
    rw [← Real.rpow_natCast, ← Real.rpow_mul (by norm_num)]
    have : (p : ℝ) / 81 * ((81 : Nat) : ℝ) = (p : ℝ) := by push_cast; field_simp
    rw [this, Real.rpow_natCast]
  rw [h2] at h1
  linarith

/-- `c ≤ (87/7)^(p/81)` as soon as `c^81 ≤ (87/7)^p`. -/
theorem le_rpow_of_pow_le (p : Nat) (c : ℝ) (h : c ^ 81 ≤ (87 / 7 : ℝ) ^ p) :
    c ≤ (87 / 7 : ℝ) ^ ((p : ℝ) / 81) := by
  by_contra hcon
  push_neg at hcon
  have hpos : (0 : ℝ) ≤ (87 / 7 : ℝ) ^ ((p : ℝ) / 81) := Real.rpow_nonneg (by norm_num) _
  have h1 : ((87 / 7 : ℝ) ^ ((p : ℝ) / 81)) ^ 81 < c ^ 81 := pow_lt_pow_left₀ hcon hpos (by norm_num)
  have h2 : ((87 / 7 : ℝ) ^ ((p : ℝ) / 81)) ^ 81 = (87 / 7 : ℝ) ^ p := by
    rw [← Real.rpow_natCast, ← Real.rpow_mul (by norm_num)]
    have : (p : ℝ) / 81 * ((81 : Nat) : ℝ) = (p : ℝ) := by push_cast; field_simp
    rw [this, Real.rpow_natCast]
  rw [h2] at h1
  linarith

theorem real_bin_three :
    (bin_points (MathFns.mk Real.cos Real.sin Real.log (Real.logb 10) (fun a b => a ^ b) Real.pi)).getD 3 0
      = 2 := by
  rw [real_bin_closed 3 (by omega), Int.floor_eq_iff]
  have hlo := le_rpow_of_pow_le 3 (109 / 100) (by norm_num)
  have hhi := rpow_lt_of_pow_lt 3 (11 / 10) (by norm_num) (by norm_num)
  constructor
  · push_cast; linarith
  · push_cast; linarith

theorem real_bin_four :
    (bin_points (MathFns.mk Real.cos Real.sin Real.log (Real.logb 10) (fun a b => a ^ b) Real.pi)).getD 4 0
      = 2 := by
  rw [real_bin_closed 4 (by omega), Int.floor_eq_iff]
  have hlo := le_rpow_of_pow_le 4 (109 / 100) (by norm_num)
  have hhi := rpow_lt_of_pow_lt 4 (1133 / 1000) (by norm_num) (by norm_num)
  constructor
  · push_cast; linarith
  · push_cast; linarith

end Deeplayer

namespace Deeplayer

section Triangle
variable {α : Type} [LinearOrderedField α]

/-- Shape of one filterbank row for ordered boundaries `left ≤ center ≤ right`. -/
theorem filterRow_triangle (left center right : Int) (h1 : left ≤ center) (h2 : center ≤ right) :
    (∀ k : Nat, k < kNumFftBins →
      0 ≤ (filterRow left center right : List α).getD k 0 ∧
      (filterRow left center right : List α).getD k 0 ≤ 1) ∧
    (∀ k1 k2 : Nat, left ≤ (k1 : Int) → k1 ≤ k2 → (k2 : Int) < center → k2 < kNumFftBins →
      (filterRow left center right : List α).getD k1 0 ≤
        (filterRow left center right : List α).getD k2 0) ∧
    (∀ k : Nat, (k : Int) = center → center < right → k < kNumFftBins →
      (filterRow left center right : List α).getD k 0 = 1) ∧
    (∀ k1 k2 : Nat, center ≤ (k1 : Int) → k1 ≤ k2 → (k2 : Int) < right → k2 < kNumFftBins →
      (filterRow left center right : List α).getD k2 0 ≤
        (filterRow left center right : List α).getD k1 0) := by
  refine ⟨?_, ?_, ?_, ?_⟩
  · intro k hk
    rw [filterRow_spec left center right k hk]
    by_cases c1 : left ≤ (k : Int) ∧ (k : Int) < center
    · rw [if_pos c1]
      have hd : (0 : α) < ((center - left : Int) : α) := by exact_mod_cast (by omega : 0 < center - left)
      have hn : (0 : α) ≤ (((k : Int) - left : Int) : α) := by exact_mod_cast (by omega : 0 ≤ (k : Int) - left)
      have hle : (((k : Int) - left : Int) : α) ≤ ((center - left : Int) : α) := by
        exact_mod_cast (by omega : (k : Int) - left ≤ center - left)
      exact ⟨div_nonneg hn hd.le, (div_le_one hd).2 hle⟩
    · rw [if_neg c1]
      by_cases c2 : center ≤ (k : Int) ∧ (k : Int) < right
      · rw [if_pos c2]
        have hd : (0 : α) < ((right - center : Int) : α) := by exact_mod_cast (by omega : 0 < right - center)
        have hn : (0 : α) ≤ ((right - (k : Int) : Int) : α) := by exact_mod_cast (by omega : 0 ≤ right - (k : Int))
        have hle : ((right - (k : Int) : Int) : α) ≤ ((right - center : Int) : α) := by
          exact_mod_cast (by omega : right - (k : Int) ≤ right - center)
        exact ⟨div_nonneg hn hd.le, (div_le_one hd).2 hle⟩
      · rw [if_neg c2]
        exact ⟨le_refl _, zero_le_one⟩
  · intro k1 k2 hl h12 hc hk
    rw [filterRow_spec left center right k1 (by omega), filterRow_spec left center right k2 hk]
    rw [if_pos ⟨hl, by omega⟩, if_pos ⟨by omega, hc⟩]
    have hd : (0 : α) ≤ ((center - left : Int) : α) := by exact_mod_cast (by omega : 0 ≤ center - left)
    have hle : (((k1 : Int) - left : Int) : α) ≤ (((k2 : Int) - left : Int) : α) := by
      exact_mod_cast (by omega : (k1 : Int) - left ≤ (k2 : Int) - left)
    exact div_le_div_of_nonneg_right hle hd
  · intro k hkc hcr hk
    rw [filterRow_spec left center right k hk]
    have c1 : ¬ (left ≤ (k : Int) ∧ (k : Int) < center) := by rintro ⟨_, h⟩; omega
    rw [if_neg c1, if_pos ⟨by omega, by omega⟩, hkc]
    have hd : ((right - center : Int) : α) ≠ 0 := by exact_mod_cast (by omega : right - center ≠ 0)
    exact div_self hd
  · intro k1 k2 hcl h12 hr hk
    rw [filterRow_spec left center right k1 (by omega), filterRow_spec left center right k2 hk]
    have c1 : ¬ (left ≤ (k1 : Int) ∧ (k1 : Int) < center) := by rintro ⟨_, h⟩; omega
    have c2 : ¬ (left ≤ (k2 : Int) ∧ (k2 : Int) < center) := by rintro ⟨_, h⟩; omega
    rw [if_neg c1, if_neg c2, if_pos ⟨by omega, hr⟩, if_pos ⟨hcl, by omega⟩]
    have hd : (0 : α) ≤ ((right - center : Int) : α) := by exact_mod_cast (by omega : 0 ≤ right - center)
    have hle : ((right - (k2 : Int) : Int) : α) ≤ ((right - (k1 : Int) : Int) : α) := by
      exact_mod_cast (by omega : right - (k2 : Int) ≤ right - (k1 : Int))
    exact div_le_div_of_nonneg_right hle hd

end Triangle

/-- C7: for the fixed parameters the 82 boundary bins computed by `init_mel_filterbank`
(over the reals) are non-decreasing and every one of them lies in `[0, 257)`, where
`257 = kNumFftBins = 512 / 2 + 1`. -/
theorem bin_points_sorted_in_range :
    (bin_points (MathFns.mk Real.cos Real.sin Real.log (Real.logb 10) (fun a b => a ^ b) Real.pi)).length
      = 82 ∧
    kNumFftBins = 512 / 2 + 1 ∧
    (∀ i j : Nat, i ≤ j → j < 82 →
      (bin_points (MathFns.mk Real.cos Real.sin Real.log (Real.logb 10) (fun a b => a ^ b) Real.pi)).getD i 0
      ≤ (bin_points (MathFns.mk Real.cos Real.sin Real.log (Real.logb 10) (fun a b => a ^ b) Real.pi)).getD j 0) ∧
    (∀ i : Nat, i < 82 →
      0 ≤ (bin_points (MathFns.mk Real.cos Real.sin Real.log (Real.logb 10) (fun a b => a ^ b) Real.pi)).getD i 0
      ∧ (bin_points (MathFns.mk Real.cos Real.sin Real.log (Real.logb 10) (fun a b => a ^ b) Real.pi)).getD i 0
        < (kNumFftBins : Int)) :=
  ⟨bin_points_length _, rfl, real_bin_mono, real_bin_range⟩

/-- Instance of C7 at the boundaries 3 and 4. -/
theorem bin_points_sorted_in_range_witness :
    (bin_points (MathFns.mk Real.cos Real.sin Real.log (Real.logb 10) (fun a b => a ^ b) Real.pi)).getD 3 0
      ≤ (bin_points (MathFns.mk Real.cos Real.sin Real.log (Real.logb 10) (fun a b => a ^ b) Real.pi)).getD 4 0
    ∧ (0 ≤ (bin_points (MathFns.mk Real.cos Real.sin Real.log (Real.logb 10) (fun a b => a ^ b) Real.pi)).getD 81 0
      ∧ (bin_points (MathFns.mk Real.cos Real.sin Real.log (Real.logb 10) (fun a b => a ^ b) Real.pi)).getD 81 0
        < (kNumFftBins : Int)) :=
  ⟨bin_points_sorted_in_range.2.2.1 3 4 (by decide) (by decide),
   bin_points_sorted_in_range.2.2.2 81 (by decide)⟩

end Deeplayer

namespace Deeplayer

/-- C5: for the fixed parameters and every band `m < 80` with boundary bins
`(left, center, right) = (bin m, bin (m+1), bin (m+2))`, where
`bin i = floor(513 * hz_i / 16000)` and `hz_i` is the `i`-th of 82 points equally spaced in mel
between `mel 0` and `mel 8000` converted back to Hz, the weight built by `init_mel_filterbank`
at every bin `k < 257` is `(k - left)/(center - left)` when `left ≤ k < center`,
`(right - k)/(right - center)` when `center ≤ k < right`, and `0` otherwise. -/
theorem init_mel_filterbank_weight (m k : Nat) (hm : m < 80) (hk : k < 257) :
    (let mel : ℝ → ℝ := fun hz => 2595 * Real.logb 10 (1 + hz / 700)
    let hz : Nat → ℝ := fun i =>
      700 * ((10 : ℝ) ^ ((mel 0 + (mel 8000 - mel 0) * (i : ℝ) / 81) / 2595) - 1)
    let bin : Nat → Int := fun i => ⌊(513 : ℝ) * hz i / 16000⌋
    ((init_mel_filterbank
        (MathFns.mk Real.cos Real.sin Real.log (Real.logb 10) (fun a b => a ^ b) Real.pi)).getD m
        []).getD k 0 =
      if bin m ≤ (k : Int) ∧ (k : Int) < bin (m + 1) then
        (((k : Int) - bin m : Int) : ℝ) / ((bin (m + 1) - bin m : Int) : ℝ)
      else if bin (m + 1) ≤ (k : Int) ∧ (k : Int) < bin (m + 2) then
        ((bin (m + 2) - (k : Int) : Int) : ℝ) / ((bin (m + 2) - bin (m + 1) : Int) : ℝ)
      else 0) := by
  intro mel hz bin
  have hb : ∀ i : Nat, i < 82 →
      (bin_points (MathFns.mk Real.cos Real.sin Real.log (Real.logb 10) (fun a b => a ^ b)
        Real.pi)).getD i 0 = bin i := by
    intro i hi
    rw [bin_points_getD _ i hi]
  rw [init_mel_filterbank_getD _ m hm, hb m (by omega), hb (m + 1) (by omega),
    hb (m + 2) (by omega)]
  exact filterRow_spec (bin m) (bin (m + 1)) (bin (m + 2)) k hk

/-- Instance of C5 at band 0 and bin 0. -/
theorem init_mel_filterbank_weight_witness :
    (let mel : ℝ → ℝ := fun hz => 2595 * Real.logb 10 (1 + hz / 700)
    let hz : Nat → ℝ := fun i =>
      700 * ((10 : ℝ) ^ ((mel 0 + (mel 8000 - mel 0) * (i : ℝ) / 81) / 2595) - 1)
    let bin : Nat → Int := fun i => ⌊(513 : ℝ) * hz i / 16000⌋
    ((init_mel_filterbank
        (MathFns.mk Real.cos Real.sin Real.log (Real.logb 10) (fun a b => a ^ b) Real.pi)).getD 0
        []).getD 0 0 =
      if bin 0 ≤ ((0 : Nat) : Int) ∧ ((0 : Nat) : Int) < bin (0 + 1) then
        ((((0 : Nat) : Int) - bin 0 : Int) : ℝ) / ((bin (0 + 1) - bin 0 : Int) : ℝ)
      else if bin (0 + 1) ≤ ((0 : Nat) : Int) ∧ ((0 : Nat) : Int) < bin (0 + 2) then
        ((bin (0 + 2) - ((0 : Nat) : Int) : Int) : ℝ) / ((bin (0 + 2) - bin (0 + 1) : Int) : ℝ)
      else 0) :=
  init_mel_filterbank_weight 0 0 (by decide) (by decide)

/-- C6 fails as stated: band 2 has boundary bins `center = right = 2`, so its falling loop never
runs and the weight at its center bin 2 is `0`, not `1`. -/
theorem filterbank_center_not_one :
    (bin_points (MathFns.mk Real.cos Real.sin Real.log (Real.logb 10) (fun a b => a ^ b)
        Real.pi)).getD (2 + 1) 0 = 2 ∧
    (bin_points (MathFns.mk Real.cos Real.sin Real.log (Real.logb 10) (fun a b => a ^ b)
        Real.pi)).getD (2 + 2) 0 = 2 ∧
    ((init_mel_filterbank
        (MathFns.mk Real.cos Real.sin Real.log (Real.logb 10) (fun a b => a ^ b) Real.pi)).getD 2
        []).getD 2 0 = 0 ∧
    ((init_mel_filterbank
        (MathFns.mk Real.cos Real.sin Real.log (Real.logb 10) (fun a b => a ^ b) Real.pi)).getD 2
        []).getD 2 0 ≠ 1 := by
  have h3 := real_bin_three
  have h4 := real_bin_four
  have hw : ((init_mel_filterbank
        (MathFns.mk Real.cos Real.sin Real.log (Real.logb 10) (fun a b => a ^ b) Real.pi)).getD 2
        []).getD 2 0 = 0 := by
    rw [init_mel_filterbank_getD _ 2 (by omega), filterRow_spec _ _ _ 2 (by decide), h3, h4]
    simp
  refine ⟨h3, h4, hw, ?_⟩
  rw [hw]
  norm_num

/-- C6 (amended): for every band `m < 80` of the filterbank built by `init_mel_filterbank`,
with boundary bins `(left, center, right)`, the weights are non-negative and at most 1,
non-decreasing on `[left, center)`, equal to 1 at the center bin whenever `center < right`,
and non-increasing on `[center, right)`. -/
theorem filterbank_row_triangle (m : Nat) (hm : m < 80) :
    (∀ k : Nat, k < 257 →
      0 ≤ ((init_mel_filterbank (MathFns.mk Real.cos Real.sin Real.log (Real.logb 10)
            (fun a b => a ^ b) Real.pi)).getD m []).getD k 0 ∧
      ((init_mel_filterbank (MathFns.mk Real.cos Real.sin Real.log (Real.logb 10)
            (fun a b => a ^ b) Real.pi)).getD m []).getD k 0 ≤ 1) ∧
    (∀ k1 k2 : Nat,
      (bin_points (MathFns.mk Real.cos Real.sin Real.log (Real.logb 10) (fun a b => a ^ b)
        Real.pi)).getD m 0 ≤ (k1 : Int) →
      k1 ≤ k2 →
      (k2 : Int) < (bin_points (MathFns.mk Real.cos Real.sin Real.log (Real.logb 10)
        (fun a b => a ^ b) Real.pi)).getD (m + 1) 0 →
      ((init_mel_filterbank (MathFns.mk Real.cos Real.sin Real.log (Real.logb 10)
            (fun a b => a ^ b) Real.pi)).getD m []).getD k1 0 ≤
        ((init_mel_filterbank (MathFns.mk Real.cos Real.sin Real.log (Real.logb 10)
            (fun a b => a ^ b) Real.pi)).getD m []).getD k2 0) ∧
    ((bin_points (MathFns.mk Real.cos Real.sin Real.log (Real.logb 10) (fun a b => a ^ b)
        Real.pi)).getD (m + 1) 0 <
      (bin_points (MathFns.mk Real.cos Real.sin Real.log (Real.logb 10) (fun a b => a ^ b)
        Real.pi)).getD (m + 2) 0 →
      ((init_mel_filterbank (MathFns.mk Real.cos Real.sin Real.log (Real.logb 10)
            (fun a b => a ^ b) Real.pi)).getD m []).getD
        ((bin_points (MathFns.mk Real.cos Real.sin Real.log (Real.logb 10) (fun a b => a ^ b)
          Real.pi)).getD (m + 1) 0).toNat 0 = 1) ∧
    (∀ k1 k2 : Nat,
      (bin_points (MathFns.mk Real.cos Real.sin Real.log (Real.logb 10) (fun a b => a ^ b)
        Real.pi)).getD (m + 1) 0 ≤ (k1 : Int) →
      k1 ≤ k2 →
      (k2 : Int) < (bin_points (MathFns.mk Real.cos Real.sin Real.log (Real.logb 10)
        (fun a b => a ^ b) Real.pi)).getD (m + 2) 0 →
      ((init_mel_filterbank (MathFns.mk Real.cos Real.sin Real.log (Real.logb 10)
            (fun a b => a ^ b) Real.pi)).getD m []).getD k2 0 ≤
        ((init_mel_filterbank (MathFns.mk Real.cos Real.sin Real.log (Real.logb 10)
            (fun a b => a ^ b) Real.pi)).getD m []).getD k1 0) := by
  have hl := real_bin_mono m (m + 1) (by omega) (by omega)
  have hr := real_bin_mono (m + 1) (m + 2) (by omega) (by omega)
  have hc0 := real_bin_range (m + 1) (by omega)
  have hr0 := real_bin_range (m + 2) (by omega)
  obtain ⟨t1, t2, t3, t4⟩ := @filterRow_triangle ℝ _ _ _ _ hl hr
  rw [init_mel_filterbank_getD _ m hm]
  have h257 : kNumFftBins = 257 := rfl
  refine ⟨fun k hk => t1 k (by omega), fun k1 k2 a b c => t2 k1 k2 a b c (by omega),
    fun hlt => t3 _ (by omega) hlt (by omega), fun k1 k2 a b c => t4 k1 k2 a b c (by omega)⟩

/-- Instance of the amended C6 at band 0, whose boundary bins are `(0, 0, 1)`. -/
theorem filterbank_row_triangle_witness :
    0 ≤ ((init_mel_filterbank (MathFns.mk Real.cos Real.sin Real.log (Real.logb 10)
          (fun a b => a ^ b) Real.pi)).getD 0 []).getD 0 0 ∧
    ((init_mel_filterbank (MathFns.mk Real.cos Real.sin Real.log (Real.logb 10)
          (fun a b => a ^ b) Real.pi)).getD 0 []).getD 0 0 ≤ 1 :=
  (filterbank_row_triangle 0 (by decide)).1 0 (by decide)

end Deeplayer

namespace Deeplayer


/-- C8: `hz_to_mel` and `mel_to_hz` are mutual inverses over the reals:
`mel_to_hz (hz_to_mel hz) = hz` for every `hz` in `[0, 8000]`, and
`hz_to_mel (mel_to_hz mel) = mel` for every `mel` in `[hz_to_mel 0, hz_to_mel 8000]`. -/
theorem hz_mel_inverse :
    (∀ hz : ℝ, 0 ≤ hz → hz ≤ 8000 →
      mel_to_hz (MathFns.mk Real.cos Real.sin Real.log (Real.logb 10) (fun a b => a ^ b) Real.pi)
        (hz_to_mel (MathFns.mk Real.cos Real.sin Real.log (Real.logb 10) (fun a b => a ^ b) Real.pi) hz) = hz) ∧
    (∀ mel : ℝ,
      hz_to_mel (MathFns.mk Real.cos Real.sin Real.log (Real.logb 10) (fun a b => a ^ b) Real.pi) 0 ≤ mel →
      mel ≤ hz_to_mel (MathFns.mk Real.cos Real.sin Real.log (Real.logb 10) (fun a b => a ^ b) Real.pi) 8000 →
      hz_to_mel (MathFns.mk Real.cos Real.sin Real.log (Real.logb 10) (fun a b => a ^ b) Real.pi)
        (mel_to_hz (MathFns.mk Real.cos Real.sin Real.log (Real.logb 10) (fun a b => a ^ b) Real.pi) mel) = mel) := by
  constructor
  · intro hz h0 _
    simp only [mel_to_hz, hz_to_mel]
    have hpos : (0 : ℝ) < 1 + hz / 700 := by positivity
    have h1 : 2595 * Real.logb 10 (1 + hz / 700) / 2595 = Real.logb 10 (1 + hz / 700) := by
      field_simp
    rw [h1, Real.rpow_logb (by norm_num) (by norm_num) hpos]
    field_simp
  · intro mel _ _
    simp only [mel_to_hz, hz_to_mel]
    have : (1 : ℝ) + 700 * ((10 : ℝ) ^ (mel / 2595) - 1) / 700 = (10 : ℝ) ^ (mel / 2595) := by
      field_simp
    rw [this, Real.logb_rpow (by norm_num) (by norm_num)]
    field_simp
/-- Instance of C8 at 700 Hz and at the mel value of 700 Hz. -/
theorem hz_mel_inverse_witness :
    mel_to_hz (MathFns.mk Real.cos Real.sin Real.log (Real.logb 10) (fun a b => a ^ b) Real.pi)
        (hz_to_mel (MathFns.mk Real.cos Real.sin Real.log (Real.logb 10) (fun a b => a ^ b) Real.pi)
          700) = 700 ∧
    hz_to_mel (MathFns.mk Real.cos Real.sin Real.log (Real.logb 10) (fun a b => a ^ b) Real.pi)
        (mel_to_hz (MathFns.mk Real.cos Real.sin Real.log (Real.logb 10) (fun a b => a ^ b) Real.pi)
          (hz_to_mel (MathFns.mk Real.cos Real.sin Real.log (Real.logb 10) (fun a b => a ^ b)
            Real.pi) 0)) =
      hz_to_mel (MathFns.mk Real.cos Real.sin Real.log (Real.logb 10) (fun a b => a ^ b) Real.pi) 0 :=
  ⟨hz_mel_inverse.1 700 (by norm_num) (by norm_num),
   hz_mel_inverse.2 _ (le_refl _) (by
     simp only [hz_to_mel]
     have h1 : Real.logb 10 (1 + 0 / 700) = 0 := by norm_num
     have h2 : (0 : ℝ) ≤ Real.logb 10 (1 + 8000 / 700) :=
       Real.logb_nonneg (by norm_num) (by norm_num)
     rw [h1]; linarith)⟩

/-- C9: `resample` called with an empty input returns an empty output and leaves the session,
with its converter state, exactly as it was, whatever the converter library would do: no
library function is invoked. -/
theorem resample_empty_unchanged {σ α : Type} (L : SwrLib σ α) (self : Resampler σ) :
    Resampler.resample L self [] = ([], self) := by
  simp [Resampler.resample]

end Deeplayer

namespace Deeplayer

theorem and_two_pow_of_lt (b j : Nat) (h : j < 2^b) : j &&& 2^b = 0 := by
  rw [Nat.and_two_pow, Nat.testBit_lt_two_pow h]; simp

theorem xor_two_pow_of_lt (b j : Nat) (h : j < 2^b) : j ^^^ 2^b = 2^b + j := by
  apply Nat.eq_of_testBit_eq
  intro i
  rw [Nat.testBit_xor, Nat.testBit_two_pow]
  rcases Nat.lt_trichotomy i b with hi | hi | hi
  · rw [Nat.testBit_two_pow_add_gt hi]
    have : ¬ b = i := by omega
    simp [this]
  · subst hi
    rw [Nat.testBit_two_pow_add_eq, Nat.testBit_lt_two_pow h]; simp
  · have h1 : j < 2^i := lt_trans h (Nat.pow_lt_pow_right (by norm_num) hi)
    have h2 : 2^b + j < 2^i := by
      have : 2^(b+1) ≤ 2^i := Nat.pow_le_pow_right (by norm_num) hi
      rw [pow_succ] at this; omega
    rw [Nat.testBit_lt_two_pow h1, Nat.testBit_lt_two_pow h2]
    have : ¬ b = i := by omega
    simp [this]

theorem and_two_pow_add (b r : Nat) (h : r < 2^b) : (2^b + r) &&& 2^b ≠ 0 := by
  rw [Nat.and_two_pow, Nat.testBit_two_pow_add_eq, Nat.testBit_lt_two_pow h]
  simp

theorem xor_two_pow_add (b r : Nat) (h : r < 2^b) : (2^b + r) ^^^ 2^b = r := by
  rw [← xor_two_pow_of_lt b r h, Nat.xor_assoc, Nat.xor_self, Nat.xor_zero]

theorem two_pow_succ_shiftRight (c : Nat) : 2^(c+1) >>> 1 = 2^c := by
  rw [Nat.shiftRight_eq_div_pow, pow_succ]; simp

theorem bitRev_succ (b i : Nat) : bitRev (b + 1) i = 2 ^ b * (i % 2) + bitRev b (i / 2) := rfl

theorem bitRev_lt (b i : Nat) : bitRev b i < 2 ^ b := by
  induction b generalizing i with
  | zero => simp [bitRev]
  | succ b ih =>
    have h1 := ih (i / 2)
    have h2 : i % 2 < 2 := Nat.mod_lt _ (by norm_num)
    simp only [bitRev, pow_succ]
    rcases Nat.mod_two_eq_zero_or_one i with h | h <;> rw [h] <;> omega

/-- Reversal of a number given by its top bit `a` and the lower `b` bits `r`. -/
theorem bitRev_succ_top (b a r : Nat) (ha : a < 2) (hr : r < 2 ^ b) :
    bitRev (b + 1) (2 ^ b * a + r) = a + 2 * bitRev b r := by
  induction b generalizing r with
  | zero =>
    have : r = 0 := by simpa using hr
    subst this
    simp only [bitRev, pow_zero, one_mul, add_zero, mul_zero]
    omega
  | succ b ih =>
    have hr2 : r / 2 < 2 ^ b := by rw [pow_succ] at hr; omega
    have e1 : (2 ^ (b + 1) * a + r) % 2 = r % 2 := by
      rw [pow_succ]; interval_cases a <;> omega
    have e2 : (2 ^ (b + 1) * a + r) / 2 = 2 ^ b * a + r / 2 := by
      rw [pow_succ]; interval_cases a <;> omega
    rw [bitRev_succ (b + 1), e1, e2, ih (r / 2) hr2, bitRev_succ b r]
    ring

theorem bitRev_bitRev (b i : Nat) (hi : i < 2 ^ b) : bitRev b (bitRev b i) = i := by
  induction b generalizing i with
  | zero =>
    have : i = 0 := by simpa using hi
    subst this; simp [bitRev]
  | succ b ih =>
    have hi2 : i / 2 < 2 ^ b := by rw [pow_succ] at hi; omega
    rw [bitRev_succ b i, bitRev_succ_top b (i % 2) _ (Nat.mod_lt _ (by norm_num)) (bitRev_lt b _),
      ih (i / 2) hi2]
    omega

/-- The body of the bit-reversal loop advances the reversed counter. -/
theorem bitLoop_bitRev (c i : Nat) (h : i + 1 < 2 ^ (c + 1)) :
    (bitLoop (bitRev (c + 1) i) (2 ^ c)).1 ^^^ (bitLoop (bitRev (c + 1) i) (2 ^ c)).2
      = bitRev (c + 1) (i + 1) := by
  induction c generalizing i with
  | zero =>
    have : i = 0 := by simp at h; omega
    subst this
    rw [bitLoop]
    simp [bitRev]
  | succ c ih =>
    rcases Nat.mod_two_eq_zero_or_one i with he | ho
    · -- `i` even
      have hj : bitRev (c + 2) i = bitRev (c + 1) (i / 2) := by
        rw [bitRev_succ (c + 1) i, he]; simp
      have hlt : bitRev (c + 2) i < 2 ^ (c + 1) := by rw [hj]; exact bitRev_lt _ _
      rw [bitLoop, dif_neg (by simp [and_two_pow_of_lt _ _ hlt])]
      simp only []
      rw [xor_two_pow_of_lt _ _ hlt, hj, bitRev_succ (c + 1) (i + 1)]
      have e1 : (i + 1) % 2 = 1 := by omega
      have e2 : (i + 1) / 2 = i / 2 := by omega
      rw [e1, e2]; ring
    · -- `i` odd
      have hj : bitRev (c + 2) i = 2 ^ (c + 1) + bitRev (c + 1) (i / 2) := by
        rw [bitRev_succ (c + 1) i, ho]; simp
      have hlt : bitRev (c + 1) (i / 2) < 2 ^ (c + 1) := bitRev_lt _ _
      rw [bitLoop, hj, dif_pos (and_two_pow_add _ _ hlt), xor_two_pow_add _ _ hlt,
        two_pow_succ_shiftRight]
      have h2 : i / 2 + 1 < 2 ^ (c + 1) := by rw [pow_succ] at h; omega
      rw [ih (i / 2) h2, bitRev_succ (c + 1) (i + 1)]
      have e1 : (i + 1) % 2 = 0 := by omega
      have e2 : (i + 1) / 2 = i / 2 + 1 := by omega
      rw [e1, e2]; simp

theorem nextRev_bitRev (b i : Nat) (h : i + 1 < 2 ^ b) :
    nextRev (2 ^ b) (bitRev b i) = bitRev b (i + 1) := by
  cases b with
  | zero => simp at h
  | succ c =>
    unfold nextRev
    simp only [two_pow_succ_shiftRight]
    exact bitLoop_bitRev c i h

end Deeplayer

namespace Deeplayer

section BitReversal
variable {α : Type} [LinearOrderedField α]

theorem swapAt_length (v : List α) (i j : Nat) : (swapAt v i j).length = v.length := by
  simp [swapAt]

theorem swapAt_getD (v : List α) (i j p : Nat) (hi : i < v.length) (hj : j < v.length) :
    (swapAt v i j).getD p 0 =
      if p = j then v.getD i 0 else if p = i then v.getD j 0 else v.getD p 0 := by
  unfold swapAt
  rw [getD_set_eq, getD_set_eq, List.length_set]
  by_cases h1 : p = j
  · subst h1; simp [hj]
  · by_cases h2 : p = i
    · subst h2
      have : ¬ (j = p ∧ j < v.length) := by rintro ⟨h, _⟩; exact h1 h.symm
      simp [this, hi, h1]
    · have a1 : ¬ (j = p ∧ j < v.length) := by rintro ⟨h, _⟩; exact h1 h.symm
      have a2 : ¬ (i = p ∧ i < v.length) := by rintro ⟨h, _⟩; exact h2 h.symm
      simp [a1, a2, h1, h2]

theorem swappedUpTo_zero (b : Nat) (orig : List α) : SwappedUpTo b orig orig 0 := by
  refine ⟨rfl, fun p hp => ?_⟩
  by_cases h : min p (bitRev b p) ≤ 0
  · rw [if_pos h]
    have h0 : p = 0 ∨ bitRev b p = 0 := by
      rcases Nat.le_total p (bitRev b p) with h' | h'
      · left; rw [min_eq_left h'] at h; omega
      · right; rw [min_eq_right h'] at h; omega
    have hp0 : bitRev b p = p := by
      rcases h0 with h0 | h0
      · subst h0
        have : bitRev b 0 = 0 := by
          clear h hp
          induction b with
          | zero => rfl
          | succ b ih => rw [bitRev_succ]; simp [ih]
        exact this
      · have := bitRev_bitRev b p hp
        rw [h0] at this
        have h00 : bitRev b 0 = 0 := by
          clear h hp h0 this
          induction b with
          | zero => rfl
          | succ b ih => rw [bitRev_succ]; simp [ih]
        rw [h00] at this
        rw [h0]; exact this
    rw [hp0]
  · rw [if_neg h]

theorem swappedUpTo_step (b : Nat) (orig cur : List α) (c : Nat) (hlen : orig.length = 2 ^ b)
    (hc : c + 1 < 2 ^ b) (h : SwappedUpTo b orig cur c) :
    SwappedUpTo b orig
      (if c + 1 < bitRev b (c + 1) then swapAt cur (c + 1) (bitRev b (c + 1)) else cur) (c + 1) := by
  obtain ⟨hl, hg⟩ := h
  have hRlt : bitRev b (c + 1) < 2 ^ b := bitRev_lt _ _
  have hRR : bitRev b (bitRev b (c + 1)) = c + 1 := bitRev_bitRev b _ hc
  by_cases hsw : c + 1 < bitRev b (c + 1)
  · rw [if_pos hsw]
    refine ⟨by rw [swapAt_length, hl], fun p hp => ?_⟩
    rw [swapAt_getD _ _ _ _ (by omega) (by omega)]
    by_cases h1 : p = bitRev b (c + 1)
    · rw [if_pos h1, hg (c + 1) hc]
      have hm : ¬ min (c + 1) (bitRev b (c + 1)) ≤ c := by
        rw [min_eq_left hsw.le]; omega
      rw [if_neg hm]
      have hm2 : min p (bitRev b p) ≤ c + 1 := by
        rw [h1, hRR]; exact min_le_right _ _
      rw [if_pos hm2, h1, hRR]
    · rw [if_neg h1]
      by_cases h2 : p = c + 1
      · rw [if_pos h2, hg _ hRlt, hRR]
        have hm : ¬ min (bitRev b (c + 1)) (c + 1) ≤ c := by
          rw [min_eq_right hsw.le]; omega
        rw [if_neg hm]
        have hm2 : min p (bitRev b p) ≤ c + 1 := by
          rw [h2]; exact min_le_left _ _
        rw [if_pos hm2, h2]
      · rw [if_neg h2, hg p hp]
        have hRp : bitRev b p ≠ c + 1 := by
          intro hcon
          have := bitRev_bitRev b p hp
          rw [hcon] at this
          exact h1 this.symm
        have hiff : (min p (bitRev b p) ≤ c) ↔ (min p (bitRev b p) ≤ c + 1) := by
          rcases Nat.le_total p (bitRev b p) with h' | h'
          · rw [min_eq_left h']; omega
          · rw [min_eq_right h']; omega
        simp only [hiff]
  · rw [if_neg hsw]
    refine ⟨hl, fun p hp => ?_⟩
    rw [hg p hp]
    by_cases hm : min p (bitRev b p) ≤ c
    · have hm2 : min p (bitRev b p) ≤ c + 1 := by omega
      rw [if_pos hm, if_pos hm2]
    · rw [if_neg hm]
      by_cases hm2 : min p (bitRev b p) ≤ c + 1
      · rw [if_pos hm2]
        have hmin : min p (bitRev b p) = c + 1 := by omega
        have hpp : bitRev b p = p := by
          rcases Nat.le_total p (bitRev b p) with h' | h'
          · rw [min_eq_left h'] at hmin
            subst hmin
            omega
          · rw [min_eq_right h'] at hmin
            have := bitRev_bitRev b p hp
            rw [hmin] at this
            rw [this] at hsw
            omega
        rw [hpp]
      · rw [if_neg hm2]

end BitReversal
end Deeplayer

namespace Deeplayer

section BitReversalLoop
variable {α : Type} [LinearOrderedField α]

theorem bitReversal_fold (b : Nat) (real imag : List α) (hre : real.length = 2 ^ b)
    (him : imag.length = 2 ^ b) (c : Nat) (hc : c + 1 ≤ 2 ^ b) :
    ((List.range' 1 c).foldl (bitReversalStep (2 ^ b)) (0, real, imag)).1 = bitRev b c ∧
    SwappedUpTo b real
      ((List.range' 1 c).foldl (bitReversalStep (2 ^ b)) (0, real, imag)).2.1 c ∧
    SwappedUpTo b imag
      ((List.range' 1 c).foldl (bitReversalStep (2 ^ b)) (0, real, imag)).2.2 c := by
  induction c with
  | zero =>
    simp only [List.range'_zero, List.foldl_nil]
    refine ⟨?_, swappedUpTo_zero b real, swappedUpTo_zero b imag⟩
    clear hre him hc
    induction b with
    | zero => rfl
    | succ b ih => rw [bitRev_succ]; simp [← ih]
  | succ c ih =>
    obtain ⟨h1, h2, h3⟩ := ih (by omega)
    rw [List.range'_concat, List.foldl_append]
    simp only [List.foldl_cons, List.foldl_nil]
    have e : 1 + 1 * c = c + 1 := by omega
    rw [e]
    generalize (List.range' 1 c).foldl (bitReversalStep (2 ^ b)) (0, real, imag) = st at h1 h2 h3
    unfold bitReversalStep
    simp only []
    rw [h1, nextRev_bitRev b c (by omega)]
    have s2 := swappedUpTo_step b real _ c hre (by omega) h2
    have s3 := swappedUpTo_step b imag _ c him (by omega) h3
    by_cases hsw : c + 1 < bitRev b (c + 1)
    · rw [if_pos hsw] at s2 s3
      rw [if_pos hsw]
      exact ⟨rfl, s2, s3⟩
    · rw [if_neg hsw] at s2 s3
      rw [if_neg hsw]
      exact ⟨rfl, s2, s3⟩

/-- The bit-reversal stage moves the element at `bitRev b p` to index `p`, in both buffers. -/
theorem bitReversal_spec (b : Nat) (real imag : List α) (hre : real.length = 2 ^ b)
    (him : imag.length = 2 ^ b) :
    (bitReversal ((2 ^ b : Nat) : Int) real imag).1.length = 2 ^ b ∧
    (bitReversal ((2 ^ b : Nat) : Int) real imag).2.length = 2 ^ b ∧
    ∀ p : Nat, p < 2 ^ b →
      (bitReversal ((2 ^ b : Nat) : Int) real imag).1.getD p 0 = real.getD (bitRev b p) 0 ∧
      (bitReversal ((2 ^ b : Nat) : Int) real imag).2.getD p 0 = imag.getD (bitRev b p) 0 := by
  have hpos : 0 < 2 ^ b := Nat.pow_pos (by norm_num)
  obtain ⟨_, h2, h3⟩ := bitReversal_fold b real imag hre him (2 ^ b - 1) (by omega)
  unfold bitReversal
  simp only [Int.toNat_ofNat]
  refine ⟨by rw [h2.1, hre], by rw [h3.1, him], fun p hp => ?_⟩
  have hm : min p (bitRev b p) ≤ 2 ^ b - 1 := by
    have := min_le_left p (bitRev b p); omega
  have a2 := h2.2 p hp
  have a3 := h3.2 p hp
  rw [if_pos hm] at a2 a3
  exact ⟨a2, a3⟩

end BitReversalLoop
end Deeplayer

namespace Deeplayer

section ButterflyCode

theorem cplx_set_set (re im : List ℝ) (q : Nat) (a b : ℝ) (p : Nat)
    (h1 : q < re.length) (h2 : q < im.length) :
    cplx (re.set q a) (im.set q b) p = if p = q then (⟨a, b⟩ : ℂ) else cplx re im p := by
  unfold cplx
  rw [getD_set_eq, getD_set_eq]
  by_cases h : p = q
  · subst h; simp [h1, h2]
  · have : ¬ q = p := fun e => h e.symm
    simp [this, h]

/-- One iteration of the butterfly loop, read on complex numbers. -/
theorem butterflyStep_spec (w_real w_imag : ℝ) (i len : Nat) (st : Butterfly ℝ) (j N : Nat)
    (hre : st.real.length = N) (him : st.imag.length = N) (hh : 1 ≤ len / 2)
    (hN : i + j + len / 2 < N) :
    (butterflyStep w_real w_imag i len st j).real.length = N ∧
    (butterflyStep w_real w_imag i len st j).imag.length = N ∧
    ((⟨(butterflyStep w_real w_imag i len st j).cur_real,
        (butterflyStep w_real w_imag i len st j).cur_imag⟩ : ℂ)
      = (⟨st.cur_real, st.cur_imag⟩ : ℂ) * ⟨w_real, w_imag⟩) ∧
    ∀ p : Nat,
      cplx (butterflyStep w_real w_imag i len st j).real
          (butterflyStep w_real w_imag i len st j).imag p =
        if p = i + j then
          cplx st.real st.imag (i + j)
            + (⟨st.cur_real, st.cur_imag⟩ : ℂ) * cplx st.real st.imag (i + j + len / 2)
        else if p = i + j + len / 2 then
          cplx st.real st.imag (i + j)
            - (⟨st.cur_real, st.cur_imag⟩ : ℂ) * cplx st.real st.imag (i + j + len / 2)
        else cplx st.real st.imag p := by
  refine ⟨by simp [butterflyStep, hre], by simp [butterflyStep, him], ?_, fun p => ?_⟩
  · apply Complex.ext <;> simp [butterflyStep]
  · simp only [butterflyStep]
    rw [cplx_set_set _ _ _ _ _ _ (by simp; omega) (by simp; omega)]
    by_cases h1 : p = i + j
    · rw [if_pos h1, if_pos h1]
      have hne : ¬ (i + j + len / 2 = i + j ∧ i + j + len / 2 < st.real.length) := by
        rintro ⟨h, _⟩; omega
      have hne' : ¬ (i + j + len / 2 = i + j ∧ i + j + len / 2 < st.imag.length) := by
        rintro ⟨h, _⟩; omega
      apply Complex.ext
      · simp only [cplx, getD_set_eq, hne, if_false, Complex.add_re, Complex.mul_re]
      · simp only [cplx, getD_set_eq, hne', if_false, Complex.add_im, Complex.mul_im]
    · rw [if_neg h1, if_neg h1]
      rw [cplx_set_set _ _ _ _ _ _ (by omega) (by omega)]
      by_cases h2 : p = i + j + len / 2
      · rw [if_pos h2, if_pos h2]
        apply Complex.ext <;> simp [cplx]
      · rw [if_neg h2, if_neg h2]


/-- The butterfly loop after `c` iterations, read on complex numbers. -/
theorem butterflyFold_spec (w_real w_imag : ℝ) (i len N : Nat) (re im : List ℝ)
    (hre : re.length = N) (him : im.length = N) (hh : 1 ≤ len / 2)
    (hN : i + 2 * (len / 2) ≤ N) (c : Nat) (hc : c ≤ len / 2) :
    ((List.range c).foldl (butterflyStep w_real w_imag i len)
        { cur_real := 1, cur_imag := 0, real := re, imag := im }).real.length = N ∧
    ((List.range c).foldl (butterflyStep w_real w_imag i len)
        { cur_real := 1, cur_imag := 0, real := re, imag := im }).imag.length = N ∧
    ((⟨((List.range c).foldl (butterflyStep w_real w_imag i len)
          { cur_real := 1, cur_imag := 0, real := re, imag := im }).cur_real,
       ((List.range c).foldl (butterflyStep w_real w_imag i len)
          { cur_real := 1, cur_imag := 0, real := re, imag := im }).cur_imag⟩ : ℂ)
      = (⟨w_real, w_imag⟩ : ℂ) ^ c) ∧
    ∀ p : Nat,
      cplx ((List.range c).foldl (butterflyStep w_real w_imag i len)
          { cur_real := 1, cur_imag := 0, real := re, imag := im }).real
        ((List.range c).foldl (butterflyStep w_real w_imag i len)
          { cur_real := 1, cur_imag := 0, real := re, imag := im }).imag p =
      if i ≤ p ∧ p < i + c then
        cplx re im p + (⟨w_real, w_imag⟩ : ℂ) ^ (p - i) * cplx re im (p + len / 2)
      else if i + len / 2 ≤ p ∧ p < i + len / 2 + c then
        cplx re im (p - len / 2) - (⟨w_real, w_imag⟩ : ℂ) ^ (p - len / 2 - i) * cplx re im p
      else cplx re im p := by
  induction c with
  | zero =>
    refine ⟨hre, him, ?_, fun p => ?_⟩
    · simp only [List.range_zero, List.foldl_nil, pow_zero]
      rfl
    · have a1 : ¬ (i ≤ p ∧ p < i + 0) := by rintro ⟨_, h⟩; omega
      have a2 : ¬ (i + len / 2 ≤ p ∧ p < i + len / 2 + 0) := by rintro ⟨_, h⟩; omega
      simp only [List.range_zero, List.foldl_nil]
      rw [if_neg a1, if_neg a2]
  | succ c ih =>
    obtain ⟨h1, h2, h3, h4⟩ := ih (by omega)
    rw [List.range_succ, List.foldl_append]
    simp only [List.foldl_cons, List.foldl_nil]
    generalize (List.range c).foldl (butterflyStep w_real w_imag i len)
        { cur_real := 1, cur_imag := 0, real := re, imag := im } = st at h1 h2 h3 h4
    obtain ⟨g1, g2, g3, g4⟩ := butterflyStep_spec w_real w_imag i len st c N h1 h2 hh (by omega)
    refine ⟨g1, g2, ?_, fun p => ?_⟩
    · rw [g3, h3, pow_succ]
    · rw [g4 p, h3, h4 (i + c), h4 (i + c + len / 2)]
      have b1 : ¬ (i ≤ i + c ∧ i + c < i + c) := by rintro ⟨_, h⟩; omega
      have b2 : ¬ (i + len / 2 ≤ i + c ∧ i + c < i + len / 2 + c) := by rintro ⟨h, _⟩; omega
      have b3 : ¬ (i ≤ i + c + len / 2 ∧ i + c + len / 2 < i + c) := by rintro ⟨_, h⟩; omega
      have b4 : ¬ (i + len / 2 ≤ i + c + len / 2 ∧ i + c + len / 2 < i + len / 2 + c) := by
        rintro ⟨_, h⟩; omega
      rw [if_neg b1, if_neg b2, if_neg b3, if_neg b4]
      by_cases c1 : p = i + c
      · rw [if_pos c1, if_pos ⟨by omega, by omega⟩]
        subst c1
        have : i + c - i = c := by omega
        rw [this]
      · rw [if_neg c1]
        by_cases c2 : p = i + c + len / 2
        · rw [if_pos c2]
          have a1 : ¬ (i ≤ p ∧ p < i + (c + 1)) := by rintro ⟨_, h⟩; omega
          rw [if_neg a1, if_pos ⟨by omega, by omega⟩]
          subst c2
          have e1 : i + c + len / 2 - len / 2 = i + c := by omega
          have e2 : i + c - i = c := by omega
          rw [e1, e2]
        · rw [if_neg c2, h4 p]
          by_cases d1 : i ≤ p ∧ p < i + c
          · rw [if_pos d1, if_pos ⟨d1.1, by omega⟩]
          · rw [if_neg d1]
            have d1' : ¬ (i ≤ p ∧ p < i + (c + 1)) := by
              rintro ⟨h, h'⟩; exact d1 ⟨h, by omega⟩
            rw [if_neg d1']
            by_cases d2 : i + len / 2 ≤ p ∧ p < i + len / 2 + c
            · rw [if_pos d2, if_pos ⟨d2.1, by omega⟩]
            · rw [if_neg d2]
              have d2' : ¬ (i + len / 2 ≤ p ∧ p < i + len / 2 + (c + 1)) := by
                rintro ⟨h, h'⟩; exact d2 ⟨h, by omega⟩
              rw [if_neg d2']

/-- The butterfly loop on the block starting at `m * (2 * h)` applies `stageFn` to the block
and leaves the other entries alone. -/
theorem butterflyLoop_spec (w_real w_imag : ℝ) (m h N : Nat) (re im : List ℝ)
    (hre : re.length = N) (him : im.length = N) (hh : 1 ≤ h)
    (hN : (m + 1) * (2 * h) ≤ N) :
    (butterflyLoop w_real w_imag (m * (2 * h)) (2 * h) re im).1.length = N ∧
    (butterflyLoop w_real w_imag (m * (2 * h)) (2 * h) re im).2.length = N ∧
    ∀ p : Nat,
      cplx (butterflyLoop w_real w_imag (m * (2 * h)) (2 * h) re im).1
          (butterflyLoop w_real w_imag (m * (2 * h)) (2 * h) re im).2 p =
        if m * (2 * h) ≤ p ∧ p < (m + 1) * (2 * h) then
          stageFn ⟨w_real, w_imag⟩ h (cplx re im) p
        else cplx re im p := by
  have hlen : 2 * h / 2 = h := by omega
  have hN' : m * (2 * h) + 2 * (2 * h / 2) ≤ N := by rw [hlen]; linarith
  obtain ⟨g1, g2, _, g4⟩ := butterflyFold_spec w_real w_imag (m * (2 * h)) (2 * h) N re im hre him
    (by omega) hN' (2 * h / 2) (le_refl _)
  unfold butterflyLoop
  refine ⟨g1, g2, fun p => ?_⟩
  rw [g4 p, hlen]
  have hexp : (m + 1) * (2 * h) = m * (2 * h) + 2 * h := by ring
  by_cases c1 : m * (2 * h) ≤ p ∧ p < m * (2 * h) + h
  · rw [if_pos c1, if_pos ⟨c1.1, by omega⟩]
    unfold stageFn
    have hmod : p % (2 * h) = p - m * (2 * h) := by
      have : p = (p - m * (2 * h)) + m * (2 * h) := by omega
      rw [this, Nat.add_mul_mod_self_right, Nat.mod_eq_of_lt (by omega)]
      omega
    rw [hmod, if_pos (by omega)]
  · rw [if_neg c1]
    by_cases c2 : m * (2 * h) + h ≤ p ∧ p < m * (2 * h) + h + h
    · rw [if_pos c2, if_pos ⟨by omega, by omega⟩]
      unfold stageFn
      have hmod : p % (2 * h) = p - m * (2 * h) := by
        have : p = (p - m * (2 * h)) + m * (2 * h) := by omega
        rw [this, Nat.add_mul_mod_self_right, Nat.mod_eq_of_lt (by omega)]
        omega
      rw [hmod, if_neg (by omega)]
      have : p - m * (2 * h) - h = p - h - m * (2 * h) := by omega
      rw [this]
    · rw [if_neg c2, if_neg]
      rintro ⟨h1, h2⟩
      by_cases h3 : p < m * (2 * h) + h
      · exact c1 ⟨h1, h3⟩
      · exact c2 ⟨by omega, by omega⟩

end ButterflyCode
end Deeplayer

namespace Deeplayer

section BlockCode

theorem stageFn_congr (w : ℂ) (h : Nat) (z z' : Nat → ℂ) (p : Nat) (hh : 1 ≤ h)
    (hz : ∀ q : Nat, q / (2 * h) = p / (2 * h) → z' q = z q) :
    stageFn w h z' p = stageFn w h z p := by
  have hdm := Nat.div_add_mod p (2 * h)
  have hmod : p % (2 * h) < 2 * h := Nat.mod_lt _ (by omega)
  unfold stageFn
  by_cases c : p % (2 * h) < h
  · rw [if_pos c, if_pos c]
    have e1 : (p + h) / (2 * h) = p / (2 * h) := by
      have : p + h = (p % (2 * h) + h) + (2 * h) * (p / (2 * h)) := by omega
      rw [this, Nat.add_mul_div_left _ _ (by omega : 0 < 2 * h),
        Nat.div_eq_of_lt (by omega : p % (2 * h) + h < 2 * h)]
      omega
    rw [hz p rfl, hz (p + h) e1]
  · rw [if_neg c, if_neg c]
    have e1 : (p - h) / (2 * h) = p / (2 * h) := by
      have : p - h = (p % (2 * h) - h) + (2 * h) * (p / (2 * h)) := by omega
      rw [this, Nat.add_mul_div_left _ _ (by omega : 0 < 2 * h),
        Nat.div_eq_of_lt (by omega : p % (2 * h) - h < 2 * h)]
      omega
    rw [hz p rfl, hz (p - h) e1]

/-- The block loop from block `m` on applies `stageFn` to every remaining block. -/
theorem blockLoop_spec (w_real w_imag : ℝ) (h B : Nat) (hh : 1 ≤ h)
    (hN32 : B * (2 * h) < 2147483648) (k : Nat) :
    ∀ (m : Nat), m + k = B → ∀ (re im : List ℝ), re.length = B * (2 * h) →
      im.length = B * (2 * h) → ∀ (fuel : Nat), k + 1 ≤ fuel →
      ∃ r : List ℝ × List ℝ,
        blockLoop w_real w_imag ((B * (2 * h) : Nat) : Int) (2 * h) fuel (m * (2 * h)) re im
          = some r ∧
        r.1.length = B * (2 * h) ∧ r.2.length = B * (2 * h) ∧
        ∀ p : Nat, cplx r.1 r.2 p =
          if m * (2 * h) ≤ p ∧ p < B * (2 * h) then stageFn ⟨w_real, w_imag⟩ h (cplx re im) p
          else cplx re im p := by
  induction k with
  | zero =>
    intro m hm re im hre him fuel hfuel
    obtain ⟨f, rfl⟩ : ∃ f, fuel = f + 1 := ⟨fuel - 1, by omega⟩
    have hmB : m = B := by omega
    subst hmB
    refine ⟨(re, im), ?_, hre, him, fun p => ?_⟩
    · rw [blockLoop, if_neg (by simp)]
    · rw [if_neg (by rintro ⟨h1, h2⟩; omega)]
  | succ k ih =>
    intro m hm re im hre him fuel hfuel
    obtain ⟨f, rfl⟩ : ∃ f, fuel = f + 1 := ⟨fuel - 1, by omega⟩
    have hmB : m + 1 ≤ B := by omega
    have hblk : (m + 1) * (2 * h) ≤ B * (2 * h) := Nat.mul_le_mul_right _ hmB
    have hexp : (m + 1) * (2 * h) = m * (2 * h) + 2 * h := by ring
    obtain ⟨g1, g2, g3⟩ := butterflyLoop_spec w_real w_imag m h (B * (2 * h)) re im hre him hh hblk
    obtain ⟨r, hr, hl1, hl2, hp⟩ := ih (m + 1) (by omega) _ _ g1 g2 f (by omega)
    refine ⟨r, ?_, hl1, hl2, fun p => ?_⟩
    · rw [blockLoop, if_pos (by exact_mod_cast (by omega : m * (2 * h) < B * (2 * h))),
        if_pos (by omega), ← hexp]
      exact hr
    · rw [hp p]
      by_cases c1 : (m + 1) * (2 * h) ≤ p ∧ p < B * (2 * h)
      · rw [if_pos c1, if_pos ⟨by omega, c1.2⟩]
        apply stageFn_congr _ _ _ _ _ hh
        intro q hq
        rw [g3 q]
        have hq1 : (m + 1) * (2 * h) ≤ q := by
          have : m + 1 ≤ p / (2 * h) := (Nat.le_div_iff_mul_le (by omega)).2 c1.1
          rw [← hq] at this
          exact (Nat.le_div_iff_mul_le (by omega)).1 this
        rw [if_neg (by rintro ⟨_, h2⟩; omega)]
      · rw [if_neg c1, g3 p]
        by_cases c2 : m * (2 * h) ≤ p ∧ p < (m + 1) * (2 * h)
        · rw [if_pos c2, if_pos ⟨c2.1, by omega⟩]
        · rw [if_neg c2, if_neg]
          rintro ⟨h1, h2⟩
          by_cases h3 : p < (m + 1) * (2 * h)
          · exact c2 ⟨h1, h3⟩
          · exact c1 ⟨by omega, h2⟩

end BlockCode
end Deeplayer

namespace Deeplayer

section DftAlgebra
variable {R : Type} [CommRing R]

theorem sum_range_even_odd {A : Type} [AddCommMonoid A] (f : Nat → A) (N : Nat) :
    ∑ j in Finset.range (2 * N), f j =
      ∑ j in Finset.range N, f (2 * j) + ∑ j in Finset.range N, f (2 * j + 1) := by
  induction N with
  | zero => simp
  | succ N ih =>
    have e : 2 * (N + 1) = 2 * N + 1 + 1 := by ring
    rw [e, Finset.sum_range_succ, Finset.sum_range_succ, ih, Finset.sum_range_succ,
      Finset.sum_range_succ]
    abel

/-- Decimation in time: a size-`2^(s+1)` sum is the size-`2^s` sum over the even entries plus a
twiddle factor times the size-`2^s` sum over the odd entries. -/
theorem dftSub_step (W : Nat → R) (hsq : ∀ s, W (s + 1) ^ 2 = W s) (x : Nat → R)
    (s t r k : Nat) :
    dftSub W x (s + 1) t r k =
      dftSub W x s (t + 1) r k + W (s + 1) ^ k * dftSub W x s (t + 1) (r + 2 ^ t) k := by
  unfold dftSub
  rw [pow_succ 2 s, mul_comm (2 ^ s) 2, sum_range_even_odd, Finset.mul_sum]
  congr 1
  · apply Finset.sum_congr rfl
    intro j _
    have e1 : r + 2 * j * 2 ^ t = r + j * 2 ^ (t + 1) := by ring
    have e2 : W (s + 1) ^ (2 * j * k) = W s ^ (j * k) := by
      rw [← hsq s, ← pow_mul]; ring_nf
    rw [e1, e2]
  · apply Finset.sum_congr rfl
    intro j _
    have e1 : r + (2 * j + 1) * 2 ^ t = r + 2 ^ t + j * 2 ^ (t + 1) := by ring
    have e2 : W (s + 1) ^ ((2 * j + 1) * k) = W (s + 1) ^ k * W s ^ (j * k) := by
      rw [← hsq s, ← pow_mul, ← pow_add]; ring_nf
    rw [e1, e2]
    ring

theorem dftSub_period (W : Nat → R) (hone : ∀ s, W s ^ (2 ^ s) = 1) (x : Nat → R)
    (s t r k : Nat) :
    dftSub W x s t r (k + 2 ^ s) = dftSub W x s t r k := by
  unfold dftSub
  apply Finset.sum_congr rfl
  intro j _
  have : W s ^ (j * (k + 2 ^ s)) = W s ^ (j * k) := by
    have h2 : W s ^ (j * 2 ^ s) = 1 := by
      rw [mul_comm j (2 ^ s), pow_mul, hone s, one_pow]
    rw [mul_add, pow_add, h2, mul_one]
  rw [this]

/-- The upper half of a decimation-in-time step. -/
theorem dftSub_step_upper (W : Nat → R) (hsq : ∀ s, W (s + 1) ^ 2 = W s)
    (hone : ∀ s, W s ^ (2 ^ s) = 1) (hneg : ∀ s, W (s + 1) ^ (2 ^ s) = -1) (x : Nat → R)
    (s t r k : Nat) :
    dftSub W x (s + 1) t r (k + 2 ^ s) =
      dftSub W x s (t + 1) r k - W (s + 1) ^ k * dftSub W x s (t + 1) (r + 2 ^ t) k := by
  rw [dftSub_step W hsq, dftSub_period W hone, dftSub_period W hone, pow_add, hneg s]
  ring

end DftAlgebra
end Deeplayer

namespace Deeplayer

section StageCode

theorem blockLoop_full (w_real w_imag : ℝ) (h B len N : Nat) (hh : 1 ≤ h) (hlen : len = 2 * h)
    (hN : N = B * len) (hN32 : N < 2147483648) (re im : List ℝ) (hre : re.length = N)
    (him : im.length = N) (fuel : Nat) (hf : B + 1 ≤ fuel) :
    ∃ r : List ℝ × List ℝ,
      blockLoop w_real w_imag (N : Int) len fuel 0 re im = some r ∧
      r.1.length = N ∧ r.2.length = N ∧
      ∀ p : Nat, p < N → cplx r.1 r.2 p = stageFn ⟨w_real, w_imag⟩ h (cplx re im) p := by
  subst hlen
  subst hN
  obtain ⟨r, h1, h2, h3, h4⟩ := blockLoop_spec w_real w_imag h B hh hN32 B 0 (by omega) re im
    hre him fuel hf
  rw [Nat.zero_mul] at h1
  refine ⟨r, h1, h2, h3, fun p hp => ?_⟩
  rw [h4 p, if_pos ⟨by omega, hp⟩]

/-- One stage of butterflies turns the invariant for `(s, t + 1)` into the one for
`(s + 1, t)`. -/
theorem stageInv_step (W : Nat → ℂ) (hsq : ∀ s, W (s + 1) ^ 2 = W s)
    (hone : ∀ s, W s ^ (2 ^ s) = 1) (hneg : ∀ s, W (s + 1) ^ (2 ^ s) = -1)
    (x : Nat → ℂ) (s t : Nat) (A A' : Nat → ℂ) (hA : StageInv W x s (t + 1) A)
    (hA' : ∀ p : Nat, p < 2 ^ (s + 1 + t) → A' p = stageFn (W (s + 1)) (2 ^ s) A p) :
    StageInv W x (s + 1) t A' := by
  intro m hm k hk
  have hs : 0 < 2 ^ s := Nat.pow_pos (by norm_num)
  have hk2 : k < 2 * 2 ^ s := by rw [pow_succ] at hk; omega
  have hp : m * 2 ^ (s + 1) + k < 2 ^ (s + 1 + t) := by
    have : (m + 1) * 2 ^ (s + 1) ≤ 2 ^ t * 2 ^ (s + 1) := Nat.mul_le_mul_right _ hm
    have e2 : 2 ^ (s + 1 + t) = 2 ^ t * 2 ^ (s + 1) := by rw [pow_add, mul_comm]
    have e : (m + 1) * 2 ^ (s + 1) = m * 2 ^ (s + 1) + 2 ^ (s + 1) := by ring
    have hpos : 0 < 2 ^ (s + 1) := Nat.pow_pos (by norm_num)
    omega
  rw [hA' _ hp]
  have hmod : (m * 2 ^ (s + 1) + k) % (2 * 2 ^ s) = k := by
    have e : m * 2 ^ (s + 1) + k = k + (2 * 2 ^ s) * m := by rw [pow_succ]; ring
    rw [e, Nat.add_mul_mod_self_left, Nat.mod_eq_of_lt hk2]
  have hr0 : bitRev (t + 1) (2 * m) = bitRev t m := by
    rw [bitRev_succ]
    have e1 : 2 * m % 2 = 0 := by omega
    have e2 : 2 * m / 2 = m := by omega
    rw [e1, e2]; simp
  have hr1 : bitRev (t + 1) (2 * m + 1) = bitRev t m + 2 ^ t := by
    rw [bitRev_succ]
    have e1 : (2 * m + 1) % 2 = 1 := by omega
    have e2 : (2 * m + 1) / 2 = m := by omega
    rw [e1, e2]; ring
  have hm0 : 2 * m < 2 ^ (t + 1) := by rw [pow_succ]; omega
  have hm1 : 2 * m + 1 < 2 ^ (t + 1) := by rw [pow_succ]; omega
  unfold stageFn
  rw [hmod]
  by_cases c : k < 2 ^ s
  · rw [if_pos c]
    have p0 : m * 2 ^ (s + 1) + k = (2 * m) * 2 ^ s + k := by rw [pow_succ]; ring
    have p1 : m * 2 ^ (s + 1) + k + 2 ^ s = (2 * m + 1) * 2 ^ s + k := by rw [pow_succ]; ring
    rw [p1, p0, hA (2 * m) hm0 k c, hA (2 * m + 1) hm1 k c, hr0, hr1, dftSub_step W hsq]
  · rw [if_neg c]
    have hk' : k - 2 ^ s < 2 ^ s := by omega
    have p0 : m * 2 ^ (s + 1) + k - 2 ^ s = (2 * m) * 2 ^ s + (k - 2 ^ s) := by
      have : m * 2 ^ (s + 1) = (2 * m) * 2 ^ s := by rw [pow_succ]; ring
      omega
    have p1 : m * 2 ^ (s + 1) + k = (2 * m + 1) * 2 ^ s + (k - 2 ^ s) := by
      have : m * 2 ^ (s + 1) + 2 ^ s = (2 * m + 1) * 2 ^ s := by rw [pow_succ]; ring
      omega
    rw [p0]
    conv_lhs => rw [p1]
    rw [hA (2 * m) hm0 _ hk', hA (2 * m + 1) hm1 _ hk', hr0, hr1]
    have hkk : k = (k - 2 ^ s) + 2 ^ s := by omega
    conv_rhs => rw [hkk]
    rw [dftSub_step_upper W hsq hone hneg]


/-- The stage loop from stage `2^(s+1)` on, with `t` stages to go, completes the transform. -/
theorem stageLoop_spec (M : MathFns ℝ) (W : Nat → ℂ)
    (hW : ∀ s : Nat, W (s + 1) =
      (⟨M.cos (2 * M.pi / ((2 ^ (s + 1) : Nat) : ℝ)),
        -M.sin (2 * M.pi / ((2 ^ (s + 1) : Nat) : ℝ))⟩ : ℂ))
    (hsq : ∀ s, W (s + 1) ^ 2 = W s) (hone : ∀ s, W s ^ (2 ^ s) = 1)
    (hneg : ∀ s, W (s + 1) ^ (2 ^ s) = -1) (b : Nat) (hb : b ≤ 29) (x : Nat → ℂ) (t : Nat) :
    ∀ (s : Nat), s + t = b → ∀ (re im : List ℝ), re.length = 2 ^ b → im.length = 2 ^ b →
      StageInv W x s t (cplx re im) → ∀ (fuel : Nat), t + 1 ≤ fuel →
      ∃ r : List ℝ × List ℝ,
        stageLoop M ((2 ^ b : Nat) : Int) fuel (2 ^ (s + 1)) re im = some r ∧
        r.1.length = 2 ^ b ∧ r.2.length = 2 ^ b ∧
        StageInv W x b 0 (cplx r.1 r.2) := by
  have hb32 : 2 ^ b ≤ 2 ^ 29 := Nat.pow_le_pow_right (by norm_num) hb
  induction t with
  | zero =>
    intro s hs re im hre him hinv fuel hfuel
    obtain ⟨f, rfl⟩ : ∃ f, fuel = f + 1 := ⟨fuel - 1, by omega⟩
    have hsb : s = b := by omega
    subst hsb
    refine ⟨(re, im), ?_, hre, him, hinv⟩
    rw [stageLoop, if_neg]
    have : 2 ^ s < 2 ^ (s + 1) := Nat.pow_lt_pow_right (by norm_num) (by omega)
    exact_mod_cast (by omega : ¬ 2 ^ (s + 1) ≤ 2 ^ s)
  | succ t ih =>
    intro s hs re im hre him hinv fuel hfuel
    obtain ⟨f, rfl⟩ : ∃ f, fuel = f + 1 := ⟨fuel - 1, by omega⟩
    have hle : 2 ^ (s + 1) ≤ 2 ^ b := Nat.pow_le_pow_right (by norm_num) (by omega)
    have hN : 2 ^ b = 2 ^ t * 2 ^ (s + 1) := by
      rw [← pow_add]; congr 1; omega
    have hBle : 2 ^ t ≤ 2 ^ b := Nat.pow_le_pow_right (by norm_num) (by omega)
    obtain ⟨r1, g1, g2, g3, g4⟩ := blockLoop_full
      (M.cos (2 * M.pi / ((2 ^ (s + 1) : Nat) : ℝ)))
      (-M.sin (2 * M.pi / ((2 ^ (s + 1) : Nat) : ℝ))) (2 ^ s) (2 ^ t) (2 ^ (s + 1)) (2 ^ b)
      (Nat.pow_pos (by norm_num)) (by rw [pow_succ]; ring) hN (by omega) re im hre him
      (2 ^ b + 1) (by omega)
    have hinv1 : StageInv W x (s + 1) t (cplx r1.1 r1.2) := by
      apply stageInv_step W hsq hone hneg x s t (cplx re im) _ hinv
      intro p hp
      have e : s + 1 + t = b := by omega
      rw [e] at hp
      rw [g4 p hp, hW s]
    obtain ⟨r, k1, k2, k3, k4⟩ := ih (s + 1) (by omega) r1.1 r1.2 g2 g3 hinv1 f (by omega)
    refine ⟨r, ?_, k2, k3, k4⟩
    rw [stageLoop, if_pos (by exact_mod_cast hle)]
    simp only [Int.toNat_ofNat]
    rw [g1]
    simp only []
    have h2 : 2 * 2 ^ (s + 1) < 2147483648 := by omega
    rw [if_pos h2]
    have e2 : 2 * 2 ^ (s + 1) = 2 ^ (s + 1 + 1) := by rw [pow_succ 2 (s + 1)]; ring
    rw [e2]
    exact k1

end StageCode
end Deeplayer

namespace Deeplayer

section FftTheorem

theorem wrap32_of_lt (n : Nat) (h : n < 2147483648) : wrap32 (n : Int) = (n : Int) := by
  unfold wrap32; omega

theorem twiddle_mk (a : ℝ) :
    Complex.exp (((-a : ℝ) : ℂ) * Complex.I) = (⟨Real.cos a, -Real.sin a⟩ : ℂ) := by
  apply Complex.ext
  · rw [Complex.exp_ofReal_mul_I_re, Real.cos_neg]
  · rw [Complex.exp_ofReal_mul_I_im, Real.sin_neg]

theorem twiddle_sq (s : Nat) :
    Complex.exp (((-(2 * Real.pi / ((2 ^ (s + 1) : Nat) : ℝ)) : ℝ) : ℂ) * Complex.I) ^ 2 =
      Complex.exp (((-(2 * Real.pi / ((2 ^ s : Nat) : ℝ)) : ℝ) : ℂ) * Complex.I) := by
  rw [← Complex.exp_nat_mul]
  congr 1
  push_cast
  have : (2 : ℂ) ^ s ≠ 0 := pow_ne_zero _ (by norm_num)
  field_simp
  ring

theorem twiddle_pow_one (s : Nat) :
    Complex.exp (((-(2 * Real.pi / ((2 ^ s : Nat) : ℝ)) : ℝ) : ℂ) * Complex.I) ^ (2 ^ s) = 1 := by
  rw [← Complex.exp_nat_mul]
  have : (2 : ℂ) ^ s ≠ 0 := pow_ne_zero _ (by norm_num)
  have e : ((2 ^ s : Nat) : ℂ) * (((-(2 * Real.pi / ((2 ^ s : Nat) : ℝ)) : ℝ) : ℂ) * Complex.I)
      = -(2 * Real.pi * Complex.I) := by
    push_cast
    field_simp
    ring
  rw [e, Complex.exp_neg, Complex.exp_two_pi_mul_I, inv_one]

theorem twiddle_pow_neg_one (s : Nat) :
    Complex.exp (((-(2 * Real.pi / ((2 ^ (s + 1) : Nat) : ℝ)) : ℝ) : ℂ) * Complex.I) ^ (2 ^ s)
      = -1 := by
  rw [← Complex.exp_nat_mul]
  have : (2 : ℂ) ^ s ≠ 0 := pow_ne_zero _ (by norm_num)
  have e : ((2 ^ s : Nat) : ℂ) *
      (((-(2 * Real.pi / ((2 ^ (s + 1) : Nat) : ℝ)) : ℝ) : ℂ) * Complex.I)
      = -(Real.pi * Complex.I) := by
    push_cast
    field_simp
    ring
  rw [e, Complex.exp_neg, Complex.exp_pi_mul_I]
  norm_num

/-- For buffers of length `2^b`, `b ≤ 29`, `fft` over the reals returns with the buffers
holding the discrete Fourier transform of the input in natural order. -/
theorem fft_eq_dft (M : MathFns ℝ) (hcos : M.cos = Real.cos) (hsin : M.sin = Real.sin)
    (hpi : M.pi = Real.pi) (b : Nat) (hb : b ≤ 29) (re im : List ℝ)
    (hre : re.length = 2 ^ b) (him : im.length = 2 ^ b) :
    ∃ r : List ℝ × List ℝ,
      fft M re im = some r ∧ r.1.length = 2 ^ b ∧ r.2.length = 2 ^ b ∧
      ∀ k : Nat, k < 2 ^ b →
        cplx r.1 r.2 k =
          ∑ j in Finset.range (2 ^ b),
            cplx re im j *
              Complex.exp (-2 * (Real.pi : ℂ) * Complex.I * (j : ℂ) * (k : ℂ)
                / ((2 ^ b : Nat) : ℂ)) := by
  have hb32 : 2 ^ b ≤ 2 ^ 29 := Nat.pow_le_pow_right (by norm_num) hb
  obtain ⟨q1, q2, q3⟩ := bitReversal_spec b re im hre him
  have hW : ∀ s : Nat,
      (fun s : Nat =>
        Complex.exp (((-(2 * Real.pi / ((2 ^ s : Nat) : ℝ)) : ℝ) : ℂ) * Complex.I)) (s + 1) =
      (⟨M.cos (2 * M.pi / ((2 ^ (s + 1) : Nat) : ℝ)),
        -M.sin (2 * M.pi / ((2 ^ (s + 1) : Nat) : ℝ))⟩ : ℂ) := by
    intro s
    rw [hcos, hsin, hpi]
    exact twiddle_mk _
  have hinv0 : StageInv
      (fun s : Nat =>
        Complex.exp (((-(2 * Real.pi / ((2 ^ s : Nat) : ℝ)) : ℝ) : ℂ) * Complex.I))
      (cplx re im) 0 b
      (cplx (bitReversal ((2 ^ b : Nat) : Int) re im).1
        (bitReversal ((2 ^ b : Nat) : Int) re im).2) := by
    intro m hm k hk
    have hk0 : k = 0 := by simpa using hk
    subst hk0
    have := q3 m hm
    simp only [dftSub, pow_zero, Finset.range_one, Finset.sum_singleton, zero_mul, add_zero,
      mul_one]
    unfold cplx
    rw [this.1, this.2]
  obtain ⟨r, k1, k2, k3, k4⟩ := stageLoop_spec M _ hW twiddle_sq twiddle_pow_one
    twiddle_pow_neg_one b hb (cplx re im) b 0 (by omega) _ _ q1 q2 hinv0 32 (by omega)
  refine ⟨r, ?_, k2, k3, fun k hk => ?_⟩
  · unfold fft
    simp only []
    rw [hre, wrap32_of_lt _ (by omega)]
    exact k1
  · have := k4 0 (by simp) k hk
    rw [Nat.zero_mul, Nat.zero_add] at this
    rw [this]
    unfold dftSub
    apply Finset.sum_congr rfl
    intro j _
    simp only [bitRev, pow_zero, mul_one, Nat.zero_add]
    congr 1
    rw [← Complex.exp_nat_mul]
    congr 1
    have : (2 : ℂ) ^ b ≠ 0 := pow_ne_zero _ (by norm_num)
    push_cast
    field_simp
    ring

end FftTheorem
end Deeplayer

namespace Deeplayer

section FftClaim

theorem getD_replicate_of_lt {β : Type} (N j : Nat) (a d : β) (h : j < N) :
    (List.replicate N a).getD j d = a := by
  rw [List.getD_eq_getElem?_getD, List.getElem?_replicate, if_pos h]
  rfl

theorem bitReversal_of_small (n : Int) (re im : List ℝ) (h : n < 2) :
    bitReversal n re im = (re, im) := by
  have h1 : n.toNat - 1 = 0 := by omega
  unfold bitReversal
  rw [h1]
  rfl

theorem stageLoop_of_small (M : MathFns ℝ) (n : Int) (re im : List ℝ) (h : n < 2) (fuel : Nat) :
    stageLoop M n (fuel + 1) 2 re im = some (re, im) := by
  rw [stageLoop, if_neg]
  push_cast; omega

/-- When `static_cast<int>(real.size())` is below 2 neither loop of `fft` runs. -/
theorem fft_of_small (M : MathFns ℝ) (re im : List ℝ) (h : wrap32 (re.length : Int) < 2) :
    fft M re im = some (re, im) := by
  unfold fft
  simp only []
  rw [bitReversal_of_small _ _ _ h]
  exact stageLoop_of_small M _ re im h 31

/-- C1 fails as stated: for the length `2^31`, a power of two,
`static_cast<int>(real.size())` is negative, `fft` returns with the buffers untouched, and for
`re = [1, ..., 1]`, `im = [0, ..., 0]` the entry at index 0 stays `1` while the discrete
Fourier transform there is `2^31`. -/
theorem fft_not_dft_at_two_pow_31 :
    fft (MathFns.mk Real.cos Real.sin Real.log (Real.logb 10) (fun a b => a ^ b) Real.pi)
        (List.replicate (2 ^ 31) (1 : ℝ)) (List.replicate (2 ^ 31) (0 : ℝ))
      = some (List.replicate (2 ^ 31) (1 : ℝ), List.replicate (2 ^ 31) (0 : ℝ)) ∧
    (((List.replicate (2 ^ 31) (1 : ℝ)).getD 0 0 : ℝ) : ℂ)
        + (((List.replicate (2 ^ 31) (0 : ℝ)).getD 0 0 : ℝ) : ℂ) * Complex.I ≠
      ∑ j in Finset.range (2 ^ 31),
        ((((List.replicate (2 ^ 31) (1 : ℝ)).getD j 0 : ℝ) : ℂ)
          + (((List.replicate (2 ^ 31) (0 : ℝ)).getD j 0 : ℝ) : ℂ) * Complex.I) *
        Complex.exp (-2 * (Real.pi : ℂ) * Complex.I * (j : ℂ) * ((0 : Nat) : ℂ)
          / ((2 ^ 31 : Nat) : ℂ)) := by
  constructor
  · apply fft_of_small
    rw [List.length_replicate]
    unfold wrap32
    norm_num
  · have hsum : ∑ j in Finset.range (2 ^ 31),
        ((((List.replicate (2 ^ 31) (1 : ℝ)).getD j 0 : ℝ) : ℂ)
          + (((List.replicate (2 ^ 31) (0 : ℝ)).getD j 0 : ℝ) : ℂ) * Complex.I) *
        Complex.exp (-2 * (Real.pi : ℂ) * Complex.I * (j : ℂ) * ((0 : Nat) : ℂ)
          / ((2 ^ 31 : Nat) : ℂ)) = ∑ _j in Finset.range (2 ^ 31), (1 : ℂ) := by
      apply Finset.sum_congr rfl
      intro j hj
      rw [Finset.mem_range] at hj
      rw [getD_replicate_of_lt _ _ _ _ hj, getD_replicate_of_lt _ _ _ _ hj]
      simp
    rw [hsum, getD_replicate_of_lt _ _ _ _ (by norm_num), getD_replicate_of_lt _ _ _ _ (by norm_num),
      Finset.sum_const, Finset.card_range]
    norm_num

/-- C1 (amended): for every length `n = 2^b` with `b ≤ 29` and every pair of length-`n`
buffers `(re, im)`, `fft` with its arithmetic read over the reals returns with the buffers
holding the discrete Fourier transform in natural order:
`re'[k] + i*im'[k] = Σ_{j<n} (re[j] + i*im[j]) * e^(-2πi·j·k/n)` for every `k < n`. -/
theorem fft_is_dft (b : Nat) (re im : List ℝ) (hb : b ≤ 29) (hre : re.length = 2 ^ b)
    (him : im.length = 2 ^ b) :
    ∃ re' im' : List ℝ,
      fft (MathFns.mk Real.cos Real.sin Real.log (Real.logb 10) (fun a b => a ^ b) Real.pi)
        re im = some (re', im') ∧
      re'.length = 2 ^ b ∧ im'.length = 2 ^ b ∧
      ∀ k : Nat, k < 2 ^ b →
        ((re'.getD k 0 : ℝ) : ℂ) + ((im'.getD k 0 : ℝ) : ℂ) * Complex.I =
          ∑ j in Finset.range (2 ^ b),
            (((re.getD j 0 : ℝ) : ℂ) + ((im.getD j 0 : ℝ) : ℂ) * Complex.I) *
              Complex.exp (-2 * (Real.pi : ℂ) * Complex.I * (j : ℂ) * (k : ℂ)
                / ((2 ^ b : Nat) : ℂ)) := by
  obtain ⟨r, h1, h2, h3, h4⟩ := fft_eq_dft
    (MathFns.mk Real.cos Real.sin Real.log (Real.logb 10) (fun a b => a ^ b) Real.pi)
    rfl rfl rfl b hb re im hre him
  refine ⟨r.1, r.2, h1, h2, h3, fun k hk => ?_⟩
  have := h4 k hk
  simp only [cplx, Complex.mk_eq_add_mul_I] at this
  exact this

/-- Instance of the amended C1 at the spec's example `re = [1,1,1,1]`, `im = [0,0,0,0]`. -/
theorem fft_is_dft_witness :
    ∃ re' im' : List ℝ,
      fft (MathFns.mk Real.cos Real.sin Real.log (Real.logb 10) (fun a b => a ^ b) Real.pi)
        [1, 1, 1, 1] [0, 0, 0, 0] = some (re', im') ∧
      re'.length = 2 ^ 2 ∧ im'.length = 2 ^ 2 ∧
      ∀ k : Nat, k < 2 ^ 2 →
        ((re'.getD k 0 : ℝ) : ℂ) + ((im'.getD k 0 : ℝ) : ℂ) * Complex.I =
          ∑ j in Finset.range (2 ^ 2),
            (((([1, 1, 1, 1] : List ℝ).getD j 0 : ℝ) : ℂ)
              + ((([0, 0, 0, 0] : List ℝ).getD j 0 : ℝ) : ℂ) * Complex.I) *
              Complex.exp (-2 * (Real.pi : ℂ) * Complex.I * (j : ℂ) * (k : ℂ)
                / ((2 ^ 2 : Nat) : ℂ)) :=
  fft_is_dft 2 [1, 1, 1, 1] [0, 0, 0, 0] (by decide) (by simp) (by simp)

end FftClaim
end Deeplayer

namespace Deeplayer

section ComputeLoops
variable {α : Type} [LinearOrderedField α]

/-- Reading a buffer after the stores `buf[i] = g i` for `i < n`. -/
theorem setLoop_spec (g : Nat → α) (n : Nat) (buf : List α) :
    ((List.range n).foldl (fun (b : List α) (i : Nat) => b.set i (g i)) buf).length = buf.length ∧
    ∀ j : Nat,
      ((List.range n).foldl (fun (b : List α) (i : Nat) => b.set i (g i)) buf).getD j 0 =
        if j < n ∧ j < buf.length then g j else buf.getD j 0 := by
  induction n with
  | zero =>
    refine ⟨rfl, fun j => ?_⟩
    rw [if_neg (by rintro ⟨h, _⟩; omega)]
    rfl
  | succ n ih =>
    obtain ⟨h1, h2⟩ := ih
    rw [List.range_succ, List.foldl_append]
    simp only [List.foldl_cons, List.foldl_nil]
    refine ⟨by rw [List.length_set, h1], fun j => ?_⟩
    rw [getD_set_eq, h1, h2 j]
    by_cases c1 : n = j ∧ n < buf.length
    · rw [if_pos c1, if_pos ⟨by omega, by omega⟩, c1.1]
    · rw [if_neg c1]
      by_cases c2 : j < n ∧ j < buf.length
      · rw [if_pos c2, if_pos ⟨by omega, c2.2⟩]
      · rw [if_neg c2, if_neg]
        rintro ⟨h3, h4⟩
        by_cases h5 : j = n
        · exact c1 ⟨h5.symm, by omega⟩
        · exact c2 ⟨by omega, h4⟩

theorem windowFrame_spec (hann pcm : List α) (start : Nat) (fft_real : List α)
    (hlen : fft_real.length = kFftSize) :
    (windowFrame hann pcm start fft_real).length = kFftSize ∧
    ∀ j : Nat, (windowFrame hann pcm start fft_real).getD j 0 =
      if j < kWindowSize then pcm.getD (start + j) 0 * hann.getD j 0 else 0 := by
  unfold windowFrame
  obtain ⟨h1, h2⟩ := setLoop_spec (fun i => pcm.getD (start + i) 0 * hann.getD i 0) kWindowSize
    (List.replicate fft_real.length (0 : α))
  refine ⟨by rw [h1, List.length_replicate, hlen], fun j => ?_⟩
  rw [h2 j, List.length_replicate, hlen]
  have hz : (List.replicate kFftSize (0 : α)).getD j 0 = 0 := by
    rw [List.getD_eq_getElem?_getD, List.getElem?_replicate]
    split <;> rfl
  rw [hz]
  by_cases c : j < kWindowSize
  · have : j < kFftSize := lt_trans c (by decide)
    rw [if_pos ⟨c, this⟩, if_pos c]
  · rw [if_neg (by rintro ⟨h, _⟩; exact c h), if_neg c]

theorem powerSpectrum_spec (fft_real fft_imag ps : List α) (hlen : ps.length = kNumFftBins) :
    (powerSpectrum fft_real fft_imag ps).length = kNumFftBins ∧
    ∀ k : Nat, k < kNumFftBins → (powerSpectrum fft_real fft_imag ps).getD k 0 =
      fft_real.getD k 0 * fft_real.getD k 0 + fft_imag.getD k 0 * fft_imag.getD k 0 := by
  unfold powerSpectrum
  obtain ⟨h1, h2⟩ := setLoop_spec
    (fun k => fft_real.getD k 0 * fft_real.getD k 0 + fft_imag.getD k 0 * fft_imag.getD k 0)
    kNumFftBins ps
  refine ⟨by rw [h1, hlen], fun k hk => ?_⟩
  rw [h2 k, if_pos ⟨hk, by omega⟩]

theorem bandEnergy_eq_sum (row ps : List α) :
    bandEnergy row ps = ∑ k in Finset.range kNumFftBins, row.getD k 0 * ps.getD k 0 := by
  unfold bandEnergy
  generalize kNumFftBins = n
  induction n with
  | zero => simp
  | succ n ih =>
    rw [List.range_succ, List.foldl_append, Finset.sum_range_succ, ← ih]
    rfl

theorem chk32_of_range (x : Int) (h1 : -2147483648 ≤ x) (h2 : x < 2147483648) :
    chk32 x = some x := by
  unfold chk32
  rw [if_pos ⟨h1, h2⟩]

/-- The mel loop after `c` bands: the outputs `frame * 80 + m`, `m < c`, hold the log energies. -/
theorem melLoop_fold (M : MathFns α) (fb : List (List α)) (ps : List α) (frame : Nat)
    (out : List α) (c : Nat) (hc : frame * kNumMelBands + c ≤ 2147483648) :
    ∃ out' : List α,
      (List.range c).foldl
        (fun (o : Option (List α)) (m : Nat) =>
          o.bind fun o =>
            (chk32 ((frame : Int) * (kNumMelBands : Int) + (m : Int))).map fun idx =>
              setAt o idx (M.log (max (bandEnergy (fb.getD m []) ps) 1e-10)))
        (some out) = some out' ∧
      out'.length = out.length ∧
      ∀ j : Nat, out'.getD j 0 =
        if frame * kNumMelBands ≤ j ∧ j < frame * kNumMelBands + c ∧ j < out.length then
          M.log (max (bandEnergy (fb.getD (j - frame * kNumMelBands) []) ps) 1e-10)
        else out.getD j 0 := by
  induction c with
  | zero =>
    refine ⟨out, by simp only [List.range_zero, List.foldl_nil], rfl, fun j => ?_⟩
    rw [if_neg (by rintro ⟨h1, h2, _⟩; omega)]
  | succ c ih =>
    obtain ⟨o1, h1, h2, h3⟩ := ih (by omega)
    rw [List.range_succ, List.foldl_append, h1, List.foldl_cons, List.foldl_nil,
      Option.some_bind]
    have hidx : chk32 ((frame : Int) * (kNumMelBands : Int) + (c : Int))
        = some ((frame * kNumMelBands + c : Nat) : Int) := by
      have e : (frame : Int) * (kNumMelBands : Int) + (c : Int)
          = ((frame * kNumMelBands + c : Nat) : Int) := by push_cast; ring
      rw [e]
      exact chk32_of_range _ (by omega) (by omega)
    rw [hidx, Option.map_some']
    refine ⟨_, rfl, by rw [setAt_length, h2], fun j => ?_⟩
    rw [setAt_getD, h2, h3 j]
    by_cases c1 : ((frame * kNumMelBands + c : Nat) : Int) = (j : Int) ∧ j < out.length
    · have hj : j = frame * kNumMelBands + c := by have := c1.1; omega
      rw [if_pos c1, if_pos ⟨by omega, by omega, c1.2⟩]
      have : j - frame * kNumMelBands = c := by omega
      rw [this]
    · rw [if_neg c1]
      by_cases c2 : frame * kNumMelBands ≤ j ∧ j < frame * kNumMelBands + c ∧ j < out.length
      · rw [if_pos c2, if_pos ⟨c2.1, by omega, c2.2.2⟩]
      · rw [if_neg c2, if_neg]
        rintro ⟨a1, a2, a3⟩
        by_cases a4 : j = frame * kNumMelBands + c
        · exact c1 ⟨by omega, a3⟩
        · exact c2 ⟨a1, by omega, a3⟩

theorem melLoop_spec (M : MathFns α) (fb : List (List α)) (ps : List α) (frame : Nat)
    (out : List α) (hc : frame * kNumMelBands + kNumMelBands ≤ 2147483648) :
    ∃ out' : List α,
      melLoop M fb ps frame out = some out' ∧ out'.length = out.length ∧
      ∀ j : Nat, out'.getD j 0 =
        if frame * kNumMelBands ≤ j ∧ j < frame * kNumMelBands + kNumMelBands ∧ j < out.length
        then M.log (max (bandEnergy (fb.getD (j - frame * kNumMelBands) []) ps) 1e-10)
        else out.getD j 0 :=
  melLoop_fold M fb ps frame out kNumMelBands hc

end ComputeLoops
end Deeplayer

namespace Deeplayer

section ComputeFrames

theorem cplx_zero_imag (re : List ℝ) (n j : Nat) :
    cplx re (List.replicate n (0 : ℝ)) j = ((re.getD j 0 : ℝ) : ℂ) := by
  unfold cplx
  have hz : (List.replicate n (0 : ℝ)).getD j 0 = 0 := by
    rw [List.getD_eq_getElem?_getD, List.getElem?_replicate]
    split <;> rfl
  rw [hz]
  rfl

theorem kFftSize_eq : kFftSize = 2 ^ 9 := by norm_num [kFftSize]

theorem kNumFftBins_eq : kNumFftBins = 257 := by norm_num [kNumFftBins, kFftSize]

/-- One frame of `compute`: the frame's 80 outputs receive the log-mel values, every other
output is left as it was. -/
theorem frameStep_spec (M : MathFns ℝ) (hcos : M.cos = Real.cos) (hsin : M.sin = Real.sin)
    (hpi : M.pi = Real.pi) (self : MelSpectrogram ℝ) (pcm : List ℝ) (st : ComputeState ℝ)
    (frame : Nat) (h1 : st.fft_real.length = kFftSize) (h2 : st.fft_imag.length = kFftSize)
    (h3 : st.power_spectrum.length = kNumFftBins) (hb : frame * 160 < 2147483648)
    (hb2 : frame * kNumMelBands + kNumMelBands ≤ 2147483648) :
    ∃ st' : ComputeState ℝ,
      frameStep M self pcm st frame = some st' ∧
      st'.fft_real.length = kFftSize ∧ st'.fft_imag.length = kFftSize ∧
      st'.power_spectrum.length = kNumFftBins ∧
      st'.mel_output.length = st.mel_output.length ∧
      ∀ j : Nat,
        (frame * kNumMelBands ≤ j ∧ j < frame * kNumMelBands + kNumMelBands ∧
            j < st.mel_output.length →
          IsLogMel M.log
            (fun j k => Complex.exp (-2 * (Real.pi : ℂ) * Complex.I * (j : ℂ) * (k : ℂ)
              / ((2 ^ 9 : Nat) : ℂ)))
            self.hann_window_ self.mel_filterbank_ pcm frame (j - frame * kNumMelBands)
            (st'.mel_output.getD j 0)) ∧
        (¬ (frame * kNumMelBands ≤ j ∧ j < frame * kNumMelBands + kNumMelBands ∧
            j < st.mel_output.length) →
          st'.mel_output.getD j 0 = st.mel_output.getD j 0) := by
  have hstart : chk32 ((frame : Int) * (kHopSize : Int)) = some ((frame * 160 : Nat) : Int) := by
    have e : (frame : Int) * (kHopSize : Int) = ((frame * 160 : Nat) : Int) := by
      push_cast; rfl
    rw [e]
    exact chk32_of_range _ (by omega) (by omega)
  obtain ⟨w1, w2⟩ := windowFrame_spec self.hann_window_ pcm (frame * 160) st.fft_real h1
  have hz : (List.replicate st.fft_imag.length (0 : ℝ)).length = 2 ^ 9 := by
    rw [List.length_replicate, h2, kFftSize_eq]
  obtain ⟨r, f1, f2, f3, f4⟩ := fft_eq_dft M hcos hsin hpi 9 (by norm_num)
    (windowFrame self.hann_window_ pcm (frame * 160) st.fft_real)
    (List.replicate st.fft_imag.length (0 : ℝ)) (by rw [w1, kFftSize_eq]) hz
  obtain ⟨p1, p2⟩ := powerSpectrum_spec r.1 r.2 st.power_spectrum h3
  obtain ⟨out', m1, m2, m3⟩ := melLoop_spec M self.mel_filterbank_
    (powerSpectrum r.1 r.2 st.power_spectrum) frame st.mel_output hb2
  have hfs : frameStep M self pcm st frame = some
      { fft_real := r.1, fft_imag := r.2,
        power_spectrum := powerSpectrum r.1 r.2 st.power_spectrum, mel_output := out' } := by
    unfold frameStep
    rw [hstart, Option.some_bind]
    simp only [Int.toNat_ofNat]
    rw [f1, Option.some_bind, m1, Option.map_some']
  refine ⟨_, hfs, ?_, ?_, ?_, ?_, fun j => ⟨fun hj => ?_, fun hj => ?_⟩⟩
  · show r.1.length = kFftSize
    rw [f2, kFftSize_eq]
  · show r.2.length = kFftSize
    rw [f3, kFftSize_eq]
  · dsimp only
    exact p1
  · show out'.length = st.mel_output.length
    exact m2
  · show IsLogMel _ _ _ _ _ _ _ (out'.getD j 0)
    rw [m3 j, if_pos hj]
    unfold IsLogMel
    rw [bandEnergy_eq_sum, kNumFftBins_eq]
    have hsum : ∑ k in Finset.range 257,
        (self.mel_filterbank_.getD (j - frame * kNumMelBands) []).getD k 0 *
          (powerSpectrum r.1 r.2 st.power_spectrum).getD k 0 =
        ∑ k in Finset.range 257,
          (self.mel_filterbank_.getD (j - frame * kNumMelBands) []).getD k 0 *
          Complex.normSq (∑ i in Finset.range 512,
            (((if i < 400 then pcm.getD (frame * 160 + i) 0 * self.hann_window_.getD i 0
              else 0 : ℝ)) : ℂ) *
            Complex.exp (-2 * (Real.pi : ℂ) * Complex.I * (i : ℂ) * (k : ℂ)
              / ((2 ^ 9 : Nat) : ℂ))) := by
      apply Finset.sum_congr rfl
      intro k hk
      rw [Finset.mem_range] at hk
      rw [p2 k (by rw [kNumFftBins_eq]; exact hk)]
      have hk512 : k < 2 ^ 9 := lt_trans hk (by norm_num)
      have hdft := f4 k hk512
      have hn : Complex.normSq (cplx r.1 r.2 k) =
          r.1.getD k 0 * r.1.getD k 0 + r.2.getD k 0 * r.2.getD k 0 := by
        unfold cplx
        rw [Complex.normSq_mk]
      rw [← hn, hdft]
      have e512 : (2 : Nat) ^ 9 = 512 := by norm_num
      rw [e512]
      have hin : ∀ i : Nat,
          cplx (windowFrame self.hann_window_ pcm (frame * 160) st.fft_real)
            (List.replicate st.fft_imag.length (0 : ℝ)) i =
          (((if i < 400 then pcm.getD (frame * 160 + i) 0 * self.hann_window_.getD i 0
              else 0 : ℝ)) : ℂ) := by
        intro i
        rw [cplx_zero_imag, w2 i]
        rfl
      simp only [hin]
    rw [hsum]
  · show out'.getD j 0 = _
    rw [m3 j, if_neg hj]

end ComputeFrames
end Deeplayer

namespace Deeplayer

section ComputeSpec

theorem kNumMelBands_eq : kNumMelBands = 80 := rfl

/-- The frame loop of `compute` after `c` frames. -/
theorem framesFold_spec (M : MathFns ℝ) (hcos : M.cos = Real.cos) (hsin : M.sin = Real.sin)
    (hpi : M.pi = Real.pi) (self : MelSpectrogram ℝ) (pcm : List ℝ) (st0 : ComputeState ℝ)
    (h1 : st0.fft_real.length = kFftSize) (h2 : st0.fft_imag.length = kFftSize)
    (h3 : st0.power_spectrum.length = kNumFftBins) (c : Nat) (hc : c ≤ 13421771) :
    ∃ st : ComputeState ℝ,
      (List.range c).foldl
        (fun (s : Option (ComputeState ℝ)) (frame : Nat) =>
          s.bind fun s => frameStep M self pcm s frame) (some st0) = some st ∧
      st.fft_real.length = kFftSize ∧ st.fft_imag.length = kFftSize ∧
      st.power_spectrum.length = kNumFftBins ∧
      st.mel_output.length = st0.mel_output.length ∧
      ∀ j : Nat,
        (j < c * 80 ∧ j < st0.mel_output.length →
          IsLogMel M.log
            (fun j k => Complex.exp (-2 * (Real.pi : ℂ) * Complex.I * (j : ℂ) * (k : ℂ)
              / ((2 ^ 9 : Nat) : ℂ)))
            self.hann_window_ self.mel_filterbank_ pcm (j / 80) (j % 80)
            (st.mel_output.getD j 0)) ∧
        (¬ (j < c * 80 ∧ j < st0.mel_output.length) →
          st.mel_output.getD j 0 = st0.mel_output.getD j 0) := by
  induction c with
  | zero =>
    refine ⟨st0, rfl, h1, h2, h3, rfl, fun j => ⟨fun hj => ?_, fun _ => rfl⟩⟩
    omega
  | succ c ih =>
    obtain ⟨st, e0, e1, e2, e3, e4, e5⟩ := ih (by omega)
    obtain ⟨st', g0, g1, g2, g3, g4, g5⟩ := frameStep_spec M hcos hsin hpi self pcm st c e1 e2 e3
      (by omega) (by rw [kNumMelBands_eq]; omega)
    rw [kNumMelBands_eq] at g5
    refine ⟨st', ?_, g1, g2, g3, by rw [g4, e4], fun j => ⟨fun hj => ?_, fun hj => ?_⟩⟩
    · rw [List.range_succ, List.foldl_append, e0, List.foldl_cons, List.foldl_nil,
        Option.some_bind]
      exact g0
    · by_cases hin : c * 80 ≤ j ∧ j < c * 80 + 80 ∧ j < st.mel_output.length
      · have := (g5 j).1 hin
        have q1 : j / 80 = c := by omega
        have q2 : j % 80 = j - c * 80 := by omega
        rw [q1, q2]
        exact this
      · rw [(g5 j).2 hin]
        exact (e5 j).1 ⟨by omega, hj.2⟩
    · have hin : ¬ (c * 80 ≤ j ∧ j < c * 80 + 80 ∧ j < st.mel_output.length) := by
        rintro ⟨a1, a2, a3⟩
        exact hj ⟨by omega, by omega⟩
      rw [(g5 j).2 hin]
      exact (e5 j).2 (by rintro ⟨a1, a2⟩; exact hj ⟨by omega, a2⟩)

theorem numFrames_some (size : Nat) (nf : Int) (h : numFrames size = some nf) :
    -2147483648 ≤ wrap32 (size : Int) - 400 ∧
    nf = Int.tdiv (wrap32 (size : Int) - 400) 160 + 1 := by
  unfold numFrames chk32 at h
  have hw : (kWindowSize : Int) = 400 := rfl
  have hh : (kHopSize : Int) = 160 := rfl
  rw [hw, hh] at h
  by_cases c1 : -2147483648 ≤ wrap32 (size : Int) - 400 ∧ wrap32 (size : Int) - 400 < 2147483648
  · rw [if_pos c1, Option.some_bind] at h
    by_cases c2 : -2147483648 ≤ Int.tdiv (wrap32 (size : Int) - 400) 160 + 1 ∧
        Int.tdiv (wrap32 (size : Int) - 400) 160 + 1 < 2147483648
    · rw [if_pos c2] at h
      exact ⟨c1.1, (Option.some.inj h).symm⟩
    · rw [if_neg c2] at h
      exact absurd h (by simp)
  · rw [if_neg c1] at h
    exact absurd h (by simp)

theorem wrap32_lt (x : Int) : wrap32 x < 2147483648 := by
  unfold wrap32; omega

/-- C++ `int` division by 160 truncates toward zero. -/
theorem tdiv_160 (d : Int) :
    Int.tdiv d 160 = if 0 ≤ d then d / 160 else -((-d) / 160) := by
  by_cases hd : 0 ≤ d
  · rw [if_pos hd, Int.tdiv_eq_ediv hd (by norm_num)]
  · rw [if_neg hd]
    have : d = -(-d) := by ring
    conv_lhs => rw [this]
    rw [Int.neg_tdiv, Int.tdiv_eq_ediv (by omega) (by norm_num)]

theorem numFrames_le (size : Nat) (nf : Int) (h : numFrames size = some nf) :
    nf ≤ 13421771 := by
  obtain ⟨h1, h2⟩ := numFrames_some size nf h
  have hw := wrap32_lt (size : Int)
  rw [h2, tdiv_160]
  split <;> omega

end ComputeSpec
end Deeplayer

namespace Deeplayer

section ComputeTop

/-- `compute` on an input of at least one window for which `num_frames` is a non-negative
`nf`: it returns `nf * 80` values, the value at `f * 80 + m` being the log-mel value of frame
`f` and band `m`. -/
theorem compute_spec (M : MathFns ℝ) (hcos : M.cos = Real.cos) (hsin : M.sin = Real.sin)
    (hpi : M.pi = Real.pi) (self : MelSpectrogram ℝ) (pcm : List ℝ) (nf : Int)
    (hL : kWindowSize ≤ pcm.length) (hnf : numFrames pcm.length = some nf) (h0 : 0 ≤ nf) :
    ∃ out : List ℝ,
      compute M self pcm = some out ∧ out.length = nf.toNat * 80 ∧
      ∀ f m : Nat, f < nf.toNat → m < 80 →
        IsLogMel M.log
          (fun j k => Complex.exp (-2 * (Real.pi : ℂ) * Complex.I * (j : ℂ) * (k : ℂ)
            / ((2 ^ 9 : Nat) : ℂ)))
          self.hann_window_ self.mel_filterbank_ pcm f m (out.getD (f * 80 + m) 0) := by
  have hle := numFrames_le _ _ hnf
  have hout : chk32 (nf * (kNumMelBands : Int)) = some ((nf.toNat * 80 : Nat) : Int) := by
    have e : nf * (kNumMelBands : Int) = ((nf.toNat * 80 : Nat) : Int) := by
      have : (kNumMelBands : Int) = 80 := rfl
      rw [this]; push_cast; omega
    rw [e]
    exact chk32_of_range _ (by omega) (by omega)
  obtain ⟨st, e0, _, _, _, e4, e5⟩ := framesFold_spec M hcos hsin hpi self pcm
    { fft_real := List.replicate kFftSize 0, fft_imag := List.replicate kFftSize 0,
      power_spectrum := List.replicate kNumFftBins 0,
      mel_output := List.replicate (nf.toNat * 80) 0 }
    (List.length_replicate _ _) (List.length_replicate _ _) (List.length_replicate _ _)
    nf.toNat (by omega)
  have hlen : st.mel_output.length = nf.toNat * 80 := by
    rw [e4]; exact List.length_replicate _ _
  refine ⟨st.mel_output, ?_, hlen, fun f m hf hm => ?_⟩
  · unfold compute
    rw [if_neg (by omega), hnf, Option.some_bind, hout, Option.some_bind,
      if_neg (by omega)]
    simp only [Int.toNat_ofNat]
    rw [e0, Option.map_some']
  · have hj : f * 80 + m < nf.toNat * 80 := by
      have : (f + 1) * 80 ≤ nf.toNat * 80 := Nat.mul_le_mul_right _ hf
      omega
    have := (e5 (f * 80 + m)).1 ⟨hj, by
      show f * 80 + m < (List.replicate (nf.toNat * 80) (0 : ℝ)).length
      rw [List.length_replicate]; exact hj⟩
    have q1 : (f * 80 + m) / 80 = f := by omega
    have q2 : (f * 80 + m) % 80 = m := by omega
    rw [q1, q2] at this
    exact this

theorem compute_short (M : MathFns ℝ) (self : MelSpectrogram ℝ) (pcm : List ℝ)
    (hL : pcm.length < kWindowSize) : compute M self pcm = some [] := by
  unfold compute
  rw [if_pos hL]

/-- For lengths below `2^31` the conversion to `int` is exact and `num_frames` is
`(L - 400) / 160 + 1`. -/
theorem numFrames_of_lt (size : Nat) (h1 : 400 ≤ size) (h2 : size < 2147483648) :
    numFrames size = some ((((size - 400) / 160 + 1 : Nat)) : Int) := by
  unfold numFrames
  rw [wrap32_of_lt _ h2]
  have hw : (kWindowSize : Int) = 400 := rfl
  have hh : (kHopSize : Int) = 160 := rfl
  rw [hw, hh, chk32_of_range _ (by omega) (by omega), Option.some_bind, tdiv_160,
    if_pos (by omega)]
  have e : ((size : Int) - 400) / 160 + 1 = ((((size - 400) / 160 + 1 : Nat)) : Int) := by
    omega
  rw [e]
  exact chk32_of_range _ (by omega) (by omega)

end ComputeTop
end Deeplayer

namespace Deeplayer

section ComputeClaims

theorem init_hann_window_getD (M : MathFns ℝ) (i : Nat) (hi : i < 400) :
    (init_hann_window M).getD i 0 = 0.5 * (1 - M.cos (2 * M.pi * (i : ℝ) / 400)) := by
  have hlen : i < (init_hann_window M).length := by
    simp [init_hann_window, kWindowSize, hi]
  rw [List.getD_eq_getElem _ _ hlen]
  simp only [init_hann_window, List.getElem_map, List.getElem_range, kWindowSize]
  norm_num

theorem log_mel_of_numFrames (pcm : List ℝ) (f m : Nat) (nf : Int)
    (hL : 400 ≤ pcm.length)
    (hnf : numFrames pcm.length = some nf) (hf : (f : Int) < nf) (hm : m < 80) :
    ∃ out : List ℝ,
      compute (MathFns.mk Real.cos Real.sin Real.log (Real.logb 10) (fun a b => a ^ b) Real.pi)
        (MelSpectrogram.new
          (MathFns.mk Real.cos Real.sin Real.log (Real.logb 10) (fun a b => a ^ b) Real.pi))
        pcm = some out ∧
      f * 80 + m < out.length ∧
      out.getD (f * 80 + m) 0 =
        Real.log (max
          (∑ k in Finset.range 257,
            ((init_mel_filterbank
              (MathFns.mk Real.cos Real.sin Real.log (Real.logb 10) (fun a b => a ^ b)
                Real.pi)).getD m []).getD k 0 *
            Complex.normSq (∑ j in Finset.range 512,
              (((if j < 400 then
                  pcm.getD (160 * f + j) 0 * (0.5 * (1 - Real.cos (2 * Real.pi * (j : ℝ) / 400)))
                else 0 : ℝ)) : ℂ) *
              Complex.exp (-2 * (Real.pi : ℂ) * Complex.I * (j : ℂ) * (k : ℂ) / 512)))
          1e-10) := by
  have h0 : 0 ≤ nf := by omega
  obtain ⟨out, h1, h2, h3⟩ := compute_spec
    (MathFns.mk Real.cos Real.sin Real.log (Real.logb 10) (fun a b => a ^ b) Real.pi)
    rfl rfl rfl
    (MelSpectrogram.new
      (MathFns.mk Real.cos Real.sin Real.log (Real.logb 10) (fun a b => a ^ b) Real.pi))
    pcm nf hL hnf h0
  refine ⟨out, h1, ?_, ?_⟩
  · rw [h2]
    have hfn : f < nf.toNat := by omega
    omega
  have hv := h3 f m (by omega) hm
  unfold IsLogMel at hv
  rw [hv]
  refine congrArg (fun t : ℝ => Real.log (max t 1e-10)) ?_
  refine Finset.sum_congr rfl (fun k _ => ?_)
  refine congrArg (fun t : ℂ => _ * Complex.normSq t) ?_
  refine Finset.sum_congr rfl (fun j _ => ?_)
  have e512 : (((2 ^ 9 : Nat)) : ℂ) = 512 := by norm_num
  rw [e512]
  refine congrArg (fun t : ℝ => ((t : ℝ) : ℂ) * _) ?_
  by_cases hj : j < 400
  · rw [if_pos hj, if_pos hj, mul_comm f 160]
    refine congrArg (fun t : ℝ => pcm.getD (160 * f + j) 0 * t) ?_
    exact init_hann_window_getD _ j hj
  · rw [if_neg hj, if_neg hj]


theorem getD_replicate_zero (N j : Nat) : (List.replicate N (0 : ℝ)).getD j 0 = 0 := by
  rw [List.getD_eq_getElem?_getD, List.getElem?_replicate]
  split <;> rfl

theorem compute_at_wrapped_length :
    ∃ out : List ℝ,
      compute (MathFns.mk Real.cos Real.sin Real.log (Real.logb 10) (fun a b => a ^ b) Real.pi)
        (MelSpectrogram.new
          (MathFns.mk Real.cos Real.sin Real.log (Real.logb 10) (fun a b => a ^ b) Real.pi))
        (List.replicate (2 ^ 32 + 400) (0 : ℝ)) = some out ∧
      out.length = 80 := by
  have hnf : numFrames (List.replicate (2 ^ 32 + 400) (0 : ℝ)).length = some 1 := by
    rw [List.length_replicate]
    unfold numFrames wrap32
    have hw : (kWindowSize : Int) = 400 := rfl
    have hh : (kHopSize : Int) = 160 := rfl
    rw [hw, hh]
    norm_num [chk32]
  obtain ⟨out, h1, h2, _⟩ := compute_spec
    (MathFns.mk Real.cos Real.sin Real.log (Real.logb 10) (fun a b => a ^ b) Real.pi)
    rfl rfl rfl
    (MelSpectrogram.new
      (MathFns.mk Real.cos Real.sin Real.log (Real.logb 10) (fun a b => a ^ b) Real.pi))
    (List.replicate (2 ^ 32 + 400) (0 : ℝ)) 1
    (by rw [List.length_replicate]; norm_num [kWindowSize]) hnf (by norm_num)
  exact ⟨out, h1, by rw [h2]; norm_num⟩

/-- C2 fails as stated: for the input of length `L = 2^32 + 400` (here all zero), frame index
`f = 1` is below `floor((L - 400) / 160) + 1` and band `m = 0` is below 80, but the conversion
`static_cast<int>(pcm.size())` yields 400, `compute` returns one frame of 80 values, and the
result has no position `1 * 80 + 0`: nothing is written there, so it does not hold
`ln(max(E, 1e-10))`. -/
theorem compute_log_mel_wraps :
    400 ≤ (List.replicate (2 ^ 32 + 400) (0 : ℝ)).length ∧
    1 < ((List.replicate (2 ^ 32 + 400) (0 : ℝ)).length - 400) / 160 + 1 ∧
    ∃ out : List ℝ,
      compute (MathFns.mk Real.cos Real.sin Real.log (Real.logb 10) (fun a b => a ^ b) Real.pi)
        (MelSpectrogram.new
          (MathFns.mk Real.cos Real.sin Real.log (Real.logb 10) (fun a b => a ^ b) Real.pi))
        (List.replicate (2 ^ 32 + 400) (0 : ℝ)) = some out ∧
      out.length = 80 ∧
      out[1 * 80 + 0]? = none ∧
      out[1 * 80 + 0]? ≠ some (
          Real.log (max
            (∑ k in Finset.range 257,
              ((init_mel_filterbank
                (MathFns.mk Real.cos Real.sin Real.log (Real.logb 10) (fun a b => a ^ b)
                  Real.pi)).getD 0 []).getD k 0 *
              Complex.normSq (∑ j in Finset.range 512,
                (((if j < 400 then
                    (List.replicate (2 ^ 32 + 400) (0 : ℝ)).getD (160 * 1 + j) 0 *
                      (0.5 * (1 - Real.cos (2 * Real.pi * (j : ℝ) / 400)))
                  else 0 : ℝ)) : ℂ) *
                Complex.exp (-2 * (Real.pi : ℂ) * Complex.I * (j : ℂ) * (k : ℂ) / 512)))
            1e-10)) := by
  refine ⟨by rw [List.length_replicate]; norm_num,
    by rw [List.length_replicate]; norm_num, ?_⟩
  obtain ⟨out, h1, h2⟩ := compute_at_wrapped_length
  have hn : out[1 * 80 + 0]? = none := by
    rw [List.getElem?_eq_none_iff, h2]
  refine ⟨out, h1, h2, hn, ?_⟩
  rw [hn]
  exact fun h => Option.noConfusion h

/-- C2 (amended): for every PCM input of length `L` with `400 ≤ L < 2^31`, every frame index
`f < floor((L - 400) / 160) + 1` and every band `m < 80`, `compute` returns a sequence that
has position `f * 80 + m` and holds there the value `ln(max(E, 1e-10))`, where
`E = Σ_{k<257} filterbank[m][k] * |X k|^2` (`|X k|^2 = re[k]^2 + im[k]^2`) and `X` is the
512-point discrete Fourier transform of the frame
`x[i] = pcm[160 f + i] * 0.5 * (1 - cos(2π i / 400))` for `i < 400`, zero for `400 ≤ i < 512`
(arithmetic over the reals). -/
theorem compute_log_mel (pcm : List ℝ) (f m : Nat) (hL : 400 ≤ pcm.length)
    (hL2 : pcm.length < 2147483648) (hf : f < (pcm.length - 400) / 160 + 1) (hm : m < 80) :
    ∃ out : List ℝ,
      compute (MathFns.mk Real.cos Real.sin Real.log (Real.logb 10) (fun a b => a ^ b) Real.pi)
        (MelSpectrogram.new
          (MathFns.mk Real.cos Real.sin Real.log (Real.logb 10) (fun a b => a ^ b) Real.pi))
        pcm = some out ∧
      f * 80 + m < out.length ∧
      out.getD (f * 80 + m) 0 =
        Real.log (max
          (∑ k in Finset.range 257,
            ((init_mel_filterbank
              (MathFns.mk Real.cos Real.sin Real.log (Real.logb 10) (fun a b => a ^ b)
                Real.pi)).getD m []).getD k 0 *
            Complex.normSq (∑ j in Finset.range 512,
              (((if j < 400 then
                  pcm.getD (160 * f + j) 0 *
                    (0.5 * (1 - Real.cos (2 * Real.pi * (j : ℝ) / 400)))
                else 0 : ℝ)) : ℂ) *
              Complex.exp (-2 * (Real.pi : ℂ) * Complex.I * (j : ℂ) * (k : ℂ) / 512)))
          1e-10) :=
  log_mel_of_numFrames pcm f m _ hL (numFrames_of_lt pcm.length hL hL2)
    (by exact_mod_cast hf) hm

/-- Instance of the amended C2 at the non-zero input of 560 samples all equal to 1
(two frames), frame 1, band 3. -/
theorem compute_log_mel_witness :
    ∃ out : List ℝ,
      compute (MathFns.mk Real.cos Real.sin Real.log (Real.logb 10) (fun a b => a ^ b) Real.pi)
        (MelSpectrogram.new
          (MathFns.mk Real.cos Real.sin Real.log (Real.logb 10) (fun a b => a ^ b) Real.pi))
        (List.replicate 560 (1 : ℝ)) = some out ∧
      1 * 80 + 3 < out.length ∧
      out.getD (1 * 80 + 3) 0 =
        Real.log (max
          (∑ k in Finset.range 257,
            ((init_mel_filterbank
              (MathFns.mk Real.cos Real.sin Real.log (Real.logb 10) (fun a b => a ^ b)
                Real.pi)).getD 3 []).getD k 0 *
            Complex.normSq (∑ j in Finset.range 512,
              (((if j < 400 then
                  (List.replicate 560 (1 : ℝ)).getD (160 * 1 + j) 0 *
                    (0.5 * (1 - Real.cos (2 * Real.pi * (j : ℝ) / 400)))
                else 0 : ℝ)) : ℂ) *
              Complex.exp (-2 * (Real.pi : ℂ) * Complex.I * (j : ℂ) * (k : ℂ) / 512)))
          1e-10) :=
  compute_log_mel (List.replicate 560 (1 : ℝ)) 1 3
    (by rw [List.length_replicate]; norm_num)
    (by rw [List.length_replicate]; norm_num)
    (by rw [List.length_replicate]; norm_num)
    (by norm_num)

/-- C3 fails as stated: for an input of length `2^32 + 400` the conversion
`static_cast<int>(pcm.size())` yields 400, so `compute` returns one frame, 80 values, and not
`(floor((L - 400) / 160) + 1) * 80`. -/
theorem compute_length_wraps :
    ∃ out : List ℝ,
      compute (MathFns.mk Real.cos Real.sin Real.log (Real.logb 10) (fun a b => a ^ b) Real.pi)
        (MelSpectrogram.new
          (MathFns.mk Real.cos Real.sin Real.log (Real.logb 10) (fun a b => a ^ b) Real.pi))
        (List.replicate (2 ^ 32 + 400) (0 : ℝ)) = some out ∧
      out.length = 80 ∧
      out.length ≠ ((2 ^ 32 + 400 - 400) / 160 + 1) * 80 := by
  have hnf : numFrames (List.replicate (2 ^ 32 + 400) (0 : ℝ)).length = some 1 := by
    rw [List.length_replicate]
    unfold numFrames wrap32
    have hw : (kWindowSize : Int) = 400 := rfl
    have hh : (kHopSize : Int) = 160 := rfl
    rw [hw, hh]
    norm_num [chk32]
  obtain ⟨out, h1, h2, _⟩ := compute_spec
    (MathFns.mk Real.cos Real.sin Real.log (Real.logb 10) (fun a b => a ^ b) Real.pi)
    rfl rfl rfl
    (MelSpectrogram.new
      (MathFns.mk Real.cos Real.sin Real.log (Real.logb 10) (fun a b => a ^ b) Real.pi))
    (List.replicate (2 ^ 32 + 400) (0 : ℝ)) 1
    (by rw [List.length_replicate]; norm_num [kWindowSize]) hnf (by norm_num)
  have h80 : out.length = 80 := by rw [h2]; norm_num
  refine ⟨out, h1, h80, ?_⟩
  rw [h80]
  norm_num

/-- C3 (amended): for every PCM input of length `L < 2^31`, `compute` returns without error
a sequence of length `numFrames * 80`, where `numFrames = floor((L - 400) / 160) + 1` when
`L ≥ 400` and `numFrames = 0` (an empty result) when `L < 400`. -/
theorem compute_length (pcm : List ℝ) (hL : pcm.length < 2147483648) :
    ∃ out : List ℝ,
      compute (MathFns.mk Real.cos Real.sin Real.log (Real.logb 10) (fun a b => a ^ b) Real.pi)
        (MelSpectrogram.new
          (MathFns.mk Real.cos Real.sin Real.log (Real.logb 10) (fun a b => a ^ b) Real.pi))
        pcm = some out ∧
      out.length = (if 400 ≤ pcm.length then (pcm.length - 400) / 160 + 1 else 0) * 80 ∧
      (pcm.length < 400 → out = []) := by
  by_cases h4 : 400 ≤ pcm.length
  · obtain ⟨out, h1, h2, _⟩ := compute_spec
      (MathFns.mk Real.cos Real.sin Real.log (Real.logb 10) (fun a b => a ^ b) Real.pi)
      rfl rfl rfl
      (MelSpectrogram.new
        (MathFns.mk Real.cos Real.sin Real.log (Real.logb 10) (fun a b => a ^ b) Real.pi))
      pcm _ h4 (numFrames_of_lt pcm.length h4 hL) (by omega)
    refine ⟨out, h1, ?_, fun h => absurd h (by omega)⟩
    rw [h2, if_pos h4, Int.toNat_ofNat]
  · refine ⟨[], compute_short _ _ pcm (by show pcm.length < 400; omega), ?_, fun _ => rfl⟩
    rw [if_neg h4]
    rfl

/-- Instance of the amended C3 at the spec's example `L = 32000`: 198 frames, 15840 values. -/
theorem compute_length_witness :
    ∃ out : List ℝ,
      compute (MathFns.mk Real.cos Real.sin Real.log (Real.logb 10) (fun a b => a ^ b) Real.pi)
        (MelSpectrogram.new
          (MathFns.mk Real.cos Real.sin Real.log (Real.logb 10) (fun a b => a ^ b) Real.pi))
        (List.replicate 32000 (0 : ℝ)) = some out ∧
      out.length = 198 * 80 ∧ out.length = 15840 := by
  obtain ⟨out, h1, h2, _⟩ := compute_length (List.replicate 32000 (0 : ℝ))
    (by rw [List.length_replicate]; norm_num)
  rw [List.length_replicate] at h2
  have h3 : out.length = 198 * 80 := by rw [h2]; norm_num
  exact ⟨out, h1, h3, by rw [h3]⟩

theorem zero_frame_of_numFrames (pcm : List ℝ) (f : Nat) (nf : Int)
    (hL : 400 ≤ pcm.length)
    (hnf : numFrames pcm.length = some nf) (hf : (f : Int) < nf)
    (hz : ∀ i : Nat, i < 400 → pcm.getD (160 * f + i) 0 = 0) :
    ∃ out : List ℝ,
      compute (MathFns.mk Real.cos Real.sin Real.log (Real.logb 10) (fun a b => a ^ b) Real.pi)
        (MelSpectrogram.new
          (MathFns.mk Real.cos Real.sin Real.log (Real.logb 10) (fun a b => a ^ b) Real.pi))
        pcm = some out ∧
      (∀ m : Nat, m < 80 →
        f * 80 + m < out.length ∧ out.getD (f * 80 + m) 0 = Real.log 1e-10) ∧
      (0 : ℝ) < 1e-10 := by
  obtain ⟨out, h1, h2, h3⟩ := compute_spec
    (MathFns.mk Real.cos Real.sin Real.log (Real.logb 10) (fun a b => a ^ b) Real.pi)
    rfl rfl rfl
    (MelSpectrogram.new
      (MathFns.mk Real.cos Real.sin Real.log (Real.logb 10) (fun a b => a ^ b) Real.pi))
    pcm nf hL hnf (by omega)
  refine ⟨out, h1, fun m hm => ⟨?_, ?_⟩, by norm_num⟩
  · rw [h2]
    have hfn : f < nf.toNat := by omega
    omega
  have hv := h3 f m (by omega) hm
  unfold IsLogMel at hv
  rw [hv]
  have hE : ∑ k in Finset.range 257,
      ((MelSpectrogram.new
          (MathFns.mk Real.cos Real.sin Real.log (Real.logb 10) (fun a b => a ^ b)
            Real.pi)).mel_filterbank_.getD m []).getD k 0 *
        Complex.normSq (∑ j in Finset.range 512,
          (((if j < 400 then
              pcm.getD (f * 160 + j) 0 *
                (MelSpectrogram.new
                  (MathFns.mk Real.cos Real.sin Real.log (Real.logb 10) (fun a b => a ^ b)
                    Real.pi)).hann_window_.getD j 0
            else 0 : ℝ)) : ℂ) *
          Complex.exp (-2 * (Real.pi : ℂ) * Complex.I * (j : ℂ) * (k : ℂ)
            / ((2 ^ 9 : Nat) : ℂ))) = 0 := by
    apply Finset.sum_eq_zero
    intro k _
    have hX : ∑ j in Finset.range 512,
          (((if j < 400 then
              pcm.getD (f * 160 + j) 0 *
                (MelSpectrogram.new
                  (MathFns.mk Real.cos Real.sin Real.log (Real.logb 10) (fun a b => a ^ b)
                    Real.pi)).hann_window_.getD j 0
            else 0 : ℝ)) : ℂ) *
          Complex.exp (-2 * (Real.pi : ℂ) * Complex.I * (j : ℂ) * (k : ℂ)
            / ((2 ^ 9 : Nat) : ℂ)) = 0 := by
      apply Finset.sum_eq_zero
      intro j _
      by_cases hj : j < 400
      · rw [if_pos hj, mul_comm f 160, hz j hj]
        simp
      · rw [if_neg hj]
        simp
    rw [hX]
    simp
  show Real.log (max _ _) = Real.log 1e-10
  rw [hE, max_eq_right (by norm_num)]


/-- C4 fails as stated: for the all-zero input of length `L = 2^32 + 400`, frame index `f = 1`
is below `floor((L - 400) / 160) + 1` and its 400 samples are all zero, but the conversion
`static_cast<int>(pcm.size())` yields 400, `compute` returns one frame of 80 values, and none
of the positions `1 * 80 .. 1 * 80 + 79` exists in the result: no output value of that frame
equals `ln(1e-10)`. -/
theorem compute_zero_frame_wraps :
    1 < (if 400 ≤ (List.replicate (2 ^ 32 + 400) (0 : ℝ)).length
      then ((List.replicate (2 ^ 32 + 400) (0 : ℝ)).length - 400) / 160 + 1 else 0) ∧
    (∀ i : Nat, i < 400 →
      (List.replicate (2 ^ 32 + 400) (0 : ℝ)).getD (160 * 1 + i) 0 = 0) ∧
    ∃ out : List ℝ,
      compute (MathFns.mk Real.cos Real.sin Real.log (Real.logb 10) (fun a b => a ^ b) Real.pi)
        (MelSpectrogram.new
          (MathFns.mk Real.cos Real.sin Real.log (Real.logb 10) (fun a b => a ^ b) Real.pi))
        (List.replicate (2 ^ 32 + 400) (0 : ℝ)) = some out ∧
      out.length = 80 ∧
      ∀ m : Nat, m < 80 →
        out[1 * 80 + m]? = none ∧ out[1 * 80 + m]? ≠ some (Real.log 1e-10) := by
  refine ⟨by rw [List.length_replicate]; norm_num,
    fun i _ => getD_replicate_zero _ _, ?_⟩
  obtain ⟨out, h1, h2⟩ := compute_at_wrapped_length
  refine ⟨out, h1, h2, fun m _ => ?_⟩
  have hn : out[1 * 80 + m]? = none := by
    rw [List.getElem?_eq_none_iff, h2]
    omega
  refine ⟨hn, ?_⟩
  rw [hn]
  exact fun h => Option.noConfusion h

/-- C4 (amended): for every PCM input of length `L < 2^31` and every frame index
`f < numFrames` (`numFrames = floor((L - 400) / 160) + 1` when `L ≥ 400`, else 0) whose 400
samples `pcm[160 f .. 160 f + 400)` are all zero, `compute` returns a sequence in which each
of the 80 positions `f * 80 .. f * 80 + 79` exists and holds `ln(1e-10)`, the logarithm of a
positive number. -/
theorem compute_zero_frame (pcm : List ℝ) (f : Nat) (hL : pcm.length < 2147483648)
    (hf : f < (if 400 ≤ pcm.length then (pcm.length - 400) / 160 + 1 else 0))
    (hz : ∀ i : Nat, i < 400 → pcm.getD (160 * f + i) 0 = 0) :
    ∃ out : List ℝ,
      compute (MathFns.mk Real.cos Real.sin Real.log (Real.logb 10) (fun a b => a ^ b) Real.pi)
        (MelSpectrogram.new
          (MathFns.mk Real.cos Real.sin Real.log (Real.logb 10) (fun a b => a ^ b) Real.pi))
        pcm = some out ∧
      (∀ m : Nat, m < 80 →
        f * 80 + m < out.length ∧ out.getD (f * 80 + m) 0 = Real.log 1e-10) ∧
      (0 : ℝ) < 1e-10 := by
  by_cases h4 : 400 ≤ pcm.length
  · rw [if_pos h4] at hf
    exact zero_frame_of_numFrames pcm f _ h4 (numFrames_of_lt pcm.length h4 hL)
      (by exact_mod_cast hf) hz
  · rw [if_neg h4] at hf
    exact absurd hf (Nat.not_lt_zero f)

/-- Instance of the amended C4 at the input of 400 zeros followed by 160 ones (two frames),
frame 0, whose window is all zero while frame 1 is not. -/
theorem compute_zero_frame_witness :
    ∃ out : List ℝ,
      compute (MathFns.mk Real.cos Real.sin Real.log (Real.logb 10) (fun a b => a ^ b) Real.pi)
        (MelSpectrogram.new
          (MathFns.mk Real.cos Real.sin Real.log (Real.logb 10) (fun a b => a ^ b) Real.pi))
        (List.replicate 400 (0 : ℝ) ++ List.replicate 160 (1 : ℝ)) = some out ∧
      (∀ m : Nat, m < 80 →
        0 * 80 + m < out.length ∧ out.getD (0 * 80 + m) 0 = Real.log 1e-10) ∧
      (0 : ℝ) < 1e-10 :=
  compute_zero_frame (List.replicate 400 (0 : ℝ) ++ List.replicate 160 (1 : ℝ)) 0
    (by rw [List.length_append, List.length_replicate, List.length_replicate]; norm_num)
    (by rw [List.length_append, List.length_replicate, List.length_replicate]; norm_num)
    (fun i hi => by
      rw [List.getD_eq_getElem?_getD,
        List.getElem?_append_left (by rw [List.length_replicate]; omega),
        List.getElem?_replicate]
      split <;> rfl)

end ComputeClaims
end Deeplayer

namespace Deeplayer

section BitReversalClaim

/-- Bit `k` of `bitRev b i` is bit `b - 1 - k` of `i`: `bitRev b` reverses the `b`-bit binary
representation. -/
theorem bitRev_testBit (b i k : Nat) :
    (bitRev b i).testBit k = (decide (k < b) && i.testBit (b - 1 - k)) := by
  induction b generalizing i k with
  | zero => simp [bitRev]
  | succ b ih =>
    rw [bitRev_succ, Nat.testBit_mul_pow_two_add _ (bitRev_lt b (i / 2))]
    by_cases h1 : k < b
    · rw [if_pos h1, ih, Nat.testBit_div_two]
      have e1 : b - 1 - k + 1 = b + 1 - 1 - k := by omega
      have e2 : k < b + 1 := by omega
      simp [h1, e1, e2]
    · rw [if_neg h1]
      by_cases h2 : k = b
      · subst h2
        have e : k + 1 - 1 - k = 0 := by omega
        simp [e, Nat.testBit_zero]
      · have h3 : ¬ k < b + 1 := by omega
        have h4 : i % 2 < 2 ^ (k - b) := by
          have : 2 ^ 1 ≤ 2 ^ (k - b) := Nat.pow_le_pow_right (by norm_num) (by omega)
          have : i % 2 < 2 := Nat.mod_lt _ (by norm_num)
          omega
        simp [h3, Nat.testBit_lt_two_pow h4]

theorem list_eq_of_getD (l1 l2 : List ℝ) (hlen : l1.length = l2.length)
    (h : ∀ p : Nat, p < l1.length → l1.getD p 0 = l2.getD p 0) : l1 = l2 := by
  apply List.ext_getElem hlen
  intro n h1 h2
  have := h n h1
  rw [List.getD_eq_getElem _ _ h1, List.getD_eq_getElem _ _ h2] at this
  exact this

theorem bitRev_one (b : Nat) : bitRev (b + 1) 1 = 2 ^ b := by
  have h0 : ∀ c : Nat, bitRev c 0 = 0 := by
    intro c
    induction c with
    | zero => rfl
    | succ c ih => rw [bitRev_succ]; simp [ih]
  rw [bitRev_succ]
  simp [h0]

/-- C12 fails as stated: for buffers of length `2^31`, a power of two, the loop bound
`n = static_cast<int>(real.size())` is negative, the bit-reversal loop does not run, and the
element at index 1 is not moved to index `bitRev 31 1 = 2^30`. -/
theorem bitReversal_idle_at_two_pow_31 :
    bitReversal (wrap32 ((((List.replicate (2 ^ 31) (0 : ℝ)).set 1 5).length : Nat) : Int))
        ((List.replicate (2 ^ 31) (0 : ℝ)).set 1 5) (List.replicate (2 ^ 31) (0 : ℝ))
      = ((List.replicate (2 ^ 31) (0 : ℝ)).set 1 5, List.replicate (2 ^ 31) (0 : ℝ)) ∧
    bitRev 31 1 = 2 ^ 30 ∧
    ((List.replicate (2 ^ 31) (0 : ℝ)).set 1 5).getD 1 0 = 5 ∧
    (bitReversal (wrap32 ((((List.replicate (2 ^ 31) (0 : ℝ)).set 1 5).length : Nat) : Int))
        ((List.replicate (2 ^ 31) (0 : ℝ)).set 1 5) (List.replicate (2 ^ 31) (0 : ℝ))).1.getD
      (bitRev 31 1) 0 ≠ ((List.replicate (2 ^ 31) (0 : ℝ)).set 1 5).getD 1 0 := by
  have hidle : bitReversal
      (wrap32 ((((List.replicate (2 ^ 31) (0 : ℝ)).set 1 5).length : Nat) : Int))
        ((List.replicate (2 ^ 31) (0 : ℝ)).set 1 5) (List.replicate (2 ^ 31) (0 : ℝ))
      = ((List.replicate (2 ^ 31) (0 : ℝ)).set 1 5, List.replicate (2 ^ 31) (0 : ℝ)) := by
    apply bitReversal_of_small
    rw [List.length_set, List.length_replicate]
    unfold wrap32
    norm_num
  have h1 : ((List.replicate (2 ^ 31) (0 : ℝ)).set 1 5).getD 1 0 = 5 := by
    rw [getD_set_eq, List.length_replicate, if_pos ⟨rfl, by norm_num⟩]
  have h2 : ((List.replicate (2 ^ 31) (0 : ℝ)).set 1 5).getD (2 ^ 30) 0 = 0 := by
    rw [getD_set_eq, if_neg (by rintro ⟨h, _⟩; norm_num at h),
      getD_replicate_of_lt _ _ _ _ (by norm_num)]
  refine ⟨hidle, bitRev_one 30, h1, ?_⟩
  rw [hidle, bitRev_one 30, h1]
  show ((List.replicate (2 ^ 31) (0 : ℝ)).set 1 5).getD (2 ^ 30) 0 ≠ 5
  rw [h2]
  norm_num

/-- C12 (amended): for every `n = 2^b` with `b ≤ 30` and every pair of length-`n` buffers, the
first loop of `fft` (the bit-reversal stage, run with `n = static_cast<int>(real.size())`)
moves the element at each index `i` to the index `bitRev b i` obtained by reversing the
`b`-bit binary representation of `i`, identically in the real and the imaginary buffer; the
stage is a permutation and applying it twice restores the input. -/
theorem bitReversal_permutes (b : Nat) (re im : List ℝ) (hb : b ≤ 30)
    (hre : re.length = 2 ^ b) (him : im.length = 2 ^ b) :
    (bitReversal (wrap32 (re.length : Int)) re im).1.length = 2 ^ b ∧
    (bitReversal (wrap32 (re.length : Int)) re im).2.length = 2 ^ b ∧
    (∀ i : Nat, i < 2 ^ b →
      bitRev b i < 2 ^ b ∧ bitRev b (bitRev b i) = i ∧
      (∀ k : Nat, (bitRev b i).testBit k = (decide (k < b) && i.testBit (b - 1 - k))) ∧
      (bitReversal (wrap32 (re.length : Int)) re im).1.getD (bitRev b i) 0 = re.getD i 0 ∧
      (bitReversal (wrap32 (re.length : Int)) re im).2.getD (bitRev b i) 0 = im.getD i 0) ∧
    bitReversal (wrap32 (re.length : Int))
        (bitReversal (wrap32 (re.length : Int)) re im).1
        (bitReversal (wrap32 (re.length : Int)) re im).2 = (re, im) := by
  have hb30 : 2 ^ b ≤ 2 ^ 30 := Nat.pow_le_pow_right (by norm_num) hb
  rw [hre, wrap32_of_lt _ (by omega)]
  obtain ⟨q1, q2, q3⟩ := bitReversal_spec b re im hre him
  obtain ⟨t1, t2, t3⟩ := bitReversal_spec b _ _ q1 q2
  refine ⟨q1, q2, fun i hi => ⟨bitRev_lt b i, bitRev_bitRev b i hi, bitRev_testBit b i, ?_, ?_⟩, ?_⟩
  · rw [(q3 _ (bitRev_lt b i)).1, bitRev_bitRev b i hi]
  · rw [(q3 _ (bitRev_lt b i)).2, bitRev_bitRev b i hi]
  · apply Prod.ext
    · apply list_eq_of_getD _ _ (by rw [t1, hre])
      intro p hp
      rw [t1] at hp
      rw [(t3 p hp).1, (q3 _ (bitRev_lt b p)).1, bitRev_bitRev b p hp]
    · apply list_eq_of_getD _ _ (by rw [t2, him])
      intro p hp
      rw [t2] at hp
      rw [(t3 p hp).2, (q3 _ (bitRev_lt b p)).2, bitRev_bitRev b p hp]

/-- Instance of the amended C12 at `n = 4`, `re = [10, 11, 12, 13]`, `im = [20, 21, 22, 23]`. -/
theorem bitReversal_permutes_witness :
    (bitReversal (wrap32 (([10, 11, 12, 13] : List ℝ).length : Int)) ([10, 11, 12, 13] : List ℝ)
        ([20, 21, 22, 23] : List ℝ)).1.getD (bitRev 2 1) 0
      = ([10, 11, 12, 13] : List ℝ).getD 1 0 ∧
    bitReversal (wrap32 (([10, 11, 12, 13] : List ℝ).length : Int))
        (bitReversal (wrap32 (([10, 11, 12, 13] : List ℝ).length : Int))
          ([10, 11, 12, 13] : List ℝ) ([20, 21, 22, 23] : List ℝ)).1
        (bitReversal (wrap32 (([10, 11, 12, 13] : List ℝ).length : Int))
          ([10, 11, 12, 13] : List ℝ) ([20, 21, 22, 23] : List ℝ)).2
      = (([10, 11, 12, 13] : List ℝ), ([20, 21, 22, 23] : List ℝ)) :=
  ⟨((bitReversal_permutes 2 ([10, 11, 12, 13] : List ℝ) ([20, 21, 22, 23] : List ℝ)
      (by norm_num) (by simp) (by simp)).2.2.1 1 (by norm_num)).2.2.2.1,
   (bitReversal_permutes 2 ([10, 11, 12, 13] : List ℝ) ([20, 21, 22, 23] : List ℝ)
      (by norm_num) (by simp) (by simp)).2.2.2⟩

end BitReversalClaim
end Deeplayer

namespace Deeplayer

section CheckedLoops

/-- A guarded loop whose steps keep an invariant that makes every access in range does what
the unguarded loop does. -/
theorem foldl_guarded_eq {σ : Type} (ok : σ → Nat → Bool) (f : σ → Nat → σ) (P : σ → Prop)
    (l : List Nat) (hstep : ∀ (s : σ) (i : Nat), i ∈ l → P s → ok s i = true ∧ P (f s i))
    (s0 : σ) (h0 : P s0) :
    l.foldl (guarded ok f) (some s0) = some (l.foldl f s0) ∧ P (l.foldl f s0) := by
  induction l generalizing s0 with
  | nil => exact ⟨rfl, h0⟩
  | cons a l ih =>
    obtain ⟨h1, h2⟩ := hstep s0 a (List.mem_cons_self _ _) h0
    rw [List.foldl_cons, List.foldl_cons]
    have e : guarded ok f (some s0) a = some (f s0 a) := by
      unfold guarded
      rw [Option.some_bind, if_pos h1]
    rw [e]
    exact ih (fun s i hi hs => hstep s i (List.mem_cons_of_mem _ hi) hs) (f s0 a) h2

theorem butterflyStep_length (w_real w_imag : ℝ) (i len : Nat) (st : Butterfly ℝ) (j : Nat) :
    (butterflyStep w_real w_imag i len st j).real.length = st.real.length ∧
    (butterflyStep w_real w_imag i len st j).imag.length = st.imag.length := by
  constructor <;> simp [butterflyStep]

theorem butterflyLoopChecked_eq (w_real w_imag : ℝ) (i len N : Nat) (re im : List ℝ)
    (hre : re.length = N) (him : im.length = N) (hN : i + 2 * (len / 2) ≤ N) :
    butterflyLoopChecked w_real w_imag i len re im
      = some (butterflyLoop w_real w_imag i len re im) := by
  unfold butterflyLoopChecked butterflyLoop
  obtain ⟨h1, _⟩ := foldl_guarded_eq (butterflyStepOk i len)
    (butterflyStep w_real w_imag i len)
    (fun st => st.real.length = N ∧ st.imag.length = N) (List.range (len / 2))
    (fun st j hj hP => by
      rw [List.mem_range] at hj
      obtain ⟨l1, l2⟩ := butterflyStep_length w_real w_imag i len st j
      refine ⟨?_, by rw [l1]; exact hP.1, by rw [l2]; exact hP.2⟩
      unfold butterflyStepOk
      rw [decide_eq_true_iff, hP.1, hP.2]
      omega)
    { cur_real := 1, cur_imag := 0, real := re, imag := im } ⟨hre, him⟩
  rw [h1, Option.map_some']

theorem blockLoopChecked_eq (w_real w_imag : ℝ) (h B : Nat) (hh : 1 ≤ h) (k : Nat) :
    ∀ (m : Nat), m + k = B → ∀ (re im : List ℝ), re.length = B * (2 * h) →
      im.length = B * (2 * h) → ∀ (fuel : Nat),
      blockLoopChecked w_real w_imag ((B * (2 * h) : Nat) : Int) (2 * h) fuel (m * (2 * h)) re im
        = blockLoop w_real w_imag ((B * (2 * h) : Nat) : Int) (2 * h) fuel (m * (2 * h)) re im := by
  induction k with
  | zero =>
    intro m hm re im _ _ fuel
    have hmB : m = B := by omega
    subst hmB
    cases fuel with
    | zero => rfl
    | succ f => rw [blockLoopChecked, blockLoop, if_neg (by simp), if_neg (by simp)]
  | succ k ih =>
    intro m hm re im hre him fuel
    cases fuel with
    | zero => rfl
    | succ f =>
      have hmB : m + 1 ≤ B := by omega
      have hblk : (m + 1) * (2 * h) ≤ B * (2 * h) := Nat.mul_le_mul_right _ hmB
      have hexp : (m + 1) * (2 * h) = m * (2 * h) + 2 * h := by ring
      have hlen : 2 * h / 2 = h := by omega
      obtain ⟨g1, g2, _⟩ := butterflyLoop_spec w_real w_imag m h (B * (2 * h)) re im hre him hh
        hblk
      have hlt : ((m * (2 * h) : Nat) : Int) < ((B * (2 * h) : Nat) : Int) := by
        exact_mod_cast (by omega : m * (2 * h) < B * (2 * h))
      rw [blockLoopChecked, blockLoop, if_pos hlt, if_pos hlt,
        butterflyLoopChecked_eq w_real w_imag (m * (2 * h)) (2 * h) (B * (2 * h)) re im hre him
          (by rw [hlen]; omega)]
      simp only []
      by_cases hov : m * (2 * h) + 2 * h < 2147483648
      · rw [if_pos hov, if_pos hov, ← hexp]
        exact ih (m + 1) (by omega) _ _ g1 g2 f
      · rw [if_neg hov, if_neg hov]


theorem blockLoopChecked_full (w_real w_imag : ℝ) (h B len N : Nat) (hh : 1 ≤ h)
    (hlen : len = 2 * h) (hN : N = B * len) (re im : List ℝ) (hre : re.length = N)
    (him : im.length = N) (fuel : Nat) :
    blockLoopChecked w_real w_imag (N : Int) len fuel 0 re im
      = blockLoop w_real w_imag (N : Int) len fuel 0 re im := by
  subst hlen
  subst hN
  have := blockLoopChecked_eq w_real w_imag h B hh B 0 (by omega) re im hre him fuel
  rw [Nat.zero_mul] at this
  exact this

theorem stageLoopChecked_eq (M : MathFns ℝ) (b : Nat) (hb : b ≤ 29) (t : Nat) :
    ∀ (s : Nat), s + t = b → ∀ (re im : List ℝ), re.length = 2 ^ b → im.length = 2 ^ b →
      ∀ (fuel : Nat),
      stageLoopChecked M ((2 ^ b : Nat) : Int) fuel (2 ^ (s + 1)) re im
        = stageLoop M ((2 ^ b : Nat) : Int) fuel (2 ^ (s + 1)) re im := by
  have hb32 : 2 ^ b ≤ 2 ^ 29 := Nat.pow_le_pow_right (by norm_num) hb
  induction t with
  | zero =>
    intro s hs re im _ _ fuel
    have hsb : s = b := by omega
    subst hsb
    have hgt : ¬ (((2 ^ (s + 1) : Nat) : Int) ≤ ((2 ^ s : Nat) : Int)) := by
      have : 2 ^ s < 2 ^ (s + 1) := Nat.pow_lt_pow_right (by norm_num) (by omega)
      exact_mod_cast (by omega : ¬ 2 ^ (s + 1) ≤ 2 ^ s)
    cases fuel with
    | zero => rfl
    | succ f => rw [stageLoopChecked, stageLoop, if_neg hgt, if_neg hgt]
  | succ t ih =>
    intro s hs re im hre him fuel
    cases fuel with
    | zero => rfl
    | succ f =>
      have hle : 2 ^ (s + 1) ≤ 2 ^ b := Nat.pow_le_pow_right (by norm_num) (by omega)
      have hN : 2 ^ b = 2 ^ t * 2 ^ (s + 1) := by
        rw [← pow_add]; congr 1; omega
      have hBle : 2 ^ t ≤ 2 ^ b := Nat.pow_le_pow_right (by norm_num) (by omega)
      obtain ⟨r1, g1, g2, g3, _⟩ := blockLoop_full
        (M.cos (2 * M.pi / ((2 ^ (s + 1) : Nat) : ℝ)))
        (-M.sin (2 * M.pi / ((2 ^ (s + 1) : Nat) : ℝ))) (2 ^ s) (2 ^ t) (2 ^ (s + 1)) (2 ^ b)
        (Nat.pow_pos (by norm_num)) (by rw [pow_succ]; ring) hN (by omega) re im hre him
        (2 ^ b + 1) (by omega)
      have hc := blockLoopChecked_full
        (M.cos (2 * M.pi / ((2 ^ (s + 1) : Nat) : ℝ)))
        (-M.sin (2 * M.pi / ((2 ^ (s + 1) : Nat) : ℝ))) (2 ^ s) (2 ^ t) (2 ^ (s + 1)) (2 ^ b)
        (Nat.pow_pos (by norm_num)) (by rw [pow_succ]; ring) hN re im hre him (2 ^ b + 1)
      have hpos : ((2 ^ (s + 1) : Nat) : Int) ≤ ((2 ^ b : Nat) : Int) := by exact_mod_cast hle
      rw [stageLoopChecked, stageLoop, if_pos hpos, if_pos hpos]
      simp only [Int.toNat_ofNat]
      rw [hc, g1]
      simp only []
      by_cases h2 : 2 * 2 ^ (s + 1) < 2147483648
      · rw [if_pos h2, if_pos h2]
        have e2 : 2 * 2 ^ (s + 1) = 2 ^ (s + 1 + 1) := by rw [pow_succ 2 (s + 1)]; ring
        rw [e2]
        exact ih (s + 1) (by omega) _ _ g2 g3 f
      · rw [if_neg h2, if_neg h2]

theorem bitReversalChecked_fold (b : Nat) (real imag : List ℝ) (hre : real.length = 2 ^ b)
    (him : imag.length = 2 ^ b) (c : Nat) (hc : c + 1 ≤ 2 ^ b) :
    (List.range' 1 c).foldl
        (guarded (bitReversalStepOk (2 ^ b)) (bitReversalStep (2 ^ b))) (some (0, real, imag))
      = some ((List.range' 1 c).foldl (bitReversalStep (2 ^ b)) (0, real, imag)) := by
  induction c with
  | zero => rfl
  | succ c ih =>
    obtain ⟨h1, h2, h3⟩ := bitReversal_fold b real imag hre him c (by omega)
    rw [List.range'_concat, List.foldl_append, List.foldl_append, ih (by omega)]
    rw [List.foldl_cons, List.foldl_nil, List.foldl_cons, List.foldl_nil]
    unfold guarded
    rw [Option.some_bind, if_pos]
    unfold bitReversalStepOk
    simp only []
    rw [decide_eq_true_iff, h1, nextRev_bitRev b c (by omega), h2.1, h3.1, hre, him]
    intro _
    have := bitRev_lt b (c + 1)
    omega

theorem bitReversalChecked_eq (b : Nat) (real imag : List ℝ) (hre : real.length = 2 ^ b)
    (him : imag.length = 2 ^ b) :
    bitReversalChecked ((2 ^ b : Nat) : Int) real imag
      = some (bitReversal ((2 ^ b : Nat) : Int) real imag) := by
  have hpos : 0 < 2 ^ b := Nat.pow_pos (by norm_num)
  unfold bitReversalChecked bitReversal
  simp only [Int.toNat_ofNat]
  rw [bitReversalChecked_fold b real imag hre him (2 ^ b - 1) (by omega), Option.map_some']

/-- For buffers of length `2^b`, `b ≤ 29`, every access of `fft` is in range: the checked
`fft` does what `fft` does. -/
theorem fftChecked_eq (M : MathFns ℝ) (b : Nat) (hb : b ≤ 29) (re im : List ℝ)
    (hre : re.length = 2 ^ b) (him : im.length = 2 ^ b) :
    fftChecked M re im = fft M re im := by
  have hb32 : 2 ^ b ≤ 2 ^ 29 := Nat.pow_le_pow_right (by norm_num) hb
  obtain ⟨q1, q2, _⟩ := bitReversal_spec b re im hre him
  unfold fftChecked fft
  simp only []
  rw [hre, wrap32_of_lt _ (by omega), bitReversalChecked_eq b re im hre him, Option.some_bind]
  exact stageLoopChecked_eq M b hb b 0 (by omega) _ _ q1 q2 32

end CheckedLoops
end Deeplayer

namespace Deeplayer

section CheckedCompute

theorem windowFrameChecked_eq (hann pcm : List ℝ) (start : Nat) (fft_real : List ℝ)
    (hh : hann.length = kWindowSize) (hp : start + kWindowSize ≤ pcm.length)
    (h32 : start + kWindowSize ≤ 2147483648) (hf : fft_real.length = kFftSize) :
    windowFrameChecked hann pcm start fft_real = some (windowFrame hann pcm start fft_real) := by
  unfold windowFrameChecked windowFrame
  have hw : kWindowSize = 400 := rfl
  have hk : kFftSize = 512 := rfl
  obtain ⟨h1, _⟩ := foldl_guarded_eq
    (fun (buf : List ℝ) (i : Nat) =>
      decide (start + i < 2147483648 ∧ i < buf.length ∧ start + i < pcm.length ∧
        i < hann.length))
    (fun (buf : List ℝ) (i : Nat) => buf.set i (pcm.getD (start + i) 0 * hann.getD i 0))
    (fun buf => buf.length = kFftSize) (List.range kWindowSize)
    (fun buf i hi hP => by
      rw [List.mem_range] at hi
      refine ⟨?_, by
        show (buf.set i (pcm.getD (start + i) 0 * hann.getD i 0)).length = kFftSize
        rw [List.length_set]; exact hP⟩
      rw [decide_eq_true_iff, hP, hh]
      omega)
    (List.replicate fft_real.length 0) (by
      show (List.replicate fft_real.length (0 : ℝ)).length = kFftSize
      rw [List.length_replicate, hf])
  exact h1

theorem powerSpectrumChecked_eq (fft_real fft_imag ps : List ℝ)
    (h1 : fft_real.length = kFftSize) (h2 : fft_imag.length = kFftSize)
    (h3 : ps.length = kNumFftBins) :
    powerSpectrumChecked fft_real fft_imag ps = some (powerSpectrum fft_real fft_imag ps) := by
  unfold powerSpectrumChecked powerSpectrum
  have hk : kFftSize = 512 := rfl
  have hn : kNumFftBins = 257 := kNumFftBins_eq
  obtain ⟨g, _⟩ := foldl_guarded_eq
    (fun (ps : List ℝ) (k : Nat) =>
      decide (k < ps.length ∧ k < fft_real.length ∧ k < fft_imag.length))
    (fun (ps : List ℝ) (k : Nat) =>
      ps.set k (fft_real.getD k 0 * fft_real.getD k 0 + fft_imag.getD k 0 * fft_imag.getD k 0))
    (fun ps => ps.length = kNumFftBins) (List.range kNumFftBins)
    (fun ps k hk' hP => by
      rw [List.mem_range] at hk'
      refine ⟨?_, by
        show (ps.set k (fft_real.getD k 0 * fft_real.getD k 0
          + fft_imag.getD k 0 * fft_imag.getD k 0)).length = kNumFftBins
        rw [List.length_set]; exact hP⟩
      rw [decide_eq_true_iff, hP, h1, h2]
      omega)
    ps h3
  exact g

theorem bandEnergyChecked_eq (fb : List (List ℝ)) (m : Nat) (ps : List ℝ)
    (hm : m < fb.length) (hrow : (fb.getD m []).length = kNumFftBins)
    (hps : ps.length = kNumFftBins) :
    bandEnergyChecked fb m ps = some (bandEnergy (fb.getD m []) ps) := by
  unfold bandEnergyChecked bandEnergy
  obtain ⟨g, _⟩ := foldl_guarded_eq
    (fun (_ : ℝ) (k : Nat) =>
      decide (m < fb.length ∧ k < (fb.getD m []).length ∧ k < ps.length))
    (fun (energy : ℝ) (k : Nat) => energy + (fb.getD m []).getD k 0 * ps.getD k 0)
    (fun _ => True) (List.range kNumFftBins)
    (fun e k hk' _ => by
      rw [List.mem_range] at hk'
      refine ⟨?_, trivial⟩
      rw [decide_eq_true_iff, hrow, hps]
      exact ⟨hm, hk', hk'⟩)
    0 trivial
  exact g

theorem melLoopChecked_fold (M : MathFns ℝ) (fb : List (List ℝ)) (ps : List ℝ) (frame : Nat)
    (out : List ℝ) (hfb : fb.length = kNumMelBands)
    (hrow : ∀ m : Nat, m < kNumMelBands → (fb.getD m []).length = kNumFftBins)
    (hps : ps.length = kNumFftBins) (hout : frame * kNumMelBands + kNumMelBands ≤ out.length)
    (c : Nat) (hc : c ≤ kNumMelBands)
    (h32 : frame * kNumMelBands + kNumMelBands ≤ 2147483648) :
    (List.range c).foldl
        (fun (out : Option (List ℝ)) (m : Nat) =>
          out.bind fun o =>
            (bandEnergyChecked fb m ps).bind fun energy =>
              (chk32 ((frame : Int) * (kNumMelBands : Int) + (m : Int))).bind fun idx =>
                if 0 ≤ idx ∧ idx.toNat < o.length then
                  some (setAt o idx (M.log (max energy 1e-10)))
                else none)
        (some out) =
      (List.range c).foldl
        (fun (o : Option (List ℝ)) (m : Nat) =>
          o.bind fun o =>
            (chk32 ((frame : Int) * (kNumMelBands : Int) + (m : Int))).map fun idx =>
              setAt o idx (M.log (max (bandEnergy (fb.getD m []) ps) 1e-10)))
        (some out) := by
  induction c with
  | zero => simp only [List.range_zero, List.foldl_nil]
  | succ c ih =>
    obtain ⟨o1, g1, g2, _⟩ := melLoop_fold M fb ps frame out c (by omega)
    rw [List.range_succ, List.foldl_append, List.foldl_append, ih (by omega), g1,
      List.foldl_cons, List.foldl_nil, List.foldl_cons, List.foldl_nil, Option.some_bind,
      Option.some_bind, bandEnergyChecked_eq fb c ps (by omega) (hrow c (by omega)) hps,
      Option.some_bind]
    have hidx : chk32 ((frame : Int) * (kNumMelBands : Int) + (c : Int))
        = some ((frame * kNumMelBands + c : Nat) : Int) := by
      have e : (frame : Int) * (kNumMelBands : Int) + (c : Int)
          = ((frame * kNumMelBands + c : Nat) : Int) := by push_cast; ring
      rw [e]
      exact chk32_of_range _ (by omega) (by omega)
    rw [hidx, Option.some_bind, Option.map_some', if_pos]
    refine ⟨by omega, ?_⟩
    rw [Int.toNat_ofNat, g2]
    omega

theorem melLoopChecked_eq (M : MathFns ℝ) (fb : List (List ℝ)) (ps : List ℝ) (frame : Nat)
    (out : List ℝ) (hfb : fb.length = kNumMelBands)
    (hrow : ∀ m : Nat, m < kNumMelBands → (fb.getD m []).length = kNumFftBins)
    (hps : ps.length = kNumFftBins) (hout : frame * kNumMelBands + kNumMelBands ≤ out.length)
    (h32 : frame * kNumMelBands + kNumMelBands ≤ 2147483648) :
    melLoopChecked M fb ps frame out = melLoop M fb ps frame out :=
  melLoopChecked_fold M fb ps frame out hfb hrow hps hout kNumMelBands (le_refl _) h32

end CheckedCompute
end Deeplayer

namespace Deeplayer

section CheckedTop

theorem frameStepChecked_eq (M : MathFns ℝ) (hcos : M.cos = Real.cos) (hsin : M.sin = Real.sin)
    (hpi : M.pi = Real.pi) (self : MelSpectrogram ℝ) (pcm : List ℝ) (st : ComputeState ℝ)
    (frame : Nat) (hhann : self.hann_window_.length = kWindowSize)
    (hfb : self.mel_filterbank_.length = kNumMelBands)
    (hrow : ∀ m : Nat, m < kNumMelBands → (self.mel_filterbank_.getD m []).length = kNumFftBins)
    (h1 : st.fft_real.length = kFftSize) (h2 : st.fft_imag.length = kFftSize)
    (h3 : st.power_spectrum.length = kNumFftBins)
    (hp : frame * 160 + kWindowSize ≤ pcm.length)
    (h32 : frame * 160 + kWindowSize ≤ 2147483648)
    (hout : frame * kNumMelBands + kNumMelBands ≤ st.mel_output.length)
    (hb2 : frame * kNumMelBands + kNumMelBands ≤ 2147483648) :
    frameStepChecked M self pcm st frame = frameStep M self pcm st frame := by
  have hw : kWindowSize = 400 := rfl
  have hstart : chk32 ((frame : Int) * (kHopSize : Int)) = some ((frame * 160 : Nat) : Int) := by
    have e : (frame : Int) * (kHopSize : Int) = ((frame * 160 : Nat) : Int) := by
      push_cast; rfl
    rw [e]
    exact chk32_of_range _ (by omega) (by omega)
  obtain ⟨w1, _⟩ := windowFrame_spec self.hann_window_ pcm (frame * 160) st.fft_real h1
  have hz : (List.replicate st.fft_imag.length (0 : ℝ)).length = 2 ^ 9 := by
    rw [List.length_replicate, h2, kFftSize_eq]
  obtain ⟨r, f1, f2, f3, _⟩ := fft_eq_dft M hcos hsin hpi 9 (by norm_num)
    (windowFrame self.hann_window_ pcm (frame * 160) st.fft_real)
    (List.replicate st.fft_imag.length (0 : ℝ)) (by rw [w1, kFftSize_eq]) hz
  obtain ⟨p1, _⟩ := powerSpectrum_spec r.1 r.2 st.power_spectrum h3
  unfold frameStepChecked frameStep
  rw [hstart, Option.some_bind, Option.some_bind]
  simp only [Int.toNat_ofNat]
  rw [windowFrameChecked_eq _ _ _ _ hhann hp h32 h1, Option.some_bind,
    fftChecked_eq M 9 (by norm_num) _ _ (by rw [w1, kFftSize_eq]) hz, f1, Option.some_bind,
    Option.some_bind,
    powerSpectrumChecked_eq r.1 r.2 _ (by rw [f2, kFftSize_eq]) (by rw [f3, kFftSize_eq]) h3,
    Option.some_bind,
    melLoopChecked_eq M _ _ frame _ hfb hrow p1 hout hb2]

theorem framesFoldChecked_eq (M : MathFns ℝ) (hcos : M.cos = Real.cos)
    (hsin : M.sin = Real.sin) (hpi : M.pi = Real.pi) (self : MelSpectrogram ℝ) (pcm : List ℝ)
    (st0 : ComputeState ℝ) (hhann : self.hann_window_.length = kWindowSize)
    (hfb : self.mel_filterbank_.length = kNumMelBands)
    (hrow : ∀ m : Nat, m < kNumMelBands → (self.mel_filterbank_.getD m []).length = kNumFftBins)
    (h1 : st0.fft_real.length = kFftSize) (h2 : st0.fft_imag.length = kFftSize)
    (h3 : st0.power_spectrum.length = kNumFftBins) (c : Nat) (hc : c ≤ 13421771)
    (hp : c * 160 + 240 ≤ pcm.length) (hout : c * 80 ≤ st0.mel_output.length) :
    (List.range c).foldl
        (fun (s : Option (ComputeState ℝ)) (frame : Nat) =>
          s.bind fun s => frameStepChecked M self pcm s frame) (some st0) =
      (List.range c).foldl
        (fun (s : Option (ComputeState ℝ)) (frame : Nat) =>
          s.bind fun s => frameStep M self pcm s frame) (some st0) := by
  induction c with
  | zero => simp only [List.range_zero, List.foldl_nil]
  | succ c ih =>
    obtain ⟨st, e0, e1, e2, e3, e4, _⟩ := framesFold_spec M hcos hsin hpi self pcm st0 h1 h2 h3 c
      (by omega)
    have hw : kWindowSize = 400 := rfl
    rw [List.range_succ, List.foldl_append, List.foldl_append, ih (by omega) (by omega)
      (by omega), e0, List.foldl_cons, List.foldl_nil, List.foldl_cons, List.foldl_nil,
      Option.some_bind, Option.some_bind]
    exact frameStepChecked_eq M hcos hsin hpi self pcm st c hhann hfb hrow e1 e2 e3
      (by omega) (by omega) (by rw [e4, kNumMelBands_eq]; omega)
      (by rw [kNumMelBands_eq]; omega)

theorem init_hann_window_length (M : MathFns ℝ) :
    (init_hann_window M).length = kWindowSize := by
  simp [init_hann_window]

theorem init_mel_filterbank_length (M : MathFns ℝ) :
    (init_mel_filterbank M).length = kNumMelBands := by
  simp [init_mel_filterbank]

theorem init_mel_filterbank_row_length (M : MathFns ℝ) (m : Nat) (hm : m < kNumMelBands) :
    ((init_mel_filterbank M).getD m []).length = kNumFftBins := by
  rw [init_mel_filterbank_getD M m (by rw [kNumMelBands_eq] at hm; exact hm)]
  exact filterRow_length _ _ _

/-- For an input whose length fits an `int`, no `int` computation of `compute` (and of the
`fft` it calls) overflows and every index lies inside its vector: the checked `compute` does
what `compute` does. -/
theorem computeChecked_eq (M : MathFns ℝ) (hcos : M.cos = Real.cos) (hsin : M.sin = Real.sin)
    (hpi : M.pi = Real.pi) (pcm : List ℝ) (hL : pcm.length < 2147483648) :
    computeChecked M (MelSpectrogram.new M) pcm = compute M (MelSpectrogram.new M) pcm := by
  unfold computeChecked compute
  have hw : kWindowSize = 400 := rfl
  by_cases h4 : pcm.length < kWindowSize
  · rw [if_pos h4, if_pos h4]
  · rw [if_neg h4, if_neg h4, numFrames_of_lt pcm.length (by omega) hL, Option.some_bind,
      Option.some_bind]
    have hout : chk32 (((((pcm.length - 400) / 160 + 1 : Nat)) : Int) * (kNumMelBands : Int))
        = some (((((pcm.length - 400) / 160 + 1) * 80 : Nat)) : Int) := by
      have e : ((((pcm.length - 400) / 160 + 1 : Nat)) : Int) * (kNumMelBands : Int)
          = (((((pcm.length - 400) / 160 + 1) * 80 : Nat)) : Int) := by
        have : (kNumMelBands : Int) = 80 := rfl
        rw [this]; push_cast; ring
      rw [e]
      exact chk32_of_range _ (by omega) (by omega)
    rw [hout, Option.some_bind, Option.some_bind, if_neg (by omega), if_neg (by omega)]
    simp only [Int.toNat_ofNat]
    rw [framesFoldChecked_eq M hcos hsin hpi (MelSpectrogram.new M) pcm _
      (init_hann_window_length M) (init_mel_filterbank_length M)
      (init_mel_filterbank_row_length M)
      (List.length_replicate _ _) (List.length_replicate _ _) (List.length_replicate _ _)
      ((pcm.length - 400) / 160 + 1) (by omega) (by omega)
      (by
        show ((pcm.length - 400) / 160 + 1) * 80 ≤
          (List.replicate (((pcm.length - 400) / 160 + 1) * 80) (0 : ℝ)).length
        rw [List.length_replicate])]

end CheckedTop
end Deeplayer

namespace Deeplayer

section LastClaims

/-- C11 does not hold of the code: the buffer that `compute` hands to `fft` has
`kFftSize = 512` entries, the 400 windowed samples followed by zeros, so the transform has
size 512 (and 257 bins), not the 400 of the class documentation. -/
theorem compute_transform_size :
    kFftSize = 512 ∧ kWindowSize = 400 ∧ kFftSize ≠ kWindowSize ∧ kNumFftBins = 257 ∧
    (windowFrame
      (init_hann_window
        (MathFns.mk Real.cos Real.sin Real.log (Real.logb 10) (fun a b => a ^ b) Real.pi))
      (List.replicate 400 (1 : ℝ)) 0 (List.replicate kFftSize (0 : ℝ))).length = 512 ∧
    (List.replicate kFftSize (0 : ℝ)).length = 512 := by
  refine ⟨rfl, rfl, by decide, kNumFftBins_eq, ?_, ?_⟩
  · exact (windowFrame_spec _ _ _ _ (List.length_replicate _ _)).1
  · exact List.length_replicate _ _

/-- C13: for every PCM input of length `L` with `400 ≤ L ≤ 2^31 - 1` the `int` computations
of `compute` (`num_frames = (L - 400) / 160 + 1`, `num_frames * 80`, `frame * 160 + i`,
`frame * 80 + m`) do not overflow, the indices into `pcm` and into the output are in range,
and the run of `compute` with every access of `compute` and of the 512-point `fft` checked
against its vector returns the same result as `compute`. -/
theorem compute_safe (pcm : List ℝ) (h1 : 400 ≤ pcm.length) (h2 : pcm.length ≤ 2147483647) :
    numFrames pcm.length = some ((((pcm.length - 400) / 160 + 1 : Nat)) : Int) ∧
    chk32 (((((pcm.length - 400) / 160 + 1 : Nat)) : Int) * (kNumMelBands : Int))
      = some (((((pcm.length - 400) / 160 + 1) * 80 : Nat)) : Int) ∧
    (∀ frame i m : Nat, frame < (pcm.length - 400) / 160 + 1 → i < 400 → m < 80 →
      chk32 ((frame : Int) * (kHopSize : Int) + (i : Int))
        = some ((frame * 160 + i : Nat) : Int) ∧
      frame * 160 + i < pcm.length ∧
      chk32 ((frame : Int) * (kNumMelBands : Int) + (m : Int))
        = some ((frame * 80 + m : Nat) : Int) ∧
      frame * 80 + m < ((pcm.length - 400) / 160 + 1) * 80) ∧
    ∃ out : List ℝ,
      computeChecked
        (MathFns.mk Real.cos Real.sin Real.log (Real.logb 10) (fun a b => a ^ b) Real.pi)
        (MelSpectrogram.new
          (MathFns.mk Real.cos Real.sin Real.log (Real.logb 10) (fun a b => a ^ b) Real.pi))
        pcm = some out ∧
      compute
        (MathFns.mk Real.cos Real.sin Real.log (Real.logb 10) (fun a b => a ^ b) Real.pi)
        (MelSpectrogram.new
          (MathFns.mk Real.cos Real.sin Real.log (Real.logb 10) (fun a b => a ^ b) Real.pi))
        pcm = some out ∧
      out.length = ((pcm.length - 400) / 160 + 1) * 80 := by
  have hL : pcm.length < 2147483648 := by omega
  have hk : (kNumMelBands : Int) = 80 := rfl
  have hh : (kHopSize : Int) = 160 := rfl
  refine ⟨numFrames_of_lt pcm.length h1 hL, ?_, fun frame i m hf hi hm => ⟨?_, ?_, ?_, ?_⟩, ?_⟩
  · have e : ((((pcm.length - 400) / 160 + 1 : Nat)) : Int) * (kNumMelBands : Int)
        = (((((pcm.length - 400) / 160 + 1) * 80 : Nat)) : Int) := by
      rw [hk]; push_cast; ring
    rw [e]
    exact chk32_of_range _ (by omega) (by omega)
  · have e : (frame : Int) * (kHopSize : Int) + (i : Int) = ((frame * 160 + i : Nat) : Int) := by
      rw [hh]; push_cast; ring
    rw [e]
    exact chk32_of_range _ (by omega) (by omega)
  · omega
  · have e : (frame : Int) * (kNumMelBands : Int) + (m : Int)
        = ((frame * 80 + m : Nat) : Int) := by
      rw [hk]; push_cast; ring
    rw [e]
    exact chk32_of_range _ (by omega) (by omega)
  · omega
  · obtain ⟨out, g1, g2, _⟩ := compute_spec
      (MathFns.mk Real.cos Real.sin Real.log (Real.logb 10) (fun a b => a ^ b) Real.pi)
      rfl rfl rfl
      (MelSpectrogram.new
        (MathFns.mk Real.cos Real.sin Real.log (Real.logb 10) (fun a b => a ^ b) Real.pi))
      pcm _ h1 (numFrames_of_lt pcm.length h1 hL) (by omega)
    refine ⟨out, ?_, g1, ?_⟩
    · rw [computeChecked_eq _ rfl rfl rfl pcm hL]
      exact g1
    · rw [g2, Int.toNat_ofNat]

/-- Instance of C13 at a single window, `L = 400`. -/
theorem compute_safe_witness :
    ∃ out : List ℝ,
      computeChecked
        (MathFns.mk Real.cos Real.sin Real.log (Real.logb 10) (fun a b => a ^ b) Real.pi)
        (MelSpectrogram.new
          (MathFns.mk Real.cos Real.sin Real.log (Real.logb 10) (fun a b => a ^ b) Real.pi))
        (List.replicate 400 (0 : ℝ)) = some out ∧
      compute
        (MathFns.mk Real.cos Real.sin Real.log (Real.logb 10) (fun a b => a ^ b) Real.pi)
        (MelSpectrogram.new
          (MathFns.mk Real.cos Real.sin Real.log (Real.logb 10) (fun a b => a ^ b) Real.pi))
        (List.replicate 400 (0 : ℝ)) = some out ∧
      out.length = (((List.replicate 400 (0 : ℝ)).length - 400) / 160 + 1) * 80 :=
  (compute_safe (List.replicate 400 (0 : ℝ)) (by rw [List.length_replicate])
    (by rw [List.length_replicate]; norm_num)).2.2.2

/-- C14 does not hold of the code: for a session with two source and two destination
channels and the interleaved input `[1, 2, 3, 4]` (2 samples per channel), `resample` calls
`swr_convert` with an output buffer of 4 floats, `out_count = 4` and `in_count = 4`: the
float count, not the per-channel count `4 / 2`, and half of the `4 * 2` floats the converter
may write. -/
theorem resample_passes_float_count :
    Resampler.new recordingSwr 44100 16000 2 2
      = Except.ok { swr_ctx_ := [2, 2], src_rate_ := 44100, dst_rate_ := 16000 } ∧
    (Resampler.resample recordingSwr
      { swr_ctx_ := [2, 2], src_rate_ := 44100, dst_rate_ := 16000 }
      ([1, 2, 3, 4] : List ℝ)).2.swr_ctx_ = [2, 2, 4, 4, 4] ∧
    (4 : Int) ≠ 4 / 2 ∧ (4 : Int) < 4 * 2 := by
  refine ⟨?_, ?_, by norm_num, by norm_num⟩
  · simp [Resampler.new, recordingSwr]
  · simp [Resampler.resample, recordingSwr, wrap32]

end LastClaims
end Deeplayer
